import Mathlib

/-!
# A shallow embedding of `myshell.c`

The development follows the source file function by function.

* C strings are lists of characters; reading at or past the end of the list
  yields the terminating NUL (`inAt`).
* Pointer arrays (`char **argv`, `char **tokens`) are lists of optional
  strings, `none` being the `NULL` pointer.
* The job table is a list of `MAX_JOBS` slots.
* Loops whose bound is not syntactically evident carry a fuel argument and
  return `none` when it is exhausted; `expand_variables_returns`,
  `tokenize_returns` and `handle_redirection_returns` show that the fuel
  supplied by the entry points is enough.
* The operating system (environment, `open`, `dup2`, `waitpid`, `execvp`) is
  an explicit oracle, and the system calls a path performs are recorded in a
  trace of `Effect`s.
* Function calls cost nothing in the embedding. The one recursive function,
  `expand_variables`, keeps `frame_bytes` of arrays live across its recursive
  call; `CallDepth` counts the activations nested on an input, to be compared
  with `default_stack_bytes`.
-/

set_option autoImplicit false

namespace MyShell

/-! ## Constants and basic types -/

def MAX_TOKENS : Nat := 128
def MAX_LINE : Nat := 4096
def MAX_JOBS : Nat := 64

/-- The terminating byte of a C string. -/
def NUL : Char := Char.ofNat 0

/-- The single quote character. -/
def SQUOTE : Char := Char.ofNat 39

/-- The double quote character. -/
def DQUOTE : Char := Char.ofNat 34

/-- A C string, without its terminating NUL. -/
abbrev CStr := List Char

/-- Reading `s[i]`: the byte at index `i`, the terminator past the end. -/
def inAt (s : CStr) (i : Nat) : Char := s.getD i NUL

/-- The C string held in a buffer: everything before the first NUL. -/
def cstr (s : List Char) : CStr := s.takeWhile (fun c => c != NUL)

/-- `isalpha` in the C locale. -/
def isalpha (c : Char) : Bool := c.isAlpha

/-- `isalnum` in the C locale. -/
def isalnum (c : Char) : Bool := c.isAlphanum

/-! ## Wait statuses

The raw `int` filled in by `waitpid`, with the decoding of the platform header
(`<sys/wait.h>`, glibc layout): the low seven bits hold the terminating signal
(zero for a normal exit, `0x7f` for a stop), bit 7 the core flag, and bits
8..15 the exit code or the stop signal. -/

/-- `WTERMSIG(status)`, that is `status & 0x7f`. -/
def WTERMSIG (status : Nat) : Nat := status % 128

/-- `WEXITSTATUS(status)`, that is `(status & 0xff00) >> 8`. -/
def WEXITSTATUS (status : Nat) : Nat := (status / 256) % 256

/-- `WIFEXITED(status)`, that is `WTERMSIG(status) == 0`. -/
def WIFEXITED (status : Nat) : Bool := WTERMSIG status == 0

/-- `WIFSIGNALED(status)`, that is `((signed char)((status & 0x7f) + 1) >> 1) > 0`:
the low seven bits are neither `0` nor `0x7f`. -/
def WIFSIGNALED (status : Nat) : Bool :=
  decide (0 < status % 128 ∧ status % 128 < 127)

/-- `WIFSTOPPED(status)`, that is `(status & 0xff) == 0x7f`. -/
def WIFSTOPPED (status : Nat) : Bool := status % 256 == 127

/-- `WIFCONTINUED(status)`, that is `status == 0xffff`. -/
def WIFCONTINUED (status : Nat) : Bool := status == 65535

/-- The status the kernel reports for a child that called `exit(code)`. -/
def exitedStatus (code : Nat) : Nat := (code % 256) * 256

/-- The status the kernel reports for a child killed by signal `sig`. -/
def signaledStatus (sig : Nat) (core : Bool) : Nat := sig + (if core then 128 else 0)

def SIGCONT : Nat := 18

/-! ## The operating system oracle and the trace of system calls -/

/-- What the process environment answers. -/
structure OS where
  /-- The value `getenv(name)` returns, `none` for `NULL`. -/
  getenv : CStr → Option CStr
  /-- The value of `getpid()`. -/
  pid : Int
  /-- Whether `open(path, ...)` succeeds. -/
  open_ok : CStr → Bool
  /-- Whether `dup2` succeeds. -/
  dup2_ok : Bool
  /-- The return value and the status stored by `safe_waitpid(pid, &status, 0)`. -/
  waitpid : Int → Int × Nat
  /-- Whether `execvp(file, ...)` succeeds. -/
  exec_ok : CStr → Bool

/-- The system calls recorded in a trace. -/
inductive Effect where
  | kill (pid : Int) (sig : Nat)
  | waitpid (pid : Int)
  | openFile (path : CStr) (append : Bool) (forInput : Bool)
  | dup2 (forInput : Bool)
  | execvp (file : CStr) (argv : List CStr)
  | exit (code : Int)
  | stderr (msg : String)
  deriving DecidableEq, Repr

/-! ## The job table -/

inductive job_status_t where
  | JOB_RUNNING
  | JOB_DONE
  | JOB_STOPPED
  deriving DecidableEq, Repr

open job_status_t

structure Job where
  jid : Int
  pid : Int
  status : job_status_t
  cmdline : Option CStr
  deriving DecidableEq, Repr

/-- A zero-initialised slot (static storage). -/
def Job.zero : Job := { jid := 0, pid := 0, status := JOB_RUNNING, cmdline := none }

/-- The globals of the shell. -/
structure Shell where
  jobs : List Job
  next_jid : Int
  last_status : Int
  deriving DecidableEq, Repr

/-- The state at program start. -/
def Shell.init : Shell :=
  { jobs := List.replicate MAX_JOBS Job.zero, next_jid := 1, last_status := 0 }

/-- Reading `jobs[i]`. -/
def jobAt (jobs : List Job) (i : Nat) : Job := jobs.getD i Job.zero

/-- The loop of `add_job` from slot `i` on, with `n = MAX_JOBS - i` slots left. -/
def add_job_from (st : Shell) (pid : Int) (cmdline : Option CStr) : Nat → Nat → Int × Shell
  | 0, _ => (-1, st)
  | n + 1, i =>
    if (jobAt st.jobs i).pid = 0 then
      (st.next_jid,
        { st with
          jobs := st.jobs.set i
            { jid := st.next_jid, pid := pid, status := JOB_RUNNING,
              cmdline := some (cmdline.getD []) }
          next_jid := st.next_jid + 1 })
    else add_job_from st pid cmdline n (i + 1)

/-- `add_job(pid, cmdline)`: the returned job id (or `-1`) and the new globals. -/
def add_job (st : Shell) (pid : Int) (cmdline : Option CStr) : Int × Shell :=
  add_job_from st pid cmdline MAX_JOBS 0

/-- The loop of `find_job_by_pid` from slot `i` on: the index of the slot found. -/
def find_job_by_pid_from (jobs : List Job) (pid : Int) : Nat → Nat → Option Nat
  | 0, _ => none
  | n + 1, i => if (jobAt jobs i).pid = pid then some i else find_job_by_pid_from jobs pid n (i + 1)

def find_job_by_pid (jobs : List Job) (pid : Int) : Option Nat :=
  find_job_by_pid_from jobs pid MAX_JOBS 0

/-- The loop of `find_job_by_jid` from slot `i` on: the index of the slot found. -/
def find_job_by_jid_from (jobs : List Job) (jid : Int) : Nat → Nat → Option Nat
  | 0, _ => none
  | n + 1, i => if (jobAt jobs i).jid = jid then some i else find_job_by_jid_from jobs jid n (i + 1)

def find_job_by_jid (jobs : List Job) (jid : Int) : Option Nat :=
  find_job_by_jid_from jobs jid MAX_JOBS 0

/-- `remove_job(&jobs[k])`. -/
def remove_job (jobs : List Job) (k : Nat) : List Job :=
  jobs.set k { jid := 0, pid := 0, status := JOB_DONE, cmdline := none }

/-- The loop of `cleanup_jobs` from slot `i` on. -/
def cleanup_jobs_from (jobs : List Job) : Nat → Nat → List Job
  | 0, _ => jobs
  | n + 1, i =>
    if (jobAt jobs i).pid ≠ 0 ∧ (jobAt jobs i).status = JOB_DONE then
      cleanup_jobs_from (remove_job jobs i) n (i + 1)
    else cleanup_jobs_from jobs n (i + 1)

def cleanup_jobs (jobs : List Job) : List Job := cleanup_jobs_from jobs MAX_JOBS 0

/-- One iteration of the loop of `sigchld_handler`, for a `waitpid` that
returned `pid > 0` with `status`. -/
def sigchld_step (jobs : List Job) (pid : Int) (status : Nat) : List Job :=
  match find_job_by_pid jobs pid with
  | none => jobs
  | some k =>
    if WIFEXITED status || WIFSIGNALED status then
      jobs.set k { jobAt jobs k with status := JOB_DONE }
    else if WIFSTOPPED status then
      jobs.set k { jobAt jobs k with status := JOB_STOPPED }
    else if WIFCONTINUED status then
      jobs.set k { jobAt jobs k with status := JOB_RUNNING }
    else jobs

/-! ## Foreground waits -/

/-- The parent branch of the single-command path for a foreground command:
`if (safe_waitpid(pid, &status, 0) > 0) { ... }`, giving the new `last_status`. -/
def single_fg_wait (last_status : Int) (r : Int) (status : Nat) : Int :=
  if r > 0 then
    if WIFEXITED status then (WEXITSTATUS status : Int)
    else if WIFSIGNALED status then 128 + (WTERMSIG status : Int)
    else last_status
  else last_status

/-- The two waits that end `exec_pipe`, giving the new `last_status`:
`if (safe_waitpid(p1, &status, 0) > 0) last_status = WEXITSTATUS(status);`
and the same for `p2`. -/
def exec_pipe_waits (last_status : Int) (w1 w2 : Int × Nat) : Int :=
  let ls1 := if w1.1 > 0 then (WEXITSTATUS w1.2 : Int) else last_status
  if w2.1 > 0 then (WEXITSTATUS w2.2 : Int) else ls1

/-- The `fg` builtin once its argument has been parsed to `jid`. -/
def builtin_fg (os : OS) (st : Shell) (jid : Int) : Shell × List Effect :=
  match find_job_by_jid st.jobs jid with
  | none => (st, [Effect.stderr "fg: no such job"])
  | some k =>
    let j := jobAt st.jobs k
    let w := os.waitpid j.pid
    let ls := if w.1 > 0 then (WEXITSTATUS w.2 : Int) else st.last_status
    ({ st with jobs := remove_job st.jobs k, last_status := ls },
      [Effect.kill j.pid SIGCONT, Effect.waitpid j.pid])

/-- The `bg` builtin once its argument has been parsed to `jid`. -/
def builtin_bg (st : Shell) (jid : Int) : Shell × List Effect :=
  match find_job_by_jid st.jobs jid with
  | none => (st, [Effect.stderr "bg: no such job"])
  | some k =>
    let j := jobAt st.jobs k
    ({ st with jobs := st.jobs.set k { j with status := JOB_RUNNING } },
      [Effect.kill j.pid SIGCONT])

/-! ## `expand_variables` -/

/-- The text `snprintf(buf, sizeof(buf), "%d", n)` produces. -/
def fmt_int (n : Int) : CStr := (toString n).toList

/-- The name scan `while (in[j] && (isalnum(in[j]) || in[j] == '_')) j++`,
started on the suffix `&in[j]`: the number of positions advanced. -/
def span_name : List Char → Nat
  | [] => 0
  | c :: cs => if c ≠ NUL ∧ (isalnum c = true ∨ c = '_') then span_name cs + 1 else 0

/-- The scan `while (in[kend] && in[kend] != '}') kend++`, started on the suffix
`&in[kend]`: the number of positions advanced. -/
def span_to_brace : List Char → Nat
  | [] => 0
  | c :: cs => if c ≠ NUL ∧ c ≠ '}' then span_to_brace cs + 1 else 0

/-- The copy loop `while (val[k] && oi + 1 < outsz) out[oi++] = val[k++]`. -/
def copy_bounded (outsz : Nat) : List Char → List Char → List Char
  | [], out => out
  | c :: val, out =>
    if c ≠ NUL ∧ out.length + 1 < outsz then copy_bounded outsz val (out ++ [c]) else out

/-- The copy of an optional `getenv` result (nothing is copied for `NULL`). -/
def copy_opt (outsz : Nat) (val : Option CStr) (out : List Char) : List Char :=
  match val with
  | some v => copy_bounded outsz v out
  | none => out

/-- The main loop of `expand_variables`, entered at the loop test with index `i`
and `oi = out.length`. Each iteration and each recursive call on a default
text uses one unit of fuel. The `${...}` block falls through to the `$VAR`
test when it matches neither `:-` nor `}`, hence the flat chain of tests. -/
def expand_loop (os : OS) (last_status : Int) :
    Nat → Nat → CStr → Nat → Bool → Bool → List Char → Option (List Char)
  | 0, _, _, _, _, _, _ => none
  | fuel + 1, outsz, s, i, in_single, in_double, out =>
    let c := inAt s i
    if c = NUL ∨ ¬ (out.length + 1 < outsz) then some out
    else if c = SQUOTE ∧ in_double = false then
      expand_loop os last_status fuel outsz s (i + 1) (!in_single) in_double (out ++ [c])
    else if c = DQUOTE ∧ in_single = false then
      expand_loop os last_status fuel outsz s (i + 1) in_single (!in_double) (out ++ [c])
    else if c = '$' ∧ in_single = false then
      if inAt s (i + 1) = '$' then
        expand_loop os last_status fuel outsz s (i + 2) in_single in_double
          (copy_bounded outsz (fmt_int os.pid) out)
      else if inAt s (i + 1) = '?' then
        expand_loop os last_status fuel outsz s (i + 2) in_single in_double
          (copy_bounded outsz (fmt_int last_status) out)
      else
        let j := i + 2 + span_name (s.drop (i + 2))
        let name := (s.drop (i + 2)).take (min (j - (i + 2)) 255)
        if inAt s (i + 1) = '{' ∧ inAt s j = ':' ∧ inAt s (j + 1) = '-' then
          let kpos := j + 2
          let kend := kpos + span_to_brace (s.drop kpos)
          let deflen := min (kend - kpos) (MAX_LINE - 1)
          let defbuf := (s.drop kpos).take deflen
          match expand_loop os last_status fuel MAX_LINE defbuf 0 false false [] with
          | none => none
          | some defexp =>
            let out1 :=
              match os.getenv name with
              | some val =>
                if inAt val 0 ≠ NUL then copy_bounded outsz val out
                else copy_bounded outsz defexp out
              | none => copy_bounded outsz defexp out
            let i1 := if inAt s kend = '}' then kend else j
            expand_loop os last_status fuel outsz s (i1 + 1) in_single in_double out1
        else if inAt s (i + 1) = '{' ∧ inAt s j = '}' then
          expand_loop os last_status fuel outsz s (j + 1) in_single in_double
            (copy_opt outsz (os.getenv name) out)
        else if isalpha (inAt s (i + 1)) = true ∨ inAt s (i + 1) = '_' then
          let j1 := i + 1 + span_name (s.drop (i + 1))
          let name1 := (s.drop (i + 1)).take (min (j1 - (i + 1)) 255)
          expand_loop os last_status fuel outsz s j1 in_single in_double
            (copy_opt outsz (os.getenv name1) out)
        else
          expand_loop os last_status fuel outsz s (i + 1) in_single in_double (out ++ ['$'])
    else
      expand_loop os last_status fuel outsz s (i + 1) in_single in_double (out ++ [c])

/-- `expand_variables(in, out, outsz)`: the C string left in `out`. -/
def expand_variables (os : OS) (last_status : Int) (s : CStr) (outsz : Nat) :
    Option (List Char) :=
  expand_loop os last_status (s.length + 1) outsz s 0 false false []

/-! ### The iteration of the loop as a value -/

/-- What one iteration of the loop of `expand_variables` does, as a value: it
leaves the loop, goes on at another index, or (for the `:-` form) expands a
default text first. Used to reason about `expand_loop`. -/
inductive ExpandStep where
  | done
  | next (i1 : Nat) (sq dq : Bool) (out1 : List Char)
  | dflt (defbuf : CStr) (name : CStr) (i1 : Nat)
  deriving DecidableEq, Repr

/-- The output after the `:-` form: the value of `name` when set and
non-empty, else the expanded default text. -/
def default_out (os : OS) (outsz : Nat) (name defexp : CStr) (out : List Char) : List Char :=
  match os.getenv name with
  | some val =>
    if inAt val 0 ≠ NUL then copy_bounded outsz val out
    else copy_bounded outsz defexp out
  | none => copy_bounded outsz defexp out

/-- The iteration of `expand_loop` at index `i`, without its recursive calls. -/
def expand_step (os : OS) (last_status : Int) (outsz : Nat) (s : CStr) (i : Nat)
    (in_single in_double : Bool) (out : List Char) : ExpandStep :=
  let c := inAt s i
  if c = NUL ∨ ¬ (out.length + 1 < outsz) then ExpandStep.done
  else if c = SQUOTE ∧ in_double = false then
    ExpandStep.next (i + 1) (!in_single) in_double (out ++ [c])
  else if c = DQUOTE ∧ in_single = false then
    ExpandStep.next (i + 1) in_single (!in_double) (out ++ [c])
  else if c = '$' ∧ in_single = false then
    if inAt s (i + 1) = '$' then
      ExpandStep.next (i + 2) in_single in_double (copy_bounded outsz (fmt_int os.pid) out)
    else if inAt s (i + 1) = '?' then
      ExpandStep.next (i + 2) in_single in_double (copy_bounded outsz (fmt_int last_status) out)
    else
      let j := i + 2 + span_name (s.drop (i + 2))
      let name := (s.drop (i + 2)).take (min (j - (i + 2)) 255)
      if inAt s (i + 1) = '{' ∧ inAt s j = ':' ∧ inAt s (j + 1) = '-' then
        let kpos := j + 2
        let kend := kpos + span_to_brace (s.drop kpos)
        let deflen := min (kend - kpos) (MAX_LINE - 1)
        let defbuf := (s.drop kpos).take deflen
        let i1 := if inAt s kend = '}' then kend else j
        ExpandStep.dflt defbuf name (i1 + 1)
      else if inAt s (i + 1) = '{' ∧ inAt s j = '}' then
        ExpandStep.next (j + 1) in_single in_double (copy_opt outsz (os.getenv name) out)
      else if isalpha (inAt s (i + 1)) = true ∨ inAt s (i + 1) = '_' then
        let j1 := i + 1 + span_name (s.drop (i + 1))
        let name1 := (s.drop (i + 1)).take (min (j1 - (i + 1)) 255)
        ExpandStep.next j1 in_single in_double (copy_opt outsz (os.getenv name1) out)
      else
        ExpandStep.next (i + 1) in_single in_double (out ++ ['$'])
  else
    ExpandStep.next (i + 1) in_single in_double (out ++ [c])

/-- The text `${NAME:-D}`. -/
def default_form (name d : CStr) : CStr := '$' :: '{' :: (name ++ ':' :: '-' :: (d ++ ['}']))

/-! ## `tokenize` and the quote-stripping pass of `main` -/

/-- The separators `' '`, `'\t'` and `'\n'`. -/
def is_ws (c : Char) : Bool := c == ' ' || c == '\t' || c == '\n'

/-- The outer loop of `tokenize`, with `p` the suffix of the line the pointer
is at, `n` the token count and `toks` the tokens stored so far. A token is the
text from its start to the byte the tokenizer overwrites with NUL (or to the
end of the line). -/
def tokenize_loop : Nat → List Char → Nat → List CStr → Option (List CStr)
  | 0, _, _, _ => none
  | fuel + 1, p, n, toks =>
    if inAt p 0 = NUL ∨ ¬ (n < MAX_TOKENS - 1) then some toks
    else
      let p1 := p.dropWhile (fun c => c != NUL && is_ws c)
      if inAt p1 0 = NUL then some toks
      else if inAt p1 0 = DQUOTE ∨ inAt p1 0 = SQUOTE then
        let quote := inAt p1 0
        let p2 := p1.drop 1
        let tok := p2.takeWhile (fun c => c != NUL && c != quote)
        let p3 := p2.dropWhile (fun c => c != NUL && c != quote)
        let p4 := if inAt p3 0 ≠ NUL then p3.drop 1 else p3
        tokenize_loop fuel p4 (n + 1) (toks ++ [tok])
      else
        let tok := p1.takeWhile (fun c => c != NUL && !is_ws c)
        let p3 := p1.dropWhile (fun c => c != NUL && !is_ws c)
        let p4 := if inAt p3 0 ≠ NUL then p3.drop 1 else p3
        tokenize_loop fuel p4 (n + 1) (toks ++ [tok])

/-- `tokenize(line, tokens)`: the tokens stored before the `NULL` terminator. -/
def tokenize (line : CStr) : Option (List CStr) :=
  tokenize_loop (line.length + 1) line 0 []

/-- The test `n == 0` or `tokens[0][0] == '\0'` by which `main` skips a line. -/
def line_skipped (toks : List CStr) : Bool :=
  match toks with
  | [] => true
  | t :: _ => inAt t 0 == NUL

/-- The body of the quote-stripping loop of `main` for one token. -/
def strip_quotes (t : CStr) : CStr :=
  let len := t.length
  if 2 ≤ len ∧ ((inAt t 0 = DQUOTE ∧ inAt t (len - 1) = DQUOTE) ∨
      (inAt t 0 = SQUOTE ∧ inAt t (len - 1) = SQUOTE)) then
    (t.drop 1).take (len - 2)
  else t

/-- The quote-stripping loop of `main` over all tokens. -/
def strip_pass (toks : List CStr) : List CStr := toks.map strip_quotes

/-- A token of length at least two that begins and ends with the same quote
character. -/
def quote_wrapped (t : CStr) : Prop :=
  2 ≤ t.length ∧ ((inAt t 0 = DQUOTE ∧ inAt t (t.length - 1) = DQUOTE) ∨
    (inAt t 0 = SQUOTE ∧ inAt t (t.length - 1) = SQUOTE))

instance (t : CStr) : Decidable (quote_wrapped t) := by
  unfold quote_wrapped; infer_instance

/-- A token that begins with two and ends with two copies of one quote
character. -/
def doubly_wrapped (t : CStr) : Prop :=
  4 ≤ t.length ∧ ∃ q, (q = SQUOTE ∨ q = DQUOTE) ∧ inAt t 0 = q ∧ inAt t 1 = q ∧
    inAt t (t.length - 2) = q ∧ inAt t (t.length - 1) = q

/-- What `tokenize` guarantees about the quote characters of a token: a token
read as a plain field does not begin with a quote, and a token read from a
quoted span does not contain the quote that delimits it. -/
def token_quote_free (t : CStr) : Prop :=
  (inAt t 0 ≠ SQUOTE ∧ inAt t 0 ≠ DQUOTE) ∨ SQUOTE ∉ t ∨ DQUOTE ∉ t

/-- The quote state after scanning a line the way the expander does: a single
quote toggles outside double quotes, a double quote outside single quotes. -/
def quote_scan : List Char → Bool → Bool → Bool × Bool
  | [], sq, dq => (sq, dq)
  | c :: cs, sq, dq =>
    if c = SQUOTE ∧ dq = false then quote_scan cs (!sq) dq
    else if c = DQUOTE ∧ sq = false then quote_scan cs sq (!dq)
    else quote_scan cs sq dq

/-- A line balanced in quotes: the scan ends outside every quote, and each
quote character occurs an even number of times. -/
def quotes_balanced (line : CStr) : Prop :=
  quote_scan line false false = (false, false) ∧
    line.count SQUOTE % 2 = 0 ∧ line.count DQUOTE % 2 = 0

instance (line : CStr) : Decidable (quotes_balanced line) := by
  unfold quotes_balanced; infer_instance

/-! ## `handle_redirection` and the child of the single-command path -/

/-- An argument vector in memory: a pointer array, `none` for `NULL`. -/
abbrev Argv := List (Option CStr)

/-- Reading `argv[i]`. -/
def argvAt (argv : Argv) (i : Nat) : Option CStr := argv.getD i none

/-- The strings of a vector up to its first `NULL`. -/
def argvStrings : Argv → List CStr
  | some a :: rest => a :: argvStrings rest
  | _ => []

/-- A NULL-terminated vector holding the given strings. -/
def mkArgv (args : List CStr) : Argv := args.map some ++ [none]

/-- The loop `for (int j = i; argv[j+2]; ++j) argv[j] = argv[j+2];` from `j` on. -/
def shift_left2 : Nat → Argv → Nat → Argv
  | 0, argv, _ => argv
  | n + 1, argv, j =>
    match argvAt argv (j + 2) with
    | none => argv
    | some t => shift_left2 n (argv.set j (some t)) (j + 1)

/-- The loop of `handle_redirection`, entered at the loop test with index `i`:
the return value, the vector and the system calls made. After a redirection
the source decrements `i` and the loop header increments it again, so the same
index is examined next. -/
def handle_redirection_loop (os : OS) :
    Nat → Argv → Nat → List Effect → Option (Int × Argv × List Effect)
  | 0, _, _, _ => none
  | fuel + 1, argv, i, tr =>
    match argvAt argv i with
    | none => some (0, argv, tr)
    | some a =>
      if a = ['>'] ∨ a = ['>', '>'] then
        let append : Bool := decide (a = ['>', '>'])
        match argvAt argv (i + 1) with
        | none => some (-1, argv, tr ++ [Effect.stderr "missing filename for redirection"])
        | some filename =>
          if os.open_ok filename = false then
            some (-1, argv, tr ++ [Effect.openFile filename append false, Effect.stderr "open"])
          else if os.dup2_ok = false then
            some (-1, argv,
              tr ++ [Effect.openFile filename append false, Effect.dup2 false,
                Effect.stderr "dup2"])
          else
            let argv1 := shift_left2 argv.length argv i
            let argv2 := argv1.set i none
            handle_redirection_loop os fuel argv2 i
              (tr ++ [Effect.openFile filename append false, Effect.dup2 false])
      else if a = ['<'] then
        match argvAt argv (i + 1) with
        | none =>
          some (-1, argv, tr ++ [Effect.stderr "missing filename for input redirection"])
        | some filename =>
          if os.open_ok filename = false then
            some (-1, argv, tr ++ [Effect.openFile filename false true, Effect.stderr "open"])
          else if os.dup2_ok = false then
            some (-1, argv,
              tr ++ [Effect.openFile filename false true, Effect.dup2 true,
                Effect.stderr "dup2"])
          else
            let argv1 := shift_left2 argv.length argv i
            let argv2 := argv1.set i none
            handle_redirection_loop os fuel argv2 i
              (tr ++ [Effect.openFile filename false true, Effect.dup2 true])
      else handle_redirection_loop os fuel argv (i + 1) tr

/-- `handle_redirection(argv)`. -/
def handle_redirection (os : OS) (argv : Argv) : Option (Int × Argv × List Effect) :=
  handle_redirection_loop os (2 * argv.length + 2) argv 0 []

/-- The child branch of the single-command path, after the signal resets:
`handle_redirection(argv); if (argv[0] == NULL) _exit(0); execvp(argv[0], argv);`
followed by the report and `_exit(127)` when `execvp` returns. The value
returned by `handle_redirection` is not looked at. -/
def single_child (os : OS) (argv : Argv) : Option (List Effect) :=
  match handle_redirection os argv with
  | none => none
  | some (_, argv1, tr) =>
    match argvAt argv1 0 with
    | none => some (tr ++ [Effect.exit 0])
    | some file =>
      if os.exec_ok file = true then some (tr ++ [Effect.execvp file (argvStrings argv1)])
      else
        some (tr ++ [Effect.execvp file (argvStrings argv1), Effect.stderr "exec failed",
          Effect.exit 127])

/-- Whether a trace contains a call of `execvp`. -/
def calls_exec (tr : List Effect) : Bool :=
  tr.any fun e => match e with
    | Effect.execvp _ _ => true
    | _ => false

/-- The fields of a line in the words of the specification: the maximal
non-empty runs of characters other than space, tab and newline, in order. -/
def ws_fields (line : CStr) : List CStr :=
  (line.splitOnP is_ws).filter (fun f => !f.isEmpty)

/-! ## `exec_pipe` and the dispatch of a finalized line -/

/-- A call `execvp(argv[0], argv)`: the program name handed over (`none` for a
`NULL` pointer) and the arguments up to the first `NULL`. -/
structure ExecCall where
  file : Option CStr
  argv : List CStr
  deriving DecidableEq, Repr

/-- A child of `exec_pipe` after its `fork`: `_exit(1)` when `dup2` fails,
otherwise `execvp(argv[0], argv)` with no test of `argv[0]`. -/
def pipe_child (os : OS) (argv : Argv) : List ExecCall :=
  if os.dup2_ok = false then []
  else [{ file := argvAt argv 0, argv := argvStrings argv }]

/-- The globals and the `execvp` calls after `exec_pipe(left, right)`. -/
structure PipeOutcome where
  last_status : Int
  execs : List ExecCall
  deriving DecidableEq, Repr

/-- `exec_pipe(left, right)`, with `pipe_ok` telling whether `pipe` succeeds and
`p1`, `p2` the values the two calls of `fork` return in the parent. The value
returned by the function is not used by `main` and is left out. -/
def exec_pipe (os : OS) (pipe_ok : Bool) (p1 p2 : Int) (last_status : Int)
    (left right : Argv) : PipeOutcome :=
  if pipe_ok = false then { last_status := last_status, execs := [] }
  else if p1 < 0 then { last_status := last_status, execs := [] }
  else if p2 < 0 then { last_status := last_status, execs := pipe_child os left }
  else
    { last_status := exec_pipe_waits last_status (os.waitpid p1) (os.waitpid p2)
      execs := pipe_child os left ++ pipe_child os right }

/-- The builtins `main` tests for before dispatching. -/
def is_builtin (t : CStr) : Bool :=
  t = ['e', 'x', 'i', 't'] || t = ['c', 'd'] || t = ['j', 'o', 'b', 's'] ||
    t = ['f', 'g'] || t = ['b', 'g']

/-- The search `for (i = 0; tokens[i]; ++i) if (strcmp(tokens[i], "|") == 0)`
for the first pipe token. -/
def find_pipe : List CStr → Option Nat
  | [] => none
  | t :: ts => if t = ['|'] then some 0 else (find_pipe ts).map (fun i => i + 1)

/-- The `execvp` calls found in the trace of the single-command child. -/
def exec_calls : List Effect → List ExecCall
  | [] => []
  | Effect.execvp file argv :: rest => { file := some file, argv := argv } :: exec_calls rest
  | _ :: rest => exec_calls rest

/-- The part of `main` after the builtins, for finalized tokens: the `execvp`
calls made by the children. With a pipe token the vector is cut at the first
one and handed to `exec_pipe`; otherwise a trailing `&` is removed and the
forked child (fork result `p1`) runs the single-command branch. -/
def dispatch_execs (os : OS) (pipe_ok : Bool) (p1 p2 : Int) (last_status : Int)
    (toks : List CStr) : Option (List ExecCall) :=
  match find_pipe toks with
  | some k =>
    let tokens := (mkArgv toks).set k none
    some (exec_pipe os pipe_ok p1 p2 last_status tokens (tokens.drop (k + 1))).execs
  | none =>
    let last := toks.length
    let tokens :=
      if 0 < last ∧ toks.getD (last - 1) [] = ['&'] then (mkArgv toks).set (last - 1) none
      else mkArgv toks
    let argv := mkArgv (argvStrings tokens)
    if p1 < 0 then some []
    else (single_child os argv).map exec_calls

/-! ## Reachable job tables -/

/-- The globals reachable from program start by the operations that touch the
job table: `add_job`, `remove_job`, `cleanup_jobs`, an iteration of the
`SIGCHLD` handler, and the `fg` and `bg` builtins. -/
inductive Reachable : Shell → Prop where
  | init : Reachable Shell.init
  | add (st : Shell) (pid : Int) (cmdline : Option CStr) :
      Reachable st → Reachable (add_job st pid cmdline).2
  | remove (st : Shell) (k : Nat) :
      Reachable st → Reachable { st with jobs := remove_job st.jobs k }
  | cleanup (st : Shell) :
      Reachable st → Reachable { st with jobs := cleanup_jobs st.jobs }
  | sigchld (st : Shell) (pid : Int) (status : Nat) :
      Reachable st → Reachable { st with jobs := sigchld_step st.jobs pid status }
  | fg (os : OS) (st : Shell) (jid : Int) :
      Reachable st → Reachable (builtin_fg os st jid).1
  | bg (st : Shell) (jid : Int) :
      Reachable st → Reachable (builtin_bg st jid).1

/-- The job ids of the occupied slots are positive, below `next_jid` and
pairwise distinct. -/
def jobs_inv (st : Shell) : Prop :=
  0 < st.next_jid ∧
  (∀ k, (jobAt st.jobs k).pid ≠ 0 →
    0 < (jobAt st.jobs k).jid ∧ (jobAt st.jobs k).jid < st.next_jid) ∧
  ∀ k1 k2, k1 ≠ k2 → (jobAt st.jobs k1).pid ≠ 0 → (jobAt st.jobs k2).pid ≠ 0 →
    (jobAt st.jobs k1).jid ≠ (jobAt st.jobs k2).jid

/-! ## Input positions read by the expander, and truncation -/

/-- The largest index of `in` that one iteration of the loop of
`expand_variables` reads, the loop test included, following the short-circuit
evaluation of the source: a scan reads every position up to the one where it
stops, `in[j+1]` is read only when `in[j] == ':'`, and the scan for `}` is
made only after `:-`. -/
def step_max_read (outsz : Nat) (s : CStr) (i : Nat) (in_single in_double : Bool)
    (out : List Char) : Nat :=
  let c := inAt s i
  if c = NUL ∨ ¬ (out.length + 1 < outsz) then i
  else if c = SQUOTE ∧ in_double = false then i
  else if c = DQUOTE ∧ in_single = false then i
  else if c = '$' ∧ in_single = false then
    if inAt s (i + 1) = '$' then i + 1
    else if inAt s (i + 1) = '?' then i + 1
    else if inAt s (i + 1) = '{' then
      let j := i + 2 + span_name (s.drop (i + 2))
      if inAt s j = ':' then
        if inAt s (j + 1) = '-' then j + 2 + span_to_brace (s.drop (j + 2))
        else j + 1
      else j
    else if isalpha (inAt s (i + 1)) = true ∨ inAt s (i + 1) = '_' then
      i + 1 + span_name (s.drop (i + 1))
    else i + 1
  else i

/-- The states `(i, in_single, in_double, out)` in which the loop of
`expand_variables(s, out, outsz)` is entered. -/
inductive LoopReach (os : OS) (last_status : Int) (outsz : Nat) (s : CStr) :
    Nat → Bool → Bool → List Char → Prop where
  | start : LoopReach os last_status outsz s 0 false false []
  | next (i : Nat) (sq dq : Bool) (out : List Char) (i1 : Nat) (sq1 dq1 : Bool)
      (out1 : List Char) :
      LoopReach os last_status outsz s i sq dq out →
      expand_step os last_status outsz s i sq dq out = ExpandStep.next i1 sq1 dq1 out1 →
      LoopReach os last_status outsz s i1 sq1 dq1 out1
  | dflt (i : Nat) (sq dq : Bool) (out : List Char) (defbuf name : CStr) (i1 : Nat)
      (defexp : List Char) :
      LoopReach os last_status outsz s i sq dq out →
      expand_step os last_status outsz s i sq dq out = ExpandStep.dflt defbuf name i1 →
      expand_variables os last_status defbuf MAX_LINE = some defexp →
      LoopReach os last_status outsz s i1 sq dq (default_out os outsz name defexp out)

/-- An iteration with its output cut to the first `n - 1` characters. -/
def ExpandStep.cut (n : Nat) : ExpandStep → ExpandStep
  | ExpandStep.done => ExpandStep.done
  | ExpandStep.next i1 sq dq out1 => ExpandStep.next i1 sq dq (out1.take (n - 1))
  | ExpandStep.dflt defbuf name i1 => ExpandStep.dflt defbuf name i1

/-! ## The call stack of `expand_variables` -/

/-- The bytes of automatic storage an activation of `expand_variables` keeps
live across its recursive call: `name[256]`, `defbuf[MAX_LINE]` (the argument)
and `defexp[MAX_LINE]` (the result). -/
def frame_bytes : Nat := 256 + MAX_LINE + MAX_LINE

/-- The default limit of the main thread's stack on the platform (Linux,
`RLIMIT_STACK` of 8 MiB). -/
def default_stack_bytes : Nat := 8 * 1024 * 1024

/-- The line made of `k` copies of the unterminated form `${:-`. -/
def nested_default : Nat → CStr
  | 0 => []
  | k + 1 => '$' :: '{' :: ':' :: '-' :: nested_default k

/-- The activation `expand_variables(s, out, outsz)` gets `depth` activations
nested below it: in a state in which its loop is entered it reaches the `:-`
form, whose recursive call on the default text does the same one level
less. Every activation counted has made the recursive call and holds
`frame_bytes` of live storage. -/
inductive CallDepth (os : OS) (last_status : Int) : Nat → CStr → Nat → Prop where
  | here (outsz : Nat) (s : CStr) : CallDepth os last_status outsz s 0
  | nest (outsz : Nat) (s : CStr) (i : Nat) (sq dq : Bool) (out : List Char)
      (defbuf name : CStr) (i1 depth : Nat) :
      LoopReach os last_status outsz s i sq dq out →
      expand_step os last_status outsz s i sq dq out = ExpandStep.dflt defbuf name i1 →
      CallDepth os last_status MAX_LINE defbuf depth →
      CallDepth os last_status outsz s (depth + 1)

/-! ## Concrete inputs used by the closed theorems -/

/-- An environment with `V=hello` and `X=a` in which every system call succeeds
and `waitpid` reports a child killed by signal 9. -/
def os_ok : OS :=
  { getenv := fun n =>
      if n = ['V'] then some ['h', 'e', 'l', 'l', 'o']
      else if n = ['X'] then some ['a'] else none
    pid := 4242
    open_ok := fun _ => true
    dup2_ok := true
    waitpid := fun p => (p, signaledStatus 9 false)
    exec_ok := fun _ => true }

/-- The same environment with every `open` failing. -/
def os_noopen : OS := { os_ok with open_ok := fun _ => false }

/-- An environment in which `waitpid(0, ...)` reaps an unrelated child of the
process group that exited with code 5. -/
def os_reap : OS := { os_ok with waitpid := fun _ => (77, exitedStatus 5) }

/-- An environment for `false | true`: the child with pid 100 exits with code
1, every other child with code 0. -/
def os_false_true : OS :=
  { os_ok with waitpid := fun p => if p = 100 then (100, exitedStatus 1) else (p, exitedStatus 0) }

/-- An environment whose only variable has the 256-character name `aa...a`. -/
def os_long : OS :=
  { os_ok with getenv := fun n => if n = List.replicate 256 'a' then some ['x'] else none }

/-- A job table with every slot occupied: jobs 1..64 with pids 1000..1063. -/
def full_table : Shell :=
  { jobs := (List.range MAX_JOBS).map fun k =>
      { jid := (k : Int) + 1, pid := 1000 + (k : Int), status := JOB_RUNNING,
        cmdline := some ['s', 'l', 'e', 'e', 'p'] }
    next_jid := 65
    last_status := 0 }

/-- The number of occupied slots. -/
def live_jobs (jobs : List Job) : Nat := (jobs.filter fun j => j.pid != 0).length

/-! ## Theorems -/

/-! ### Foreground waits -/

/-- C3: after a successful blocking wait for a foreground single command, a
normal exit with code `c` sets `last_status` to `c` and a termination by signal
`s` sets it to `128 + s`; exit 0 gives 0, exit 3 gives 3, signal 9 gives 137. -/
theorem single_fg_wait_status (last_status r : Int) (c s : Nat) (core : Bool)
    (hr : 0 < r) (hc : c < 256) (hs1 : 1 ≤ s) (hs2 : s ≤ 126) :
    single_fg_wait last_status r (exitedStatus c) = (c : Int) ∧
    single_fg_wait last_status r (signaledStatus s core) = 128 + (s : Int) ∧
    single_fg_wait last_status r (exitedStatus 0) = 0 ∧
    single_fg_wait last_status r (exitedStatus 3) = 3 ∧
    single_fg_wait last_status r (signaledStatus 9 core) = 137 := by
  have e1 : ∀ d : Nat, d < 256 →
      single_fg_wait last_status r (exitedStatus d) = (d : Int) := by
    intro d hd
    have h1 : WTERMSIG (exitedStatus d) = 0 := by
      unfold WTERMSIG exitedStatus; omega
    have h2 : WEXITSTATUS (exitedStatus d) = d := by
      unfold WEXITSTATUS exitedStatus; omega
    simp [single_fg_wait, hr, WIFEXITED, h1, h2]
  have e2 : ∀ t : Nat, 1 ≤ t → t ≤ 126 →
      single_fg_wait last_status r (signaledStatus t core) = 128 + (t : Int) := by
    intro t ht1 ht2
    have h1 : WTERMSIG (signaledStatus t core) = t := by
      unfold WTERMSIG signaledStatus
      cases core <;> simp <;> omega
    have h3 : ¬ t = 0 := by omega
    have h4 : WIFSIGNALED (signaledStatus t core) = true := by
      have h5 := h1
      unfold WTERMSIG at h5
      unfold WIFSIGNALED
      rw [h5]
      exact decide_eq_true ⟨by omega, by omega⟩
    simp [single_fg_wait, hr, WIFEXITED, h1, h3, h4]
  refine ⟨e1 c hc, e2 s hs1 hs2, ?_, ?_, ?_⟩
  · simpa using e1 0 (by decide)
  · simpa using e1 3 (by decide)
  · simpa using e2 9 (by decide) (by decide)

theorem single_fg_wait_status_witness :
    single_fg_wait 0 4242 (exitedStatus 3) = ((3 : Nat) : Int) ∧
    single_fg_wait 0 4242 (signaledStatus 9 true) = 128 + ((9 : Nat) : Int) ∧
    single_fg_wait 0 4242 (exitedStatus 0) = 0 ∧
    single_fg_wait 0 4242 (exitedStatus 3) = 3 ∧
    single_fg_wait 0 4242 (signaledStatus 9 true) = 137 :=
  single_fg_wait_status 0 4242 3 9 true (by decide) (by decide) (by decide) (by decide)

/-- C4 (the code departs from the claim): for a child killed by signal 9 the
second wait of `exec_pipe` and the wait of the `fg` builtin both record 0 in
`last_status`, where the single-command wait records 137. -/
theorem pipe_fg_wait_drops_signal :
    exec_pipe_waits 0 (100, exitedStatus 0) (101, signaledStatus 9 false) = 0 ∧
    exec_pipe_waits 5 (100, signaledStatus 9 false) (-1, 0) = 0 ∧
    (add_job Shell.init 4000 (some ['s', 'l', 'e', 'e', 'p'])).1 = 1 ∧
    (builtin_fg os_ok
      { (add_job Shell.init 4000 (some ['s', 'l', 'e', 'e', 'p'])).2 with last_status := 5 }
      1).1.last_status = 0 ∧
    single_fg_wait 0 101 (signaledStatus 9 false) = 137 := by
  decide

/-! ### The job table -/

theorem add_job_from_occupied (st : Shell) (pid : Int) (cmdline : Option CStr) :
    ∀ (n i : Nat), (∀ k, i ≤ k → k < i + n → (jobAt st.jobs k).pid ≠ 0) →
      add_job_from st pid cmdline n i = (-1, st) := by
  intro n
  induction n with
  | zero => intro i _; rfl
  | succ n ih =>
    intro i h
    have h0 : (jobAt st.jobs i).pid ≠ 0 := h i (Nat.le_refl i) (by omega)
    rw [add_job_from, if_neg h0]
    exact ih (i + 1) (fun k hk1 hk2 => h k (by omega) (by omega))

theorem jobAt_mem (jobs : List Job) (k : Nat) (hk : k < jobs.length) :
    jobAt jobs k ∈ jobs := by
  unfold jobAt
  rw [List.getD_eq_getElem jobs Job.zero hk]
  exact List.getElem_mem hk

/-- C5: when all `MAX_JOBS` slots are occupied, `add_job` returns `-1` and
leaves the table and `next_jid` unchanged; the number of live jobs stays 64. -/
theorem add_job_full (st : Shell) (pid : Int) (cmdline : Option CStr)
    (hlen : st.jobs.length = MAX_JOBS) (hfull : ∀ j ∈ st.jobs, j.pid ≠ 0) :
    add_job st pid cmdline = (-1, st) ∧
    (add_job st pid cmdline).2.jobs = st.jobs ∧
    (add_job st pid cmdline).2.next_jid = st.next_jid ∧
    live_jobs (add_job st pid cmdline).2.jobs = 64 := by
  have h : add_job st pid cmdline = (-1, st) := by
    unfold add_job
    apply add_job_from_occupied
    intro k _ hk
    exact hfull _ (jobAt_mem st.jobs k (by omega))
  refine ⟨h, by rw [h], by rw [h], ?_⟩
  rw [h]
  have hf : (st.jobs.filter fun j => j.pid != 0) = st.jobs := by
    rw [List.filter_eq_self]
    intro j hj
    simpa using hfull j hj
  simp only [live_jobs, hf, hlen, MAX_JOBS]

theorem add_job_full_witness :
    add_job full_table 7777 (some ['l', 's']) = (-1, full_table) ∧
    (add_job full_table 7777 (some ['l', 's'])).2.jobs = full_table.jobs ∧
    (add_job full_table 7777 (some ['l', 's'])).2.next_jid = full_table.next_jid ∧
    live_jobs (add_job full_table 7777 (some ['l', 's'])).2.jobs = 64 :=
  add_job_full full_table 7777 (some ['l', 's']) (by decide) (by decide)

theorem find_job_by_jid_from_none (jobs : List Job) (jid : Int) :
    ∀ (n i : Nat), (∀ k, i ≤ k → k < i + n → (jobAt jobs k).jid ≠ jid) →
      find_job_by_jid_from jobs jid n i = none := by
  intro n
  induction n with
  | zero => intro i _; rfl
  | succ n ih =>
    intro i h
    rw [find_job_by_jid_from, if_neg (h i (Nat.le_refl i) (by omega))]
    exact ih (i + 1) (fun k hk1 hk2 => h k (by omega) (by omega))

/-- When no slot of the table, free or occupied, carries `jid`, both `fg` and
`bg` report the unknown job and change nothing. Free slots carry `jid` 0, so
this covers every unknown id other than 0. -/
theorem builtin_fg_bg_unknown (os : OS) (st : Shell) (jid : Int)
    (h : ∀ k, k < MAX_JOBS → (jobAt st.jobs k).jid ≠ jid) :
    builtin_fg os st jid = (st, [Effect.stderr "fg: no such job"]) ∧
    builtin_bg st jid = (st, [Effect.stderr "bg: no such job"]) := by
  have hnone : find_job_by_jid st.jobs jid = none :=
    find_job_by_jid_from_none st.jobs jid MAX_JOBS 0 (fun k _ hk => h k (by omega))
  simp only [builtin_fg, builtin_bg, hnone, and_self]

/-- C6 (the code departs from the claim): in the initial table no job is live,
yet `find_job_by_jid(0)` returns slot 0 (a free slot, whose `jid` is 0), so
`fg 0` calls `kill(0, SIGCONT)` and `waitpid(0, ...)` and may overwrite
`last_status`, and `bg 0` calls `kill(0, SIGCONT)`; a non-zero unknown id takes
the not-found path. -/
theorem fg_bg_jid_zero_matches_free_slot :
    live_jobs Shell.init.jobs = 0 ∧
    find_job_by_jid Shell.init.jobs 0 = some 0 ∧
    (builtin_fg os_reap Shell.init 0).2 = [Effect.kill 0 SIGCONT, Effect.waitpid 0] ∧
    (builtin_fg os_reap Shell.init 0).1.last_status = 5 ∧
    Shell.init.last_status = 0 ∧
    (builtin_fg os_reap Shell.init 0).1.jobs ≠ Shell.init.jobs ∧
    (builtin_bg Shell.init 0).2 = [Effect.kill 0 SIGCONT] ∧
    builtin_fg os_reap Shell.init 7 = (Shell.init, [Effect.stderr "fg: no such job"]) := by
  decide

/-! ### Redirection -/

/-- C1 (the code departs from the claim): for `echo > out hi` every call
succeeds and `handle_redirection` returns 0, but it stores `NULL` at the index
of the operator after shifting, so the vector read up to its first `NULL` is
`echo` alone: the argument `hi` that followed the clause is lost. With the
clause last (`echo hi > out`) the result is `echo hi`. -/
theorem handle_redirection_drops_tail :
    handle_redirection os_ok (mkArgv [['e', 'c', 'h', 'o'], ['>'], ['o', 'u', 't'], ['h', 'i']]) =
      some (0, [some ['e', 'c', 'h', 'o'], none, some ['o', 'u', 't'], some ['h', 'i'], none],
        [Effect.openFile ['o', 'u', 't'] false false, Effect.dup2 false]) ∧
    (handle_redirection os_ok
        (mkArgv [['e', 'c', 'h', 'o'], ['>'], ['o', 'u', 't'], ['h', 'i']])).map
      (fun r => argvStrings r.2.1) = some [['e', 'c', 'h', 'o']] ∧
    (handle_redirection os_ok
        (mkArgv [['e', 'c', 'h', 'o'], ['h', 'i'], ['>'], ['o', 'u', 't']])).map
      (fun r => argvStrings r.2.1) = some [['e', 'c', 'h', 'o'], ['h', 'i']] := by
  decide

/-- C7 (the code departs from the claim): for `echo hi >` and, with `open`
failing, for `cat < f`, `handle_redirection` returns `-1`, but the child does
not look at the return value and calls `execvp` on the unchanged vector. -/
theorem single_child_execs_after_redirection_error :
    (handle_redirection os_ok (mkArgv [['e', 'c', 'h', 'o'], ['h', 'i'], ['>']])).map
      (fun r => r.1) = some (-1) ∧
    single_child os_ok (mkArgv [['e', 'c', 'h', 'o'], ['h', 'i'], ['>']]) =
      some [Effect.stderr "missing filename for redirection",
        Effect.execvp ['e', 'c', 'h', 'o'] [['e', 'c', 'h', 'o'], ['h', 'i'], ['>']]] ∧
    (handle_redirection os_noopen (mkArgv [['c', 'a', 't'], ['<'], ['f']])).map
      (fun r => r.1) = some (-1) ∧
    single_child os_noopen (mkArgv [['c', 'a', 't'], ['<'], ['f']]) =
      some [Effect.openFile ['f'] false true, Effect.stderr "open",
        Effect.execvp ['c', 'a', 't'] [['c', 'a', 't'], ['<'], ['f']]] := by
  decide

theorem shift_left2_length : ∀ (n : Nat) (argv : Argv) (j : Nat),
    (shift_left2 n argv j).length = argv.length := by
  intro n
  induction n with
  | zero => intro argv j; rfl
  | succ n ih =>
    intro argv j
    rw [shift_left2]
    split
    · rfl
    · rw [ih]; simp

theorem argvAt_set_none (argv : Argv) (i : Nat) (h : i < argv.length) :
    argvAt (argv.set i none) i = none := by
  unfold argvAt
  rw [List.getD_eq_getElem?_getD, List.getElem?_set_self h]
  rfl

theorem argvAt_some_lt (argv : Argv) (i : Nat) (a : CStr) (h : argvAt argv i = some a) :
    i < argv.length := by
  by_contra hge
  unfold argvAt at h
  rw [List.getD_eq_default argv none (by omega)] at h
  cases h

/-- The loop of `handle_redirection` returns whenever the fuel exceeds the
number of entries left by two. -/
theorem handle_redirection_loop_returns (os : OS) :
    ∀ (fuel : Nat) (argv : Argv) (i : Nat) (tr : List Effect),
      argv.length - i + 2 ≤ fuel → ∃ r, handle_redirection_loop os fuel argv i tr = some r := by
  intro fuel
  induction fuel with
  | zero => intro argv i tr h; omega
  | succ fuel ih =>
    intro argv i tr hf
    have redirected : ∀ (argv1 : Argv) (tr1 : List Effect), argv1.length = argv.length →
        i < argv.length →
        ∃ r, handle_redirection_loop os fuel (argv1.set i none) i tr1 = some r := by
      intro argv1 tr1 hl hi
      obtain ⟨f, rfl⟩ : ∃ f, fuel = f + 1 := ⟨fuel - 1, by omega⟩
      rw [handle_redirection_loop, argvAt_set_none argv1 i (by omega)]
      exact ⟨_, rfl⟩
    rw [handle_redirection_loop]
    cases hi : argvAt argv i with
    | none => exact ⟨_, rfl⟩
    | some a =>
      have hlt := argvAt_some_lt argv i a hi
      dsimp only []
      by_cases h1 : a = ['>'] ∨ a = ['>', '>']
      · rw [if_pos h1]
        cases hfn : argvAt argv (i + 1) with
        | none => exact ⟨_, rfl⟩
        | some filename =>
          dsimp only []
          by_cases h2 : os.open_ok filename = false
          · rw [if_pos h2]; exact ⟨_, rfl⟩
          rw [if_neg h2]
          by_cases h3 : os.dup2_ok = false
          · rw [if_pos h3]; exact ⟨_, rfl⟩
          rw [if_neg h3]
          exact redirected _ _ (shift_left2_length _ _ _) hlt
      rw [if_neg h1]
      by_cases h4 : a = ['<']
      · rw [if_pos h4]
        cases hfn : argvAt argv (i + 1) with
        | none => exact ⟨_, rfl⟩
        | some filename =>
          dsimp only []
          by_cases h2 : os.open_ok filename = false
          · rw [if_pos h2]; exact ⟨_, rfl⟩
          rw [if_neg h2]
          by_cases h3 : os.dup2_ok = false
          · rw [if_pos h3]; exact ⟨_, rfl⟩
          rw [if_neg h3]
          exact redirected _ _ (shift_left2_length _ _ _) hlt
      rw [if_neg h4]
      exact ih argv (i + 1) tr (by omega)

/-- `handle_redirection` returns on every vector. -/
theorem handle_redirection_returns (os : OS) (argv : Argv) :
    ∃ r, handle_redirection os argv = some r :=
  handle_redirection_loop_returns os _ argv 0 [] (by omega)

/-! ### The expander -/

theorem inAt_of_lt (s : CStr) (i : Nat) (h : i < s.length) : inAt s i = s[i] := by
  unfold inAt
  exact List.getD_eq_getElem s NUL h

theorem inAt_mem (s : CStr) (i : Nat) (h : i < s.length) : inAt s i ∈ s := by
  rw [inAt_of_lt s i h]
  exact List.getElem_mem h

theorem inAt_of_le (s : CStr) (i : Nat) (h : s.length ≤ i) : inAt s i = NUL := by
  unfold inAt
  exact List.getD_eq_default s NUL h

theorem inAt_ne_nul_lt (s : CStr) (i : Nat) (h : inAt s i ≠ NUL) : i < s.length := by
  by_contra hge
  exact h (inAt_of_le s i (by omega))

theorem drop_eq_inAt_cons (s : CStr) (i : Nat) (h : i < s.length) :
    s.drop i = inAt s i :: s.drop (i + 1) := by
  rw [inAt_of_lt s i h]
  exact List.drop_eq_getElem_cons h

theorem expand_loop_stop (os : OS) (ls : Int) (fuel outsz : Nat) (s : CStr) (i : Nat)
    (sq dq : Bool) (out : List Char) (h : inAt s i = NUL ∨ ¬ (out.length + 1 < outsz)) :
    expand_loop os ls (fuel + 1) outsz s i sq dq out = some out := by
  rw [expand_loop]
  simp only [if_pos h]

theorem expand_loop_squote (os : OS) (ls : Int) (fuel outsz : Nat) (s : CStr) (i : Nat)
    (sq dq : Bool) (out : List Char) (hc : inAt s i = SQUOTE) (hdq : dq = false)
    (hroom : out.length + 1 < outsz) :
    expand_loop os ls (fuel + 1) outsz s i sq dq out =
      expand_loop os ls fuel outsz s (i + 1) (!sq) dq (out ++ [SQUOTE]) := by
  have h0 : ¬ (inAt s i = NUL ∨ ¬ (out.length + 1 < outsz)) := by
    rw [hc]; simp [hroom]; decide
  rw [expand_loop]
  simp only [if_neg h0, if_pos (And.intro hc hdq)]
  rw [hc]

theorem expand_loop_dquote (os : OS) (ls : Int) (fuel outsz : Nat) (s : CStr) (i : Nat)
    (sq dq : Bool) (out : List Char) (hc : inAt s i = DQUOTE) (hsq : sq = false)
    (hroom : out.length + 1 < outsz) :
    expand_loop os ls (fuel + 1) outsz s i sq dq out =
      expand_loop os ls fuel outsz s (i + 1) sq (!dq) (out ++ [DQUOTE]) := by
  have h0 : ¬ (inAt s i = NUL ∨ ¬ (out.length + 1 < outsz)) := by
    rw [hc]; simp [hroom]; decide
  have h1 : ¬ (inAt s i = SQUOTE ∧ dq = false) := by
    rw [hc]; intro h; exact absurd h.1 (by decide)
  rw [expand_loop]
  simp only [if_neg h0, if_neg h1, if_pos (And.intro hc hsq)]
  rw [hc]

theorem expand_loop_plain (os : OS) (ls : Int) (fuel outsz : Nat) (s : CStr) (i : Nat)
    (sq dq : Bool) (out : List Char) (hnul : inAt s i ≠ NUL)
    (hroom : out.length + 1 < outsz)
    (h1 : ¬ (inAt s i = SQUOTE ∧ dq = false)) (h2 : ¬ (inAt s i = DQUOTE ∧ sq = false))
    (h3 : ¬ (inAt s i = '$' ∧ sq = false)) :
    expand_loop os ls (fuel + 1) outsz s i sq dq out =
      expand_loop os ls fuel outsz s (i + 1) sq dq (out ++ [inAt s i]) := by
  have h0 : ¬ (inAt s i = NUL ∨ ¬ (out.length + 1 < outsz)) := by
    simp [hnul, hroom]
  rw [expand_loop]
  simp only [if_neg h0, if_neg h1, if_neg h2, if_neg h3]

/-- Without `$`, every iteration copies the current character. -/
theorem expand_loop_no_dollar (os : OS) (ls : Int) (outsz : Nat) (s : CStr)
    (hnul : NUL ∉ s) (hd : '$' ∉ s) :
    ∀ (fuel i : Nat) (sq dq : Bool) (out : List Char),
      s.length - i < fuel → i ≤ s.length → out.length + (s.length - i) + 1 ≤ outsz →
      expand_loop os ls fuel outsz s i sq dq out = some (out ++ s.drop i) := by
  intro fuel
  induction fuel with
  | zero => intro i sq dq out h; omega
  | succ fuel ih =>
    intro i sq dq out hf hi hroom
    rcases Nat.lt_or_ge i s.length with hlt | hge
    · have hmem := inAt_mem s i hlt
      have hc0 : inAt s i ≠ NUL := fun h => hnul (h ▸ hmem)
      have hc1 : inAt s i ≠ '$' := fun h => hd (h ▸ hmem)
      have hr : out.length + 1 < outsz := by omega
      have hdrop := drop_eq_inAt_cons s i hlt
      have key : ∀ (sq1 dq1 : Bool),
          expand_loop os ls fuel outsz s (i + 1) sq1 dq1 (out ++ [inAt s i]) =
            some (out ++ s.drop i) := by
        intro sq1 dq1
        rw [ih (i + 1) sq1 dq1 (out ++ [inAt s i]) (by omega) (by omega)
          (by simp; omega), hdrop]
        simp
      by_cases c1 : inAt s i = SQUOTE ∧ dq = false
      · rw [expand_loop_squote os ls fuel outsz s i sq dq out c1.1 c1.2 hr, ← c1.1]
        exact key _ _
      · by_cases c2 : inAt s i = DQUOTE ∧ sq = false
        · rw [expand_loop_dquote os ls fuel outsz s i sq dq out c2.1 c2.2 hr, ← c2.1]
          exact key _ _
        · rw [expand_loop_plain os ls fuel outsz s i sq dq out hc0 hr c1 c2
            (fun h => hc1 h.1)]
          exact key _ _
    · rw [expand_loop_stop os ls fuel outsz s i sq dq out (Or.inl (inAt_of_le s i hge))]
      simp [List.drop_eq_nil_of_le hge]

/-- C9: for an input without `$` that is shorter than the output capacity
(length at most `outsz - 1`), the output of `expand_variables` is the input
itself, quote characters included, for every environment and `last_status`. -/
theorem expand_no_dollar_identity (os : OS) (last_status : Int) (s : CStr) (outsz : Nat)
    (hnul : NUL ∉ s) (hd : '$' ∉ s) (hlen : s.length < outsz) :
    expand_variables os last_status s outsz = some s := by
  unfold expand_variables
  rw [expand_loop_no_dollar os last_status outsz s hnul hd (s.length + 1) 0 false false []
    (by omega) (by omega) (by simp; omega)]
  simp

theorem expand_no_dollar_identity_witness :
    expand_variables os_ok 3 ['e', 'c', 'h', 'o', ' ', SQUOTE, 'a', SQUOTE, ' ', DQUOTE, 'b']
      MAX_LINE = some ['e', 'c', 'h', 'o', ' ', SQUOTE, 'a', SQUOTE, ' ', DQUOTE, 'b'] :=
  expand_no_dollar_identity os_ok 3 ['e', 'c', 'h', 'o', ' ', SQUOTE, 'a', SQUOTE, ' ', DQUOTE, 'b']
    MAX_LINE (by decide) (by decide) (by decide)

theorem drop_eq_cons_inAt (t : CStr) (i : Nat) (c : Char) (rest : List Char)
    (h : t.drop i = c :: rest) : i < t.length ∧ inAt t i = c ∧ t.drop (i + 1) = rest := by
  have hlt : i < t.length := by
    by_contra hge
    rw [List.drop_eq_nil_of_le (by omega)] at h
    cases h
  rw [drop_eq_inAt_cons t i hlt] at h
  injection h with h1 h2
  exact ⟨hlt, h1, h2⟩

/-- Inside single quotes every character up to the closing quote is copied. -/
theorem expand_loop_single_tail (os : OS) (ls : Int) (outsz : Nat) :
    ∀ (rest : List Char) (t : CStr) (fuel i : Nat) (out : List Char),
      t.drop i = rest ++ [SQUOTE] → NUL ∉ rest → SQUOTE ∉ rest →
      rest.length + 2 ≤ fuel → out.length + rest.length + 2 ≤ outsz →
      expand_loop os ls fuel outsz t i true false out = some (out ++ rest ++ [SQUOTE]) := by
  intro rest
  induction rest with
  | nil =>
    intro t fuel i out hdrop _ _ hfuel hroom
    obtain ⟨hlt, hc, hnext⟩ := drop_eq_cons_inAt t i SQUOTE [] (by simpa using hdrop)
    have hlen : t.length ≤ i + 1 := by
      have := congrArg List.length hnext
      simp at this
      omega
    obtain ⟨f, rfl⟩ : ∃ f, fuel = f + 2 := ⟨fuel - 2, by simp at hfuel; omega⟩
    rw [expand_loop_squote os ls (f + 1) outsz t i true false out hc rfl (by simp at hroom; omega),
      expand_loop_stop os ls f outsz t (i + 1) _ false _ (Or.inl (inAt_of_le t (i + 1) hlen))]
    simp
  | cons c r ih =>
    intro t fuel i out hdrop hnul hsq hfuel hroom
    obtain ⟨hlt, hc, hnext⟩ := drop_eq_cons_inAt t i c (r ++ [SQUOTE]) (by simpa using hdrop)
    have hc0 : inAt t i ≠ NUL := by
      rw [hc]; intro h; exact hnul (by simp [h])
    have hc1 : inAt t i ≠ SQUOTE := by
      rw [hc]; intro h; exact hsq (by simp [h])
    simp only [List.length_cons] at hfuel hroom
    obtain ⟨f, rfl⟩ : ∃ f, fuel = f + 1 := ⟨fuel - 1, by omega⟩
    rw [expand_loop_plain os ls f outsz t i true false out hc0 (by omega)
      (fun h => hc1 h.1) (fun h => by simp at h) (fun h => by simp at h),
      ih t f (i + 1) (out ++ [inAt t i]) hnext (fun h => hnul (List.mem_cons_of_mem _ h))
        (fun h => hsq (List.mem_cons_of_mem _ h)) (by omega) (by simp; omega), hc]
    simp

/-- C10: for a text `s` without single quotes, `expand_variables` applied to
`s` enclosed in single quotes returns that input unchanged when it fits in the
buffer: nothing is substituted and both quote characters are copied. -/
theorem expand_single_quoted_identity (os : OS) (last_status : Int) (s : CStr) (outsz : Nat)
    (hnul : NUL ∉ s) (hsq : SQUOTE ∉ s)
    (hlen : (SQUOTE :: s ++ [SQUOTE]).length < outsz) :
    expand_variables os last_status (SQUOTE :: s ++ [SQUOTE]) outsz =
      some (SQUOTE :: s ++ [SQUOTE]) := by
  simp only [List.length_cons, List.length_append, List.length_singleton, List.length_nil] at hlen
  unfold expand_variables
  have hfuel : (SQUOTE :: s ++ [SQUOTE]).length + 1 = (s.length + 2) + 1 := by simp
  rw [hfuel, expand_loop_squote os last_status (s.length + 2) outsz _ 0 false false []
      (by simp [inAt]) rfl (by simp; omega)]
  show expand_loop os last_status (s.length + 2) outsz (SQUOTE :: s ++ [SQUOTE]) 1 true false
    [SQUOTE] = _
  rw [expand_loop_single_tail os last_status outsz s _ (s.length + 2) 1 _ (by simp) hnul hsq
      (by omega) (by simp; omega)]
  simp

theorem expand_single_quoted_identity_witness :
    expand_variables os_ok 0 (SQUOTE :: ['$', 'V', ' ', '$', '{', 'X', '}', DQUOTE] ++ [SQUOTE])
      MAX_LINE = some (SQUOTE :: ['$', 'V', ' ', '$', '{', 'X', '}', DQUOTE] ++ [SQUOTE]) :=
  expand_single_quoted_identity os_ok 0 ['$', 'V', ' ', '$', '{', 'X', '}', DQUOTE] MAX_LINE
    (by decide) (by decide) (by decide)

theorem expand_loop_succ (os : OS) (ls : Int) (fuel outsz : Nat) (s : CStr) (i : Nat)
    (sq dq : Bool) (out : List Char) :
    expand_loop os ls (fuel + 1) outsz s i sq dq out =
      match expand_step os ls outsz s i sq dq out with
      | ExpandStep.done => some out
      | ExpandStep.next i1 sq1 dq1 out1 => expand_loop os ls fuel outsz s i1 sq1 dq1 out1
      | ExpandStep.dflt defbuf name i1 =>
        match expand_loop os ls fuel MAX_LINE defbuf 0 false false [] with
        | none => none
        | some defexp =>
          expand_loop os ls fuel outsz s i1 sq dq (default_out os outsz name defexp out) := by
  rw [expand_loop]
  unfold expand_step
  dsimp only []
  by_cases h0 : inAt s i = NUL ∨ ¬ (out.length + 1 < outsz)
  · simp only [if_pos h0]
  simp only [if_neg h0]
  by_cases h1 : inAt s i = SQUOTE ∧ dq = false
  · simp only [if_pos h1]
  simp only [if_neg h1]
  by_cases h2 : inAt s i = DQUOTE ∧ sq = false
  · simp only [if_pos h2]
  simp only [if_neg h2]
  by_cases h3 : inAt s i = '$' ∧ sq = false
  swap
  · simp only [if_neg h3]
  simp only [if_pos h3]
  by_cases h4 : inAt s (i + 1) = '$'
  · simp only [if_pos h4]
  simp only [if_neg h4]
  by_cases h5 : inAt s (i + 1) = '?'
  · simp only [if_pos h5]
  simp only [if_neg h5]
  by_cases h6 : inAt s (i + 1) = '{' ∧ inAt s (i + 2 + span_name (s.drop (i + 2))) = ':' ∧
      inAt s (i + 2 + span_name (s.drop (i + 2)) + 1) = '-'
  · simp only [if_pos h6]
    rfl
  simp only [if_neg h6]
  by_cases h7 : inAt s (i + 1) = '{' ∧ inAt s (i + 2 + span_name (s.drop (i + 2))) = '}'
  · simp only [if_pos h7]
  simp only [if_neg h7]
  by_cases h8 : isalpha (inAt s (i + 1)) = true ∨ inAt s (i + 1) = '_'
  · simp only [if_pos h8]
  · simp only [if_neg h8]

theorem cstr_cons_ne (c : Char) (v : List Char) (h : c ≠ NUL) : cstr (c :: v) = c :: cstr v := by
  simp [cstr, List.takeWhile_cons, h]

theorem cstr_cons_nul (v : List Char) : cstr (NUL :: v) = [] := by
  simp [cstr, List.takeWhile_cons]

theorem nul_not_mem_cstr (v : List Char) : NUL ∉ cstr v := by
  intro h
  have := List.mem_takeWhile_imp h
  simp at this

theorem cstr_eq_self (v : List Char) (h : NUL ∉ v) : cstr v = v := by
  unfold cstr
  rw [List.takeWhile_eq_self_iff]
  intro c hc
  have : c ≠ NUL := fun e => h (e ▸ hc)
  simpa using this

/-- The copy loop appends the source string, cut to the room left. -/
theorem copy_bounded_eq (outsz : Nat) :
    ∀ (v out : List Char),
      copy_bounded outsz v out = out ++ (cstr v).take (outsz - 1 - out.length) := by
  intro v
  induction v with
  | nil => intro out; simp [copy_bounded, cstr]
  | cons c v ih =>
    intro out
    rw [copy_bounded]
    by_cases h : c ≠ NUL ∧ out.length + 1 < outsz
    · rw [if_pos h, ih, cstr_cons_ne c v h.1]
      obtain ⟨k, hk⟩ : ∃ k, outsz - 1 - out.length = k + 1 := ⟨outsz - 2 - out.length, by omega⟩
      have hk2 : outsz - 1 - (out ++ [c]).length = k := by
        simp only [List.length_append, List.length_singleton]; omega
      rw [hk, hk2, List.take_succ_cons]
      simp
    · rw [if_neg h]
      by_cases hc : c = NUL
      · subst hc
        rw [cstr_cons_nul]
        simp
      · have hz : outsz - 1 - out.length = 0 := by
          have : ¬ (out.length + 1 < outsz) := fun h2 => h ⟨hc, h2⟩
          omega
        rw [hz]
        simp

theorem copy_bounded_spec (outsz : Nat) (v out : List Char) (h : out.length + 1 ≤ outsz) :
    ∃ x, copy_bounded outsz v out = out ++ x ∧ NUL ∉ x ∧ (out ++ x).length + 1 ≤ outsz := by
  refine ⟨(cstr v).take (outsz - 1 - out.length), copy_bounded_eq outsz v out, ?_, ?_⟩
  · intro hm
    exact nul_not_mem_cstr v (List.mem_of_mem_take hm)
  · simp only [List.length_append, List.length_take]
    omega

theorem copy_opt_spec (outsz : Nat) (v : Option CStr) (out : List Char)
    (h : out.length + 1 ≤ outsz) :
    ∃ x, copy_opt outsz v out = out ++ x ∧ NUL ∉ x ∧ (out ++ x).length + 1 ≤ outsz := by
  cases v with
  | none => exact ⟨[], by simp [copy_opt], by simp, by simpa using h⟩
  | some w => exact copy_bounded_spec outsz w out h

theorem push_spec (outsz : Nat) (c : Char) (out : List Char) (hc : c ≠ NUL)
    (h : out.length + 1 < outsz) :
    ∃ x, out ++ [c] = out ++ x ∧ NUL ∉ x ∧ (out ++ x).length + 1 ≤ outsz := by
  refine ⟨[c], rfl, ?_, ?_⟩
  · simpa using hc.symm
  · simp only [List.length_append, List.length_singleton]; omega

theorem default_out_spec (os : OS) (outsz : Nat) (name defexp : CStr) (out : List Char)
    (h : out.length + 1 ≤ outsz) :
    ∃ x, default_out os outsz name defexp out = out ++ x ∧ NUL ∉ x ∧
      (out ++ x).length + 1 ≤ outsz := by
  unfold default_out
  split
  · split
    · exact copy_bounded_spec outsz _ out h
    · exact copy_bounded_spec outsz _ out h
  · exact copy_bounded_spec outsz _ out h

/-- What an iteration does to the index and to the output: the index advances
within the input, and the output grows by NUL-free text that leaves room for
the terminator. -/
theorem expand_step_spec (os : OS) (ls : Int) (outsz : Nat) (s : CStr) (i : Nat)
    (sq dq : Bool) (out : List Char) :
    match expand_step os ls outsz s i sq dq out with
    | ExpandStep.done => True
    | ExpandStep.next i1 _ _ out1 =>
      i < i1 ∧ i < s.length ∧ out.length + 1 < outsz ∧
        ∃ x, out1 = out ++ x ∧ NUL ∉ x ∧ (out ++ x).length + 1 ≤ outsz
    | ExpandStep.dflt defbuf _ i1 =>
      i < i1 ∧ i < s.length ∧ out.length + 1 < outsz ∧ defbuf.length < s.length - i := by
  unfold expand_step
  dsimp only []
  by_cases h0 : inAt s i = NUL ∨ ¬ (out.length + 1 < outsz)
  · simp only [if_pos h0]
  simp only [if_neg h0]
  have hnn : inAt s i ≠ NUL := fun h => h0 (Or.inl h)
  have hroom : out.length + 1 < outsz := by
    by_contra h; exact h0 (Or.inr h)
  have hlt : i < s.length := inAt_ne_nul_lt s i hnn
  by_cases h1 : inAt s i = SQUOTE ∧ dq = false
  · simp only [if_pos h1]
    exact ⟨by omega, hlt, hroom, push_spec outsz _ out hnn hroom⟩
  simp only [if_neg h1]
  by_cases h2 : inAt s i = DQUOTE ∧ sq = false
  · simp only [if_pos h2]
    exact ⟨by omega, hlt, hroom, push_spec outsz _ out hnn hroom⟩
  simp only [if_neg h2]
  by_cases h3 : inAt s i = '$' ∧ sq = false
  swap
  · simp only [if_neg h3]
    exact ⟨by omega, hlt, hroom, push_spec outsz _ out hnn hroom⟩
  simp only [if_pos h3]
  by_cases h4 : inAt s (i + 1) = '$'
  · simp only [if_pos h4]
    exact ⟨by omega, hlt, hroom, copy_bounded_spec outsz _ out (by omega)⟩
  simp only [if_neg h4]
  by_cases h5 : inAt s (i + 1) = '?'
  · simp only [if_pos h5]
    exact ⟨by omega, hlt, hroom, copy_bounded_spec outsz _ out (by omega)⟩
  simp only [if_neg h5]
  by_cases h6 : inAt s (i + 1) = '{' ∧ inAt s (i + 2 + span_name (s.drop (i + 2))) = ':' ∧
      inAt s (i + 2 + span_name (s.drop (i + 2)) + 1) = '-'
  · simp only [if_pos h6]
    refine ⟨?_, hlt, hroom, ?_⟩
    · split_ifs <;> omega
    · have hj : i + 2 + span_name (s.drop (i + 2)) + 1 < s.length :=
        inAt_ne_nul_lt s _ (by rw [h6.2.2]; decide)
      simp only [List.length_take, List.length_drop]
      omega
  simp only [if_neg h6]
  by_cases h7 : inAt s (i + 1) = '{' ∧ inAt s (i + 2 + span_name (s.drop (i + 2))) = '}'
  · simp only [if_pos h7]
    exact ⟨by omega, hlt, hroom, copy_opt_spec outsz _ out (by omega)⟩
  simp only [if_neg h7]
  by_cases h8 : isalpha (inAt s (i + 1)) = true ∨ inAt s (i + 1) = '_'
  · simp only [if_pos h8]
    exact ⟨by omega, hlt, hroom, copy_opt_spec outsz _ out (by omega)⟩
  · simp only [if_neg h8]
    exact ⟨by omega, hlt, hroom, push_spec outsz _ out (by decide) hroom⟩

/-- The loop of the expander returns whenever the fuel exceeds the number of
input characters left. -/
theorem expand_loop_terminates (os : OS) (ls : Int) :
    ∀ (fuel outsz : Nat) (s : CStr) (i : Nat) (sq dq : Bool) (out : List Char),
      s.length - i < fuel → ∃ r, expand_loop os ls fuel outsz s i sq dq out = some r := by
  intro fuel
  induction fuel with
  | zero => intro outsz s i sq dq out h; omega
  | succ fuel ih =>
    intro outsz s i sq dq out hf
    rw [expand_loop_succ]
    have hspec := expand_step_spec os ls outsz s i sq dq out
    cases hstep : expand_step os ls outsz s i sq dq out with
    | done => exact ⟨out, rfl⟩
    | next i1 sq1 dq1 out1 =>
      rw [hstep] at hspec
      exact ih outsz s i1 sq1 dq1 out1 (by omega)
    | dflt defbuf name i1 =>
      rw [hstep] at hspec
      obtain ⟨d, hd⟩ := ih MAX_LINE defbuf 0 false false [] (by omega)
      simp only [hd]
      exact ih outsz s i1 sq dq _ (by omega)

/-- `expand_variables` returns on every input. -/
theorem expand_variables_returns (os : OS) (ls : Int) (s : CStr) (outsz : Nat) :
    ∃ r, expand_variables os ls s outsz = some r :=
  expand_loop_terminates os ls (s.length + 1) outsz s 0 false false [] (by omega)

/-- One more unit of fuel does not change a result. -/
theorem expand_loop_fuel_succ (os : OS) (ls : Int) :
    ∀ (fuel outsz : Nat) (s : CStr) (i : Nat) (sq dq : Bool) (out r : List Char),
      expand_loop os ls fuel outsz s i sq dq out = some r →
      expand_loop os ls (fuel + 1) outsz s i sq dq out = some r := by
  intro fuel
  induction fuel with
  | zero =>
    intro outsz s i sq dq out r h
    rw [expand_loop] at h
    cases h
  | succ fuel ih =>
    intro outsz s i sq dq out r h
    rw [expand_loop_succ] at h
    rw [expand_loop_succ]
    cases hstep : expand_step os ls outsz s i sq dq out with
    | done => rw [hstep] at h; exact h
    | next i1 sq1 dq1 out1 =>
      rw [hstep] at h
      exact ih _ _ _ _ _ _ _ h
    | dflt defbuf name i1 =>
      rw [hstep] at h
      simp only [] at h ⊢
      cases hd : expand_loop os ls fuel MAX_LINE defbuf 0 false false [] with
      | none => rw [hd] at h; cases h
      | some d =>
        rw [hd] at h
        rw [ih _ _ _ _ _ _ _ hd]
        exact ih _ _ _ _ _ _ _ h

theorem expand_loop_fuel_mono (os : OS) (ls : Int) (fuel extra outsz : Nat) (s : CStr)
    (i : Nat) (sq dq : Bool) (out r : List Char)
    (h : expand_loop os ls fuel outsz s i sq dq out = some r) :
    expand_loop os ls (fuel + extra) outsz s i sq dq out = some r := by
  induction extra with
  | zero => exact h
  | succ e ih => exact expand_loop_fuel_succ os ls (fuel + e) outsz s i sq dq out r ih

/-- The output of the loop extends the output so far by NUL-free text and
leaves room for the terminator. -/
theorem expand_loop_output (os : OS) (ls : Int) :
    ∀ (fuel outsz : Nat) (s : CStr) (i : Nat) (sq dq : Bool) (out r : List Char),
      expand_loop os ls fuel outsz s i sq dq out = some r → out.length + 1 ≤ outsz →
      ∃ x, r = out ++ x ∧ NUL ∉ x ∧ r.length + 1 ≤ outsz := by
  intro fuel
  induction fuel with
  | zero =>
    intro outsz s i sq dq out r h
    rw [expand_loop] at h
    cases h
  | succ fuel ih =>
    intro outsz s i sq dq out r h hroom
    rw [expand_loop_succ] at h
    have hspec := expand_step_spec os ls outsz s i sq dq out
    cases hstep : expand_step os ls outsz s i sq dq out with
    | done =>
      rw [hstep] at h
      injection h with h
      subst h
      exact ⟨[], by simp, by simp, hroom⟩
    | next i1 sq1 dq1 out1 =>
      rw [hstep] at h hspec
      obtain ⟨_, _, _, x, hx, hxn, hxl⟩ := hspec
      subst hx
      obtain ⟨y, hy, hyn, hyl⟩ := ih _ _ _ _ _ _ _ h hxl
      refine ⟨x ++ y, by rw [hy, List.append_assoc], ?_, hyl⟩
      simp [hxn, hyn]
    | dflt defbuf name i1 =>
      rw [hstep] at h
      simp only [] at h
      cases hd : expand_loop os ls fuel MAX_LINE defbuf 0 false false [] with
      | none => rw [hd] at h; cases h
      | some d =>
        rw [hd] at h
        obtain ⟨x, hx, hxn, hxl⟩ := default_out_spec os outsz name d out hroom
        simp only [] at h
        rw [hx] at h
        obtain ⟨y, hy, hyn, hyl⟩ := ih _ _ _ _ _ _ _ h hxl
        refine ⟨x ++ y, by rw [hy, List.append_assoc], ?_, hyl⟩
        simp [hxn, hyn]

theorem span_name_append (n rest : List Char) (hn : ∀ c ∈ n, isalnum c = true ∨ c = '_')
    (hrest : span_name rest = 0) : span_name (n ++ rest) = n.length := by
  induction n with
  | nil => simpa using hrest
  | cons c n ih =>
    have hc := hn c (List.mem_cons_self c n)
    have hc0 : c ≠ NUL := by
      rcases hc with h | h
      · intro e; rw [e] at h; exact absurd h (by decide)
      · rw [h]; decide
    rw [List.cons_append, span_name, if_pos ⟨hc0, hc⟩,
      ih (fun d hd => hn d (List.mem_cons_of_mem c hd))]
    rfl

theorem span_to_brace_append (d rest : List Char) (h0 : NUL ∉ d) (h1 : '}' ∉ d) :
    span_to_brace (d ++ '}' :: rest) = d.length := by
  induction d with
  | nil => simp [span_to_brace]
  | cons c d ih =>
    have hc0 : c ≠ NUL := fun e => h0 (by simp [e])
    have hc1 : c ≠ '}' := fun e => h1 (by simp [e])
    rw [List.cons_append, span_to_brace, if_pos ⟨hc0, hc1⟩,
      ih (fun h => h0 (List.mem_cons_of_mem c h)) (fun h => h1 (List.mem_cons_of_mem c h))]
    rfl

theorem inAt_split (pre post : List Char) (c : Char) (t : CStr) (k : Nat)
    (ht : t = pre ++ c :: post) (hk : k = pre.length) : inAt t k = c := by
  subst ht hk
  unfold inAt
  rw [List.getD_append_right pre (c :: post) NUL pre.length (Nat.le_refl _)]
  simp

theorem drop_split (pre post : List Char) (t : CStr) (k : Nat)
    (ht : t = pre ++ post) (hk : k = pre.length) : t.drop k = post := by
  subst ht hk
  exact List.drop_left pre post

theorem expand_step_default_form (os : OS) (ls : Int) (outsz : Nat) (name d : CStr)
    (hname : ∀ c ∈ name, isalnum c = true ∨ c = '_') (hnlen : name.length ≤ 255)
    (hd0 : NUL ∉ d) (hd1 : '}' ∉ d) (hdlen : d.length ≤ MAX_LINE - 1) (hsz : 1 < outsz) :
    expand_step os ls outsz (default_form name d) 0 false false [] =
      ExpandStep.dflt d name (name.length + d.length + 5) := by
  have f0 : inAt (default_form name d) 0 = '$' := rfl
  have f1 : inAt (default_form name d) (0 + 1) = '{' := rfl
  have f2 : (default_form name d).drop (0 + 2) = name ++ ':' :: '-' :: (d ++ ['}']) := rfl
  have f3 : span_name (name ++ ':' :: '-' :: (d ++ ['}'])) = name.length :=
    span_name_append name _ hname (by rw [span_name, if_neg]; decide)
  have f4 : inAt (default_form name d) (0 + 2 + name.length) = ':' :=
    inAt_split ('$' :: '{' :: name) ('-' :: (d ++ ['}'])) ':' _ _
      (by simp [default_form]) (by simp; omega)
  have f5 : inAt (default_form name d) (0 + 2 + name.length + 1) = '-' :=
    inAt_split ('$' :: '{' :: (name ++ [':'])) (d ++ ['}']) '-' _ _
      (by simp [default_form]) (by simp; omega)
  have f6 : (default_form name d).drop (0 + 2 + name.length + 2) = d ++ ['}'] :=
    drop_split ('$' :: '{' :: (name ++ [':', '-'])) (d ++ ['}']) _ _
      (by simp [default_form]) (by simp; omega)
  have f7 : span_to_brace (d ++ ['}']) = d.length := span_to_brace_append d [] hd0 hd1
  have f8 : inAt (default_form name d) (0 + 2 + name.length + 2 + d.length) = '}' :=
    inAt_split ('$' :: '{' :: (name ++ ':' :: '-' :: d)) [] '}' _ _
      (by simp [default_form]) (by simp; omega)
  have c0 : ¬ ('$' = NUL ∨ ¬ (([] : List Char).length + 1 < outsz)) := by
    intro h
    rcases h with h | h
    · exact absurd h (by decide)
    · exact h (by simpa using hsz)
  have c1 : ¬ ('$' = SQUOTE ∧ false = false) := fun h => absurd h.1 (by decide)
  have c2 : ¬ ('$' = DQUOTE ∧ false = false) := fun h => absurd h.1 (by decide)
  have c3 : ('$' : Char) = '$' ∧ false = false := ⟨rfl, rfl⟩
  have c4 : ¬ ('{' : Char) = '$' := by decide
  have c5 : ¬ ('{' : Char) = '?' := by decide
  have c6 : ('{' : Char) = '{' ∧ (':' : Char) = ':' ∧ ('-' : Char) = '-' := ⟨rfl, rfl, rfl⟩
  have c7 : ('}' : Char) = '}' := rfl
  unfold expand_step
  dsimp only []
  rw [f0, f1, f2, f3, f4, f5, f6, f7, f8]
  rw [if_neg c0, if_neg c1, if_neg c2, if_pos c3, if_neg c4, if_neg c5, if_pos c6, if_pos c7]
  have g1 : min (0 + 2 + name.length + 2 + d.length - (0 + 2 + name.length + 2)) (MAX_LINE - 1)
      = d.length := by omega
  have g2 : min (0 + 2 + name.length - (0 + 2)) 255 = name.length := by omega
  rw [g1, g2]
  simp only [List.take_left]
  congr 1
  omega

theorem default_form_length (name d : CStr) :
    (default_form name d).length = name.length + d.length + 5 := by
  simp only [default_form, List.length_cons, List.length_append, List.length_nil]
  omega

theorem copy_bounded_fits (outsz : Nat) (v : List Char) (h0 : NUL ∉ v)
    (hfit : v.length + 1 ≤ outsz) : copy_bounded outsz v [] = v := by
  rw [copy_bounded_eq, cstr_eq_self v h0]
  simp only [List.length_nil, List.nil_append]
  exact List.take_of_length_le (by omega)

/-- The expansion of `${NAME:-D}` for a default text without `}`. -/
theorem expand_default_form (os : OS) (ls : Int) (outsz : Nat) (name d : CStr)
    (hname : ∀ c ∈ name, isalnum c = true ∨ c = '_') (hnlen : name.length ≤ 255)
    (hd0 : NUL ∉ d) (hd1 : '}' ∉ d) (hdlen : d.length ≤ MAX_LINE - 1) (hsz : 1 < outsz) :
    ∃ defexp, expand_variables os ls d MAX_LINE = some defexp ∧ NUL ∉ defexp ∧
      expand_variables os ls (default_form name d) outsz =
        some (default_out os outsz name defexp []) := by
  obtain ⟨defexp, hdef⟩ := expand_loop_terminates os ls (d.length + 1) MAX_LINE d 0 false false []
    (by omega)
  obtain ⟨x, hx, hxn, _⟩ := expand_loop_output os ls _ _ _ _ _ _ _ _ hdef (by simp [MAX_LINE])
  refine ⟨defexp, hdef, by simpa [hx] using hxn, ?_⟩
  have hmono := expand_loop_fuel_mono os ls (d.length + 1) (name.length + 4) MAX_LINE d 0
    false false [] defexp hdef
  have hlen := default_form_length name d
  have e1 : d.length + 1 + (name.length + 4) = name.length + d.length + 4 + 1 := by omega
  rw [e1] at hmono
  unfold expand_variables
  rw [hlen, expand_loop_succ,
    expand_step_default_form os ls outsz name d hname hnlen hd0 hd1 hdlen hsz]
  simp only []
  rw [hmono]
  simp only []
  exact expand_loop_stop os ls _ outsz _ _ false false _
    (Or.inl (inAt_of_le _ _ (by rw [hlen])))

/-- C2 (counterexample): with `V=hello`, `X=a` and `Y` unset, the default text
`${V}` expands to `hello`, but `${Y:-${V}}` expands to the text `${V}` and
`${X:-${V}}` to `a}`: the default text ends at the first `}`. -/
theorem expand_default_nested_brace :
    os_ok.getenv ['Y'] = none ∧ os_ok.getenv ['X'] = some ['a'] ∧
    expand_variables os_ok 0 ['$', '{', 'V', '}'] MAX_LINE =
      some ['h', 'e', 'l', 'l', 'o'] ∧
    expand_variables os_ok 0 (default_form ['Y'] ['$', '{', 'V', '}']) MAX_LINE =
      some ['$', '{', 'V', '}'] ∧
    expand_variables os_ok 0 (default_form ['X'] ['$', '{', 'V', '}']) MAX_LINE =
      some ['a', '}'] ∧
    expand_variables os_ok 0 (default_form ['Y'] ['$', '{', 'V', '}']) MAX_LINE ≠
      expand_variables os_ok 0 ['$', '{', 'V', '}'] MAX_LINE := by
  decide

/-! ### The tokenizer and the quote-stripping pass -/

theorem dropWhile_length_le (f : Char → Bool) (l : List Char) :
    (l.dropWhile f).length ≤ l.length := by
  induction l with
  | nil => simp
  | cons c r ih =>
    rw [List.dropWhile_cons]
    split
    · simp only [List.length_cons]; omega
    · exact Nat.le_refl _

theorem inAt_dropWhile_zero (f : Char → Bool) (l : List Char)
    (h : inAt (l.dropWhile f) 0 ≠ NUL) : f (inAt (l.dropWhile f) 0) = false := by
  induction l with
  | nil => exact absurd rfl h
  | cons c r ih =>
    rw [List.dropWhile_cons] at h ⊢
    by_cases hc : f c = true
    · rw [if_pos hc] at h ⊢
      exact ih h
    · rw [if_neg hc]
      simpa [inAt] using hc

theorem length_pos_of_inAt (l : List Char) (h : inAt l 0 ≠ NUL) : 0 < l.length :=
  inAt_ne_nul_lt l 0 h

theorem dropWhile_length_lt (f : Char → Bool) (l : List Char) (h0 : inAt l 0 ≠ NUL)
    (hf : f (inAt l 0) = true) : (l.dropWhile f).length < l.length := by
  cases l with
  | nil => exact absurd rfl h0
  | cons c r =>
    have hc : f c = true := by simpa [inAt] using hf
    rw [List.dropWhile_cons, if_pos hc]
    have := dropWhile_length_le f r
    simp only [List.length_cons]
    omega

theorem inAt_takeWhile_zero (f : Char → Bool) (l : List Char) (h0 : inAt l 0 ≠ NUL)
    (hf : f (inAt l 0) = true) : inAt (l.takeWhile f) 0 = inAt l 0 := by
  cases l with
  | nil => rfl
  | cons c r =>
    have hc : f c = true := by simpa [inAt] using hf
    rw [List.takeWhile_cons, if_pos hc]
    rfl

theorem quote_not_mem_takeWhile (q : Char) (l : List Char) :
    q ∉ l.takeWhile (fun c => c != NUL && c != q) := by
  intro h
  have := List.mem_takeWhile_imp h
  simp at this

theorem drop_one_length (l : List Char) (h : inAt l 0 ≠ NUL) :
    (l.drop 1).length < l.length := by
  have := length_pos_of_inAt l h
  simp only [List.length_drop]
  omega

/-- The tokenizer returns, and every token it stores satisfies
`token_quote_free`. -/
theorem tokenize_loop_quote_free :
    ∀ (fuel : Nat) (p : List Char) (n : Nat) (toks : List CStr),
      p.length < fuel → (∀ t ∈ toks, token_quote_free t) →
      ∃ r, tokenize_loop fuel p n toks = some r ∧ ∀ t ∈ r, token_quote_free t := by
  intro fuel
  induction fuel with
  | zero => intro p n toks h; omega
  | succ fuel ih =>
    intro p n toks hf hR
    rw [tokenize_loop]
    dsimp only []
    by_cases h0 : inAt p 0 = NUL ∨ ¬ (n < MAX_TOKENS - 1)
    · rw [if_pos h0]; exact ⟨toks, rfl, hR⟩
    rw [if_neg h0]
    by_cases h1 : inAt (p.dropWhile (fun c => c != NUL && is_ws c)) 0 = NUL
    · rw [if_pos h1]; exact ⟨toks, rfl, hR⟩
    rw [if_neg h1]
    have hp1 := dropWhile_length_le (fun c => c != NUL && is_ws c) p
    have hws := inAt_dropWhile_zero (fun c => c != NUL && is_ws c) p h1
    generalize p.dropWhile (fun c => c != NUL && is_ws c) = p1 at h1 hp1 hws ⊢
    by_cases h2 : inAt p1 0 = DQUOTE ∨ inAt p1 0 = SQUOTE
    · rw [if_pos h2]
      have hd := drop_one_length p1 h1
      have hp3 := dropWhile_length_le (fun c => c != NUL && c != inAt p1 0) (p1.drop 1)
      apply ih
      · split_ifs
        · simp only [List.length_drop] at hd hp3 ⊢; omega
        · omega
      · intro t ht
        rcases List.mem_append.mp ht with ht | ht
        · exact hR t ht
        · have : t = (p1.drop 1).takeWhile (fun c => c != NUL && c != inAt p1 0) := by
            simpa using ht
          rw [this]
          have hq := quote_not_mem_takeWhile (inAt p1 0) (p1.drop 1)
          rcases h2 with h2 | h2
          · rw [h2] at hq ⊢; exact Or.inr (Or.inr hq)
          · rw [h2] at hq ⊢; exact Or.inr (Or.inl hq)
    · rw [if_neg h2]
      have hnw : (fun c => c != NUL && !is_ws c) (inAt p1 0) = true := by
        have : is_ws (inAt p1 0) = false := by simpa [h1] using hws
        simp [h1, this]
      have hp3 := dropWhile_length_lt (fun c => c != NUL && !is_ws c) p1 h1 hnw
      apply ih
      · split_ifs
        · simp only [List.length_drop]; omega
        · omega
      · intro t ht
        rcases List.mem_append.mp ht with ht | ht
        · exact hR t ht
        · have : t = p1.takeWhile (fun c => c != NUL && !is_ws c) := by simpa using ht
          rw [this]
          left
          rw [inAt_takeWhile_zero _ p1 h1 hnw]
          exact ⟨fun h => h2 (Or.inr h), fun h => h2 (Or.inl h)⟩

/-- `tokenize` returns on every line. -/
theorem tokenize_returns (line : CStr) : ∃ toks, tokenize line = some toks := by
  obtain ⟨toks, htok, _⟩ := tokenize_loop_quote_free (line.length + 1) line 0 []
    (by omega) (by simp)
  exact ⟨toks, htok⟩

theorem inAt_take_drop_one (t : CStr) (k i : Nat) (h : i < k) :
    inAt ((t.drop 1).take k) i = inAt t (i + 1) := by
  unfold inAt
  rw [List.getD_eq_getElem?_getD, List.getD_eq_getElem?_getD, List.getElem?_take_of_lt h,
    List.getElem?_drop, Nat.add_comm]

theorem quote_of_token (t : CStr) (q1 q2 : Char) (hR : token_quote_free t)
    (h1 : q1 = SQUOTE ∨ q1 = DQUOTE) (h2 : q2 = SQUOTE ∨ q2 = DQUOTE)
    (hlen : 2 ≤ t.length) (e0 : inAt t 0 = q1) (e1 : inAt t 1 = q2) : q1 = q2 := by
  have m0 : q1 ∈ t := e0 ▸ inAt_mem t 0 (by omega)
  have m1 : q2 ∈ t := e1 ▸ inAt_mem t 1 (by omega)
  rcases hR with ⟨ha, hb⟩ | hs | hd
  · rw [e0] at ha hb
    rcases h1 with h | h
    · exact absurd h ha
    · exact absurd h hb
  · rcases h1 with h | h
    · exact absurd (h ▸ m0) hs
    · rcases h2 with h' | h'
      · exact absurd (h' ▸ m1) hs
      · rw [h, h']
  · rcases h1 with h | h
    · rcases h2 with h' | h'
      · rw [h, h']
      · exact absurd (h' ▸ m1) hd
    · exact absurd (h ▸ m0) hd

/-- The pass removes one pair: a token is still wrapped after it only if it was
wrapped twice before. -/
theorem strip_quotes_wrapped (t : CStr) (hR : token_quote_free t)
    (hw : quote_wrapped (strip_quotes t)) : doubly_wrapped t := by
  unfold strip_quotes at hw
  dsimp only [] at hw
  by_cases hc : 2 ≤ t.length ∧ ((inAt t 0 = DQUOTE ∧ inAt t (t.length - 1) = DQUOTE) ∨
      (inAt t 0 = SQUOTE ∧ inAt t (t.length - 1) = SQUOTE))
  · rw [if_pos hc] at hw
    obtain ⟨hlen, hq⟩ := hc
    obtain ⟨hulen, hu⟩ := hw
    have hul : ((t.drop 1).take (t.length - 2)).length = t.length - 2 := by
      simp only [List.length_take, List.length_drop]; omega
    rw [hul] at hulen hu
    rw [inAt_take_drop_one t _ 0 (by omega), inAt_take_drop_one t _ _ (by omega)] at hu
    have e2 : t.length - 2 - 1 + 1 = t.length - 2 := by omega
    rw [e2] at hu
    have key : ∀ q1 q2 : Char, (q1 = SQUOTE ∨ q1 = DQUOTE) → (q2 = SQUOTE ∨ q2 = DQUOTE) →
        inAt t 0 = q1 → inAt t (t.length - 1) = q1 → inAt t (0 + 1) = q2 →
        inAt t (t.length - 2) = q2 → doubly_wrapped t := by
      intro q1 q2 h1 h2 a b c d
      have hq12 := quote_of_token t q1 q2 hR h1 h2 hlen a c
      subst hq12
      exact ⟨by omega, q1, h1, a, c, d, b⟩
    rcases hq with ⟨a, b⟩ | ⟨a, b⟩ <;> rcases hu with ⟨c, d⟩ | ⟨c, d⟩
    · exact key _ _ (Or.inr rfl) (Or.inr rfl) a b c d
    · exact key _ _ (Or.inr rfl) (Or.inl rfl) a b c d
    · exact key _ _ (Or.inl rfl) (Or.inr rfl) a b c d
    · exact key _ _ (Or.inl rfl) (Or.inl rfl) a b c d
  · rw [if_neg hc] at hw
    exact absurd hw hc

/-- C8 (amended): `tokenize` returns for every line, and after the
quote-stripping pass an emitted token of length at least two begins and ends
with the same quote character only if the token `tokenize` delimited began with
two and ended with two copies of that quote character (the pass removes exactly
one surrounding pair). -/
theorem strip_pass_wrapped_only_if_doubly (line : CStr) :
    ∃ toks, tokenize line = some toks ∧
      ∀ u ∈ strip_pass toks, quote_wrapped u →
        ∃ t ∈ toks, u = strip_quotes t ∧ doubly_wrapped t := by
  obtain ⟨toks, htok, hR⟩ := tokenize_loop_quote_free (line.length + 1) line 0 []
    (by omega) (by simp)
  refine ⟨toks, htok, ?_⟩
  intro u hu hw
  obtain ⟨t, ht, rfl⟩ := List.mem_map.mp hu
  exact ⟨t, ht, rfl, strip_quotes_wrapped t (hR t ht) hw⟩

/-- C8 (counterexample): the line `"''a''"` is balanced in quotes and is not
skipped; `tokenize` yields the token `''a''`, from which the pass removes one
pair, so the emitted token `'a'` still begins and ends with a single quote. -/
theorem strip_pass_leaves_wrapped_token :
    quotes_balanced [DQUOTE, SQUOTE, SQUOTE, 'a', SQUOTE, SQUOTE, DQUOTE] ∧
    tokenize [DQUOTE, SQUOTE, SQUOTE, 'a', SQUOTE, SQUOTE, DQUOTE] =
      some [[SQUOTE, SQUOTE, 'a', SQUOTE, SQUOTE]] ∧
    line_skipped [[SQUOTE, SQUOTE, 'a', SQUOTE, SQUOTE]] = false ∧
    strip_pass [[SQUOTE, SQUOTE, 'a', SQUOTE, SQUOTE]] = [[SQUOTE, 'a', SQUOTE]] ∧
    quote_wrapped [SQUOTE, 'a', SQUOTE] := by
  decide

/-! ### The tokenizer: fields, quoted spans and the token limit -/

theorem ws_pred_eq : (fun c => c != NUL && is_ws c) = is_ws := by
  funext c
  by_cases h : c = NUL
  · subst h; decide
  · simp [h]

theorem ws_fields_nil : ws_fields [] = [] := by
  simp [ws_fields, List.splitOnP_nil]

theorem ws_fields_cons_ws (c : Char) (l : List Char) (h : is_ws c = true) :
    ws_fields (c :: l) = ws_fields l := by
  simp [ws_fields, List.splitOnP_cons, h]

theorem ws_fields_dropWhile (l : List Char) : ws_fields (l.dropWhile is_ws) = ws_fields l := by
  induction l with
  | nil => rfl
  | cons c l ih =>
    rw [List.dropWhile_cons]
    by_cases h : is_ws c = true
    · rw [if_pos h, ih, ws_fields_cons_ws c l h]
    · rw [if_neg h]

theorem ws_fields_single (tok : List Char) (hne : tok ≠ [])
    (hws : ∀ c ∈ tok, ¬ is_ws c = true) : ws_fields tok = [tok] := by
  unfold ws_fields
  rw [List.splitOnP_eq_single is_ws tok hws]
  cases tok with
  | nil => exact absurd rfl hne
  | cons c r => simp

theorem ws_fields_first (tok : List Char) (sep : Char) (rest : List Char) (hne : tok ≠ [])
    (hws : ∀ c ∈ tok, ¬ is_ws c = true) (hsep : is_ws sep = true) :
    ws_fields (tok ++ sep :: rest) = tok :: ws_fields rest := by
  unfold ws_fields
  rw [List.splitOnP_first is_ws tok hws sep hsep rest]
  cases tok with
  | nil => exact absurd rfl hne
  | cons c r => simp

theorem splitOnP_no_sep (p : Char → Bool) (l : List Char) :
    ∀ t ∈ l.splitOnP p, ∀ c ∈ t, ¬ p c = true := by
  induction l with
  | nil =>
    intro t ht c hc
    rw [List.splitOnP_nil] at ht
    simp at ht
    subst ht
    cases hc
  | cons x xs ih =>
    intro t ht c hc
    rw [List.splitOnP_cons] at ht
    by_cases hx : p x = true
    · rw [if_pos hx] at ht
      rcases List.mem_cons.mp ht with h | h
      · subst h; cases hc
      · exact ih t h c hc
    · rw [if_neg hx] at ht
      cases hsp : xs.splitOnP p with
      | nil => exact absurd hsp (List.splitOnP_ne_nil p xs)
      | cons hd tl =>
        rw [hsp] at ht ih
        simp only [List.modifyHead_cons] at ht
        rcases List.mem_cons.mp ht with h | h
        · subst h
          rcases List.mem_cons.mp hc with h1 | h1
          · rw [h1]; exact hx
          · exact ih hd (List.mem_cons_self hd tl) c h1
        · exact ih t (List.mem_cons_of_mem hd h) c hc

theorem ws_fields_spec (line : CStr) :
    ∀ t ∈ ws_fields line, t ≠ [] ∧ ∀ c ∈ t, is_ws c = false := by
  intro t ht
  unfold ws_fields at ht
  obtain ⟨hm, hf⟩ := List.mem_filter.mp ht
  refine ⟨?_, ?_⟩
  · intro h; subst h; simp at hf
  · intro c hc
    simpa using splitOnP_no_sep is_ws line t hm c hc

theorem ws_fields_all_ws (line : CStr) (h : ∀ c ∈ line, is_ws c = true) :
    ws_fields line = [] := by
  induction line with
  | nil => exact ws_fields_nil
  | cons c l ih =>
    rw [ws_fields_cons_ws c l (h c (List.mem_cons_self c l))]
    exact ih (fun d hd => h d (List.mem_cons_of_mem c hd))

theorem eq_nil_of_inAt_zero (l : List Char) (hnul : NUL ∉ l) (h : inAt l 0 = NUL) : l = [] := by
  cases l with
  | nil => rfl
  | cons c r => exact absurd (by simpa [inAt] using h.symm) (fun e : NUL = c => hnul (by simp [e]))

theorem token_pred_takeWhile (l : List Char) (hnul : NUL ∉ l) :
    l.takeWhile (fun c => c != NUL && !is_ws c) = l.takeWhile (fun c => !is_ws c) := by
  induction l with
  | nil => rfl
  | cons c l ih =>
    have hc : c ≠ NUL := fun e => hnul (by simp [e])
    rw [List.takeWhile_cons, List.takeWhile_cons,
      ih (fun h => hnul (List.mem_cons_of_mem c h))]
    simp [hc]

theorem token_pred_dropWhile (l : List Char) (hnul : NUL ∉ l) :
    l.dropWhile (fun c => c != NUL && !is_ws c) = l.dropWhile (fun c => !is_ws c) := by
  induction l with
  | nil => rfl
  | cons c l ih =>
    have hc : c ≠ NUL := fun e => hnul (by simp [e])
    rw [List.dropWhile_cons, List.dropWhile_cons,
      ih (fun h => hnul (List.mem_cons_of_mem c h))]
    simp [hc]

/-- A line that begins with a character other than a separator splits into its
first field and the fields of what follows the separator that ends it. -/
theorem ws_fields_token (l : List Char) (h0 : l ≠ []) (hhead : is_ws (inAt l 0) = false) :
    ws_fields l = l.takeWhile (fun c => !is_ws c) ::
      ws_fields ((l.dropWhile (fun c => !is_ws c)).drop 1) := by
  have hsplit := List.takeWhile_append_dropWhile (fun c => !is_ws c) l
  have hws : ∀ c ∈ l.takeWhile (fun c => !is_ws c), ¬ is_ws c = true := by
    intro c hc
    have := List.mem_takeWhile_imp hc
    simpa using this
  have hne : l.takeWhile (fun c => !is_ws c) ≠ [] := by
    cases l with
    | nil => exact absurd rfl h0
    | cons c r =>
      have hc : is_ws c = false := by simpa [inAt] using hhead
      simp [List.takeWhile_cons, hc]
  cases hd : l.dropWhile (fun c => !is_ws c) with
  | nil =>
    rw [hd, List.append_nil] at hsplit
    rw [hsplit] at hws hne ⊢
    rw [ws_fields_single l hne hws]
    simp [ws_fields_nil]
  | cons sep rest =>
    have hsep : is_ws sep = true := by
      have := List.head_dropWhile_not (fun c => !is_ws c) l (by rw [hd]; simp)
      simp only [hd, List.head_cons] at this
      simpa using this
    rw [hd] at hsplit
    conv_lhs => rw [← hsplit]
    rw [ws_fields_first _ sep rest hne hws hsep]
    rfl

theorem not_mem_of_suffix (c : Char) (l l1 : List Char) (hs : l1 <:+ l) (h : c ∉ l) :
    c ∉ l1 := fun hm => h (hs.subset hm)

/-- Without quote characters the tokenizer stores the fields of the rest of
the line, as many as the token limit allows. -/
theorem tokenize_loop_fields :
    ∀ (fuel : Nat) (p : List Char) (n : Nat) (toks : List CStr),
      p.length < fuel → NUL ∉ p → SQUOTE ∉ p → DQUOTE ∉ p →
      tokenize_loop fuel p n toks =
        some (toks ++ (ws_fields p).take (MAX_TOKENS - 1 - n)) := by
  intro fuel
  induction fuel with
  | zero => intro p n toks h; omega
  | succ fuel ih =>
    intro p n toks hf hnul hsq hdq
    rw [tokenize_loop]
    dsimp only []
    by_cases h0 : inAt p 0 = NUL ∨ ¬ (n < MAX_TOKENS - 1)
    · rw [if_pos h0]
      rcases h0 with h | h
      · rw [eq_nil_of_inAt_zero p hnul h, ws_fields_nil]; simp
      · have : MAX_TOKENS - 1 - n = 0 := by omega
        rw [this]; simp
    rw [if_neg h0]
    have hlt : n < MAX_TOKENS - 1 := by
      by_contra hc; exact h0 (Or.inr hc)
    rw [ws_pred_eq]
    have hsuf : p.dropWhile is_ws <:+ p := List.dropWhile_suffix is_ws
    have hflds := ws_fields_dropWhile p
    have hhead : inAt (p.dropWhile is_ws) 0 ≠ NUL → is_ws (inAt (p.dropWhile is_ws) 0) = false :=
      inAt_dropWhile_zero is_ws p
    have hlen1 := dropWhile_length_le is_ws p
    have hnul1 := not_mem_of_suffix NUL p _ hsuf hnul
    have hsq1 := not_mem_of_suffix SQUOTE p _ hsuf hsq
    have hdq1 := not_mem_of_suffix DQUOTE p _ hsuf hdq
    generalize p.dropWhile is_ws = p1 at hflds hhead hlen1 hnul1 hsq1 hdq1 ⊢
    by_cases h1 : inAt p1 0 = NUL
    · rw [if_pos h1, ← hflds, eq_nil_of_inAt_zero p1 hnul1 h1, ws_fields_nil]; simp
    rw [if_neg h1]
    have hmem : inAt p1 0 ∈ p1 := inAt_mem p1 0 (inAt_ne_nul_lt p1 0 h1)
    have h2 : ¬ (inAt p1 0 = DQUOTE ∨ inAt p1 0 = SQUOTE) := by
      intro h
      rcases h with h | h
      · exact hdq1 (h ▸ hmem)
      · exact hsq1 (h ▸ hmem)
    rw [if_neg h2, token_pred_takeWhile p1 hnul1, token_pred_dropWhile p1 hnul1]
    have hp1ne : p1 ≠ [] := by
      intro e; rw [e] at h1; exact h1 rfl
    have htok := ws_fields_token p1 hp1ne (hhead h1)
    have hsuf3 : p1.dropWhile (fun c => !is_ws c) <:+ p1 := List.dropWhile_suffix _
    have hnul3 := not_mem_of_suffix NUL p1 _ hsuf3 hnul1
    have hsq3 := not_mem_of_suffix SQUOTE p1 _ hsuf3 hsq1
    have hdq3 := not_mem_of_suffix DQUOTE p1 _ hsuf3 hdq1
    have hlen3 := dropWhile_length_lt (fun c => !is_ws c) p1 h1 (by simp [hhead h1])
    generalize p1.dropWhile (fun c => !is_ws c) = p3 at htok hnul3 hsq3 hdq3 hlen3 ⊢
    have hp4 : (if inAt p3 0 ≠ NUL then p3.drop 1 else p3) = p3.drop 1 := by
      by_cases h3 : inAt p3 0 = NUL
      · rw [if_neg (not_not.mpr h3), eq_nil_of_inAt_zero p3 hnul3 h3]; rfl
      · rw [if_pos h3]
    have hsuf4 : p3.drop 1 <:+ p3 := List.drop_suffix 1 p3
    rw [hp4, ih (p3.drop 1) (n + 1) _ (by simp only [List.length_drop]; omega)
      (not_mem_of_suffix NUL p3 _ hsuf4 hnul3) (not_mem_of_suffix SQUOTE p3 _ hsuf4 hsq3)
      (not_mem_of_suffix DQUOTE p3 _ hsuf4 hdq3), ← hflds, htok]
    obtain ⟨k, hk⟩ : ∃ k, MAX_TOKENS - 1 - n = k + 1 := ⟨MAX_TOKENS - 2 - n, by omega⟩
    have hk2 : MAX_TOKENS - 1 - (n + 1) = k := by omega
    rw [hk, hk2, List.take_succ_cons]
    simp

/-- C12: on a line without quote characters `tokenize` returns, in order, the
maximal non-empty runs of non-whitespace characters, limited to the first
`MAX_TOKENS - 1`; no such run is empty or contains whitespace, and an empty or
whitespace-only line yields no token. -/
theorem tokenize_no_quotes (line : CStr) (hnul : NUL ∉ line) (hsq : SQUOTE ∉ line)
    (hdq : DQUOTE ∉ line) :
    tokenize line = some ((ws_fields line).take (MAX_TOKENS - 1)) ∧
    (∀ t ∈ ws_fields line, t ≠ [] ∧ ∀ c ∈ t, is_ws c = false) ∧
    ((∀ c ∈ line, is_ws c = true) → tokenize line = some []) := by
  have h := tokenize_loop_fields (line.length + 1) line 0 [] (by omega) hnul hsq hdq
  have h' : tokenize line = some ((ws_fields line).take (MAX_TOKENS - 1)) := by
    unfold tokenize
    rw [h]
    simp
  refine ⟨h', ws_fields_spec line, ?_⟩
  intro hall
  rw [h', ws_fields_all_ws line hall]
  rfl

theorem tokenize_no_quotes_witness :
    tokenize [' ', 'l', 's', ' ', '\t', '-', 'l', '\n'] =
      some ((ws_fields [' ', 'l', 's', ' ', '\t', '-', 'l', '\n']).take (MAX_TOKENS - 1)) ∧
    ws_fields [' ', 'l', 's', ' ', '\t', '-', 'l', '\n'] = [['l', 's'], ['-', 'l']] := by
  refine ⟨(tokenize_no_quotes [' ', 'l', 's', ' ', '\t', '-', 'l', '\n']
    (by decide) (by decide) (by decide)).1, by decide⟩

theorem takeWhile_until_quote (q : Char) (s rest : List Char) (hs : q ∉ s) (hnul : NUL ∉ s) :
    (s ++ q :: rest).takeWhile (fun c => c != NUL && c != q) = s := by
  induction s with
  | nil => simp
  | cons c s ih =>
    have hc0 : c ≠ NUL := fun e => hnul (by simp [e])
    have hc1 : c ≠ q := fun e => hs (by simp [e])
    have hp : (c != NUL && c != q) = true := by simp [hc0, hc1]
    rw [List.cons_append, List.takeWhile_cons, if_pos hp,
      ih (fun h => hs (List.mem_cons_of_mem c h)) (fun h => hnul (List.mem_cons_of_mem c h))]

theorem dropWhile_until_quote (q : Char) (s rest : List Char) (hs : q ∉ s) (hnul : NUL ∉ s) :
    (s ++ q :: rest).dropWhile (fun c => c != NUL && c != q) = q :: rest := by
  induction s with
  | nil => simp
  | cons c s ih =>
    have hc0 : c ≠ NUL := fun e => hnul (by simp [e])
    have hc1 : c ≠ q := fun e => hs (by simp [e])
    have hp : (c != NUL && c != q) = true := by simp [hc0, hc1]
    rw [List.cons_append, List.dropWhile_cons, if_pos hp,
      ih (fun h => hs (List.mem_cons_of_mem c h)) (fun h => hnul (List.mem_cons_of_mem c h))]

/-- C13: for a quote character `q` and a text `s` that does not contain `q`,
`tokenize` applied to `q ++ s ++ q` yields exactly one token, equal to `s`:
inner whitespace and the other quote character are kept, the delimiting quotes
are excluded. -/
theorem tokenize_quoted_span (q : Char) (s : CStr) (hq : q = SQUOTE ∨ q = DQUOTE)
    (hs : q ∉ s) (hnul : NUL ∉ s) : tokenize (q :: s ++ [q]) = some [s] := by
  have hq0 : q ≠ NUL := by rcases hq with h | h <;> rw [h] <;> decide
  have hqw : is_ws q = false := by rcases hq with h | h <;> rw [h] <;> decide
  have hfuel : (q :: s ++ [q]).length + 1 = (s.length + 1) + 1 + 1 := by simp
  unfold tokenize
  rw [hfuel, tokenize_loop]
  dsimp only []
  have h0 : ¬ (inAt (q :: s ++ [q]) 0 = NUL ∨ ¬ (0 < MAX_TOKENS - 1)) := by
    intro h
    rcases h with h | h
    · exact hq0 h
    · exact h (by decide)
  have hdw : (q :: s ++ [q]).dropWhile (fun c => c != NUL && is_ws c) = q :: s ++ [q] := by
    show (q :: (s ++ [q])).dropWhile (fun c => c != NUL && is_ws c) = _
    have hn : ¬ (q != NUL && is_ws q) = true := by simp [hqw]
    rw [List.dropWhile_cons, if_neg hn]
    rfl
  have h1 : ¬ inAt (q :: s ++ [q]) 0 = NUL := hq0
  have h2 : inAt (q :: s ++ [q]) 0 = DQUOTE ∨ inAt (q :: s ++ [q]) 0 = SQUOTE := by
    rcases hq with h | h
    · exact Or.inr h
    · exact Or.inl h
  rw [if_neg h0, hdw, if_neg h1, if_pos h2]
  have hq' : inAt (q :: s ++ [q]) 0 = q := rfl
  have hd1 : (q :: s ++ [q]).drop 1 = s ++ [q] := rfl
  rw [hq', hd1, takeWhile_until_quote q s [] hs hnul, dropWhile_until_quote q s [] hs hnul]
  have h3 : inAt [q] 0 ≠ NUL := hq0
  rw [if_pos h3, tokenize_loop]
  have h4 : inAt (List.drop 1 [q]) 0 = NUL ∨ ¬ (0 + 1 < MAX_TOKENS - 1) := Or.inl rfl
  rw [if_pos h4]
  rfl

theorem tokenize_quoted_span_witness :
    tokenize (SQUOTE :: ['a', ' ', DQUOTE, 'b', ' ', ' ', 'c'] ++ [SQUOTE]) =
      some [['a', ' ', DQUOTE, 'b', ' ', ' ', 'c']] :=
  tokenize_quoted_span SQUOTE ['a', ' ', DQUOTE, 'b', ' ', ' ', 'c'] (Or.inl rfl)
    (by decide) (by decide)

/-- The token count never exceeds `MAX_TOKENS - 1`. -/
theorem tokenize_loop_count :
    ∀ (fuel : Nat) (p : List Char) (n : Nat) (toks r : List CStr),
      tokenize_loop fuel p n toks = some r → n = toks.length → n ≤ MAX_TOKENS - 1 →
      r.length ≤ MAX_TOKENS - 1 := by
  intro fuel
  induction fuel with
  | zero => intro p n toks r h; rw [tokenize_loop] at h; cases h
  | succ fuel ih =>
    intro p n toks r h hn hle
    rw [tokenize_loop] at h
    dsimp only [] at h
    by_cases h0 : inAt p 0 = NUL ∨ ¬ (n < MAX_TOKENS - 1)
    · rw [if_pos h0] at h
      injection h with h
      rw [← h, ← hn]; exact hle
    rw [if_neg h0] at h
    have hlt : n < MAX_TOKENS - 1 := by
      by_contra hc; exact h0 (Or.inr hc)
    by_cases h1 : inAt (p.dropWhile (fun c => c != NUL && is_ws c)) 0 = NUL
    · rw [if_pos h1] at h
      injection h with h
      rw [← h, ← hn]; exact hle
    rw [if_neg h1] at h
    by_cases h2 : inAt (p.dropWhile (fun c => c != NUL && is_ws c)) 0 = DQUOTE ∨
        inAt (p.dropWhile (fun c => c != NUL && is_ws c)) 0 = SQUOTE
    · rw [if_pos h2] at h
      exact ih _ _ _ _ h (by simp [hn]) (by omega)
    · rw [if_neg h2] at h
      exact ih _ _ _ _ h (by simp [hn]) (by omega)

/-- C14: on every input `tokenize` returns a count of at most `MAX_TOKENS - 1`
(127); the `tokens` array then holds that many entries followed by `NULL` at
index `n`, so at most `MAX_TOKENS` entries are written. -/
theorem tokenize_within_bounds (line : CStr) :
    ∃ toks, tokenize line = some toks ∧ toks.length ≤ MAX_TOKENS - 1 ∧
      toks.length ≤ 127 ∧ (mkArgv toks).length ≤ MAX_TOKENS ∧
      argvAt (mkArgv toks) toks.length = none ∧
      ∀ k, k < toks.length → argvAt (mkArgv toks) k = some (toks.getD k []) := by
  obtain ⟨toks, htok⟩ := tokenize_returns line
  have hc := tokenize_loop_count _ _ _ _ _ htok rfl (by decide)
  refine ⟨toks, htok, hc, hc, ?_, ?_, ?_⟩
  · simp only [mkArgv, List.length_append, List.length_map, List.length_singleton]
    simp only [MAX_TOKENS] at hc ⊢
    omega
  · simp [argvAt, mkArgv, List.getD_eq_getElem?_getD]
  · intro k hk
    simp [argvAt, mkArgv, List.getD_eq_getElem?_getD, List.getElem?_append_left, hk]

/-! ### Pipelines, the handler step, reachable job tables and dispatch -/

/-- C16: when `pipe` and both `fork`s succeed and the wait for the right-hand
child succeeds with a normal exit, `last_status` after `exec_pipe` is the exit
code of the right-hand command, whatever the wait for the left-hand command
gave; `false | true` leaves 0. -/
theorem exec_pipe_last_wait_wins (os : OS) (p1 p2 r2 : Int) (c2 : Nat)
    (last_status : Int) (left right : Argv)
    (hp1 : 0 ≤ p1) (hp2 : 0 ≤ p2)
    (hw2 : os.waitpid p2 = (r2, exitedStatus c2)) (hr2 : 0 < r2) (hc2 : c2 < 256) :
    (exec_pipe os true p1 p2 last_status left right).last_status = (c2 : Int) ∧
    ∀ r1 : Int, exec_pipe_waits last_status (r1, exitedStatus 1) (r2, exitedStatus 0) = 0 := by
  have e : ∀ (w : Int × Nat) (d : Nat), d < 256 →
      exec_pipe_waits last_status w (r2, exitedStatus d) = (d : Int) := by
    intro w d hd
    have h2 : WEXITSTATUS (exitedStatus d) = d := by
      unfold WEXITSTATUS exitedStatus; omega
    simp [exec_pipe_waits, hr2, h2]
  refine ⟨?_, fun r1 => by simpa using e (r1, exitedStatus 1) 0 (by decide)⟩
  have h1 : ¬ p1 < 0 := by omega
  have h2 : ¬ p2 < 0 := by omega
  simp only [exec_pipe, if_neg h1, if_neg h2, hw2]
  exact e _ c2 hc2

theorem exec_pipe_last_wait_wins_witness :
    (exec_pipe os_false_true true 100 101 7
      (mkArgv [['f', 'a', 'l', 's', 'e']]) (mkArgv [['t', 'r', 'u', 'e']])).last_status =
      ((0 : Nat) : Int) ∧
    ∀ r1 : Int, exec_pipe_waits 7 (r1, exitedStatus 1) (101, exitedStatus 0) = 0 :=
  exec_pipe_last_wait_wins os_false_true 100 101 101 0 7 _ _ (by decide) (by decide)
    (by decide) (by decide) (by decide)

theorem jobAt_set_self (jobs : List Job) (k : Nat) (x : Job) (h : k < jobs.length) :
    jobAt (jobs.set k x) k = x := by
  unfold jobAt
  rw [List.getD_eq_getElem?_getD, List.getElem?_set_self h]
  rfl

theorem jobAt_set_ne (jobs : List Job) (k k1 : Nat) (x : Job) (h : k1 ≠ k) :
    jobAt (jobs.set k x) k1 = jobAt jobs k1 := by
  unfold jobAt
  rw [List.getD_eq_getElem?_getD, List.getD_eq_getElem?_getD,
    List.getElem?_set_ne (fun e => h e.symm)]

theorem jobAt_of_le (jobs : List Job) (k : Nat) (h : jobs.length ≤ k) :
    jobAt jobs k = Job.zero := by
  unfold jobAt
  exact List.getD_eq_default jobs Job.zero h

/-- A slot written with the value it already has, up to `set`, reads back as
the new value when in range and as the old one otherwise. -/
theorem jobAt_set (jobs : List Job) (k k1 : Nat) (x : Job) :
    jobAt (jobs.set k x) k1 = if k1 = k ∧ k < jobs.length then x else jobAt jobs k1 := by
  by_cases h : k1 = k
  · subst h
    by_cases hl : k1 < jobs.length
    · rw [jobAt_set_self jobs k1 x hl, if_pos ⟨rfl, hl⟩]
    · rw [if_neg (fun c => hl c.2), jobAt_of_le _ _ (by simp; omega),
        jobAt_of_le _ _ (by omega)]
  · rw [jobAt_set_ne jobs k k1 x h, if_neg (fun c => h c.1)]

theorem find_job_by_pid_from_some (jobs : List Job) (pid : Int) :
    ∀ (n i k : Nat), find_job_by_pid_from jobs pid n i = some k →
      i ≤ k ∧ k < i + n ∧ (jobAt jobs k).pid = pid := by
  intro n
  induction n with
  | zero => intro i k h; rw [find_job_by_pid_from] at h; cases h
  | succ n ih =>
    intro i k h
    rw [find_job_by_pid_from] at h
    by_cases hc : (jobAt jobs i).pid = pid
    · rw [if_pos hc] at h
      injection h with h
      subst h
      exact ⟨Nat.le_refl _, by omega, hc⟩
    · rw [if_neg hc] at h
      obtain ⟨h1, h2, h3⟩ := ih (i + 1) k h
      exact ⟨by omega, by omega, h3⟩

theorem find_job_by_pid_from_none (jobs : List Job) (pid : Int) :
    ∀ (n i : Nat), (∀ k, i ≤ k → k < i + n → (jobAt jobs k).pid ≠ pid) →
      find_job_by_pid_from jobs pid n i = none := by
  intro n
  induction n with
  | zero => intro i _; rfl
  | succ n ih =>
    intro i h
    rw [find_job_by_pid_from, if_neg (h i (Nat.le_refl i) (by omega))]
    exact ih (i + 1) (fun k hk1 hk2 => h k (by omega) (by omega))

theorem find_job_by_pid_from_exists (jobs : List Job) (pid : Int) :
    ∀ (n i k : Nat), i ≤ k → k < i + n → (jobAt jobs k).pid = pid →
      ∃ k1, find_job_by_pid_from jobs pid n i = some k1 := by
  intro n
  induction n with
  | zero => intro i k h1 h2; omega
  | succ n ih =>
    intro i k h1 h2 h3
    rw [find_job_by_pid_from]
    by_cases hc : (jobAt jobs i).pid = pid
    · rw [if_pos hc]; exact ⟨i, rfl⟩
    · rw [if_neg hc]
      have hne : i ≠ k := fun e => hc (e ▸ h3)
      exact ih (i + 1) k (by omega) (by omega) h3

/-- The handler step either leaves the table alone or rewrites the status of
the slot found by `find_job_by_pid`. -/
theorem sigchld_step_cases (jobs : List Job) (p : Int) (status : Nat) :
    sigchld_step jobs p status = jobs ∨
    ∃ k s, find_job_by_pid jobs p = some k ∧
      sigchld_step jobs p status = jobs.set k { jobAt jobs k with status := s } := by
  unfold sigchld_step
  cases h : find_job_by_pid jobs p with
  | none => exact Or.inl rfl
  | some k =>
    dsimp only []
    split_ifs
    · exact Or.inr ⟨k, _, rfl, rfl⟩
    · exact Or.inr ⟨k, _, rfl, rfl⟩
    · exact Or.inr ⟨k, _, rfl, rfl⟩
    · exact Or.inl rfl

/-- C18: one step of the child-event handler for a process id `p > 0` keeps
the pid, jid and cmdline of every slot and the whole of every slot whose pid is
not `p`; if no slot holds `p` the table is unchanged; otherwise the slot found
for `p` gets status Done on an exit or a signal termination, Stopped on a stop
and Running on a continue. -/
theorem sigchld_step_frame (jobs : List Job) (p : Int) (status : Nat) (hp : 0 < p) :
    (sigchld_step jobs p status).length = jobs.length ∧
    (∀ k, (jobAt (sigchld_step jobs p status) k).pid = (jobAt jobs k).pid ∧
      (jobAt (sigchld_step jobs p status) k).jid = (jobAt jobs k).jid ∧
      (jobAt (sigchld_step jobs p status) k).cmdline = (jobAt jobs k).cmdline) ∧
    (∀ k, (jobAt jobs k).pid ≠ p → jobAt (sigchld_step jobs p status) k = jobAt jobs k) ∧
    ((∀ k, k < MAX_JOBS → (jobAt jobs k).pid ≠ p) → sigchld_step jobs p status = jobs) ∧
    ((∃ k, k < MAX_JOBS ∧ (jobAt jobs k).pid = p) →
      ∃ k, k < MAX_JOBS ∧ find_job_by_pid jobs p = some k ∧ (jobAt jobs k).pid = p ∧
        (WIFEXITED status = true ∨ WIFSIGNALED status = true →
          (jobAt (sigchld_step jobs p status) k).status = JOB_DONE) ∧
        (WIFSTOPPED status = true →
          (jobAt (sigchld_step jobs p status) k).status = JOB_STOPPED) ∧
        (WIFCONTINUED status = true →
          (jobAt (sigchld_step jobs p status) k).status = JOB_RUNNING)) := by
  have hfound : ∀ k, find_job_by_pid jobs p = some k →
      k < MAX_JOBS ∧ (jobAt jobs k).pid = p ∧ k < jobs.length := by
    intro k hk
    obtain ⟨_, h2, h3⟩ := find_job_by_pid_from_some jobs p MAX_JOBS 0 k hk
    refine ⟨by omega, h3, ?_⟩
    by_contra hge
    rw [jobAt_of_le jobs k (by omega)] at h3
    have : (0 : Int) = p := h3
    omega
  refine ⟨?_, ?_, ?_, ?_, ?_⟩
  · rcases sigchld_step_cases jobs p status with h | ⟨k, s, _, h⟩
    · rw [h]
    · rw [h]; simp
  · intro k1
    rcases sigchld_step_cases jobs p status with h | ⟨k, s, _, h⟩
    · rw [h]; exact ⟨rfl, rfl, rfl⟩
    · rw [h, jobAt_set]
      split_ifs with hc
      · rw [hc.1]; exact ⟨rfl, rfl, rfl⟩
      · exact ⟨rfl, rfl, rfl⟩
  · intro k1 hk1
    rcases sigchld_step_cases jobs p status with h | ⟨k, s, hf, h⟩
    · rw [h]
    · have hne : k1 ≠ k := fun e => hk1 (e ▸ (hfound k hf).2.1)
      rw [h, jobAt_set_ne jobs k k1 _ hne]
  · intro hno
    have hnone : find_job_by_pid jobs p = none :=
      find_job_by_pid_from_none jobs p MAX_JOBS 0 (fun k _ hk => hno k (by omega))
    simp only [sigchld_step, hnone]
  · rintro ⟨k0, hk0, hpid0⟩
    obtain ⟨k, hk⟩ := find_job_by_pid_from_exists jobs p MAX_JOBS 0 k0 (Nat.zero_le _)
      (by omega) hpid0
    have hk' : find_job_by_pid jobs p = some k := hk
    obtain ⟨hlt, hpid, hlen⟩ := hfound k hk'
    refine ⟨k, hlt, hk', hpid, ?_, ?_, ?_⟩
    · intro hd
      have hd' : (WIFEXITED status || WIFSIGNALED status) = true := by
        rcases hd with h | h <;> simp [h]
      simp only [sigchld_step, hk', hd', if_true]
      rw [jobAt_set_self jobs k _ hlen]
    · intro hs
      have hne : ¬ (WIFEXITED status || WIFSIGNALED status) = true := by
        unfold WIFSTOPPED at hs
        unfold WIFEXITED WIFSIGNALED WTERMSIG
        simp only [beq_iff_eq] at hs
        simp only [Bool.or_eq_true, beq_iff_eq, decide_eq_true_eq, not_or]
        omega
      simp only [sigchld_step, hk', if_neg hne, hs, if_true]
      rw [jobAt_set_self jobs k _ hlen]
    · intro hc
      have hst : status = 65535 := by
        unfold WIFCONTINUED at hc
        simpa using hc
      subst hst
      have hne : ¬ (WIFEXITED 65535 || WIFSIGNALED 65535) = true := by decide
      have hns : ¬ WIFSTOPPED 65535 = true := by decide
      simp only [sigchld_step, hk', if_neg hne, if_neg hns, hc, if_true]
      rw [jobAt_set_self jobs k _ hlen]

/-- The invariant passes to any table whose occupied slots were occupied
before, with the same job id, while `next_jid` does not decrease. -/
theorem jobs_inv_of_sub (st st1 : Shell) (h : jobs_inv st) (hn : st.next_jid ≤ st1.next_jid)
    (hsub : ∀ k, (jobAt st1.jobs k).pid ≠ 0 →
      (jobAt st.jobs k).pid ≠ 0 ∧ (jobAt st1.jobs k).jid = (jobAt st.jobs k).jid) :
    jobs_inv st1 := by
  obtain ⟨h0, h1, h2⟩ := h
  refine ⟨by omega, ?_, ?_⟩
  · intro k hk
    obtain ⟨ho, hj⟩ := hsub k hk
    have := h1 k ho
    rw [hj]
    exact ⟨this.1, by omega⟩
  · intro k1 k2 hne hk1 hk2
    obtain ⟨ho1, hj1⟩ := hsub k1 hk1
    obtain ⟨ho2, hj2⟩ := hsub k2 hk2
    rw [hj1, hj2]
    exact h2 k1 k2 hne ho1 ho2

theorem remove_job_sub (jobs : List Job) (k k1 : Nat)
    (h : (jobAt (remove_job jobs k) k1).pid ≠ 0) :
    (jobAt jobs k1).pid ≠ 0 ∧ (jobAt (remove_job jobs k) k1).jid = (jobAt jobs k1).jid := by
  unfold remove_job at h ⊢
  rw [jobAt_set] at h ⊢
  split_ifs at h ⊢ with hc
  · exact absurd rfl h
  · exact ⟨h, rfl⟩

theorem status_update_sub (jobs : List Job) (k k1 : Nat) (s : job_status_t) :
    (jobAt (jobs.set k { jobAt jobs k with status := s }) k1).pid = (jobAt jobs k1).pid ∧
    (jobAt (jobs.set k { jobAt jobs k with status := s }) k1).jid = (jobAt jobs k1).jid := by
  rw [jobAt_set]
  split_ifs with hc
  · rw [hc.1]; exact ⟨rfl, rfl⟩
  · exact ⟨rfl, rfl⟩

theorem cleanup_jobs_from_sub :
    ∀ (n i : Nat) (jobs : List Job) (k : Nat),
      (jobAt (cleanup_jobs_from jobs n i) k).pid ≠ 0 →
      (jobAt jobs k).pid ≠ 0 ∧ (jobAt (cleanup_jobs_from jobs n i) k).jid = (jobAt jobs k).jid := by
  intro n
  induction n with
  | zero => intro i jobs k h; exact ⟨h, rfl⟩
  | succ n ih =>
    intro i jobs k h
    rw [cleanup_jobs_from] at h ⊢
    split_ifs at h ⊢ with hc
    · obtain ⟨h1, h2⟩ := ih (i + 1) (remove_job jobs i) k h
      obtain ⟨h3, h4⟩ := remove_job_sub jobs i k h1
      exact ⟨h3, h2.trans h4⟩
    · exact ih (i + 1) jobs k h

theorem add_job_from_inv (st : Shell) (pid : Int) (cmdline : Option CStr) (h : jobs_inv st) :
    ∀ (n i : Nat), jobs_inv (add_job_from st pid cmdline n i).2 := by
  intro n
  induction n with
  | zero => intro i; exact h
  | succ n ih =>
    intro i
    rw [add_job_from]
    split_ifs with hfree
    · obtain ⟨h0, h1, h2⟩ := h
      refine ⟨by show 0 < st.next_jid + 1; omega, ?_, ?_⟩
      · intro k hk
        show 0 < (jobAt (st.jobs.set i _) k).jid ∧ (jobAt (st.jobs.set i _) k).jid < st.next_jid + 1
        have hk' : (jobAt (st.jobs.set i _) k).pid ≠ 0 := hk
        rw [jobAt_set] at hk' ⊢
        split_ifs at hk' ⊢ with hc
        · exact ⟨h0, by show st.next_jid < st.next_jid + 1; omega⟩
        · have := h1 k hk'
          exact ⟨this.1, by omega⟩
      · intro k1 k2 hne hk1 hk2
        show (jobAt (st.jobs.set i _) k1).jid ≠ (jobAt (st.jobs.set i _) k2).jid
        have hk1' : (jobAt (st.jobs.set i _) k1).pid ≠ 0 := hk1
        have hk2' : (jobAt (st.jobs.set i _) k2).pid ≠ 0 := hk2
        rw [jobAt_set] at hk1' hk2' ⊢
        rw [jobAt_set]
        split_ifs at hk1' hk2' ⊢ with hc1 hc2 hc2
        · exact absurd (hc1.1.trans hc2.1.symm) hne
        · have := (h1 k2 hk2').2
          show st.next_jid ≠ (jobAt st.jobs k2).jid
          omega
        · have := (h1 k1 hk1').2
          show (jobAt st.jobs k1).jid ≠ st.next_jid
          omega
        · exact h2 k1 k2 hne hk1' hk2'
    · exact ih (i + 1)

theorem jobs_inv_init : jobs_inv Shell.init := by
  have hz : ∀ k, jobAt Shell.init.jobs k = Job.zero := by
    intro k
    unfold jobAt Shell.init
    rw [List.getD_eq_getElem?_getD]
    by_cases hk : k < MAX_JOBS
    · simp [List.getElem?_replicate, hk]
    · simp [List.getElem?_replicate, hk]
  refine ⟨by decide, ?_, ?_⟩
  · intro k hk; rw [hz k] at hk; exact absurd rfl hk
  · intro k1 _ _ hk; rw [hz k1] at hk; exact absurd rfl hk

theorem reachable_jobs_inv (st : Shell) (h : Reachable st) : jobs_inv st := by
  induction h with
  | init => exact jobs_inv_init
  | add st pid cmdline _ ih => exact add_job_from_inv st pid cmdline ih MAX_JOBS 0
  | remove st k _ ih =>
    exact jobs_inv_of_sub st _ ih (Int.le_refl _) (fun k1 hk => remove_job_sub st.jobs k k1 hk)
  | cleanup st _ ih =>
    exact jobs_inv_of_sub st _ ih (Int.le_refl _)
      (fun k1 hk => cleanup_jobs_from_sub MAX_JOBS 0 st.jobs k1 hk)
  | sigchld st pid status _ ih =>
    refine jobs_inv_of_sub st _ ih (Int.le_refl _) ?_
    intro k1 hk
    rcases sigchld_step_cases st.jobs pid status with h | ⟨k, s, _, h⟩
    · simp only [h] at hk ⊢; exact ⟨hk, trivial⟩
    · simp only [h] at hk ⊢
      obtain ⟨e1, e2⟩ := status_update_sub st.jobs k k1 s
      exact ⟨e1 ▸ hk, e2⟩
  | fg os st jid _ ih =>
    refine jobs_inv_of_sub st _ ih ?_ ?_
    · unfold builtin_fg; split <;> exact Int.le_refl _
    · intro k1 hk
      unfold builtin_fg at hk ⊢
      split at hk
      · exact ⟨hk, by simp_all⟩
      · next k hfind =>
        simp only [hfind] at hk ⊢
        exact remove_job_sub st.jobs k k1 hk
  | bg st jid _ ih =>
    refine jobs_inv_of_sub st _ ih ?_ ?_
    · unfold builtin_bg; split <;> exact Int.le_refl _
    · intro k1 hk
      unfold builtin_bg at hk ⊢
      split at hk
      · exact ⟨hk, by simp_all⟩
      · next k hfind =>
        simp only [hfind] at hk ⊢
        obtain ⟨e1, e2⟩ := status_update_sub st.jobs k k1 JOB_RUNNING
        exact ⟨e1 ▸ hk, e2⟩

/-- C15: in every state reachable from the initial table by `add_job`,
`remove_job`, `cleanup_jobs`, handler steps and the `fg`/`bg` builtins, two
distinct occupied slots hold distinct job ids, and every live job id is
positive and smaller than `next_jid`. -/
theorem reachable_job_ids_unique (st : Shell) (h : Reachable st) :
    (∀ k1 k2, k1 ≠ k2 → (jobAt st.jobs k1).pid ≠ 0 → (jobAt st.jobs k2).pid ≠ 0 →
      (jobAt st.jobs k1).jid ≠ (jobAt st.jobs k2).jid) ∧
    (∀ k, (jobAt st.jobs k).pid ≠ 0 →
      0 < (jobAt st.jobs k).jid ∧ (jobAt st.jobs k).jid < st.next_jid) := by
  obtain ⟨_, h1, h2⟩ := reachable_jobs_inv st h
  exact ⟨h2, h1⟩

theorem reachable_job_ids_unique_witness :
    (∀ k1 k2, k1 ≠ k2 →
      (jobAt (add_job (add_job Shell.init 4000 none).2 4001 none).2.jobs k1).pid ≠ 0 →
      (jobAt (add_job (add_job Shell.init 4000 none).2 4001 none).2.jobs k2).pid ≠ 0 →
      (jobAt (add_job (add_job Shell.init 4000 none).2 4001 none).2.jobs k1).jid ≠
        (jobAt (add_job (add_job Shell.init 4000 none).2 4001 none).2.jobs k2).jid) ∧
    (∀ k, (jobAt (add_job (add_job Shell.init 4000 none).2 4001 none).2.jobs k).pid ≠ 0 →
      0 < (jobAt (add_job (add_job Shell.init 4000 none).2 4001 none).2.jobs k).jid ∧
      (jobAt (add_job (add_job Shell.init 4000 none).2 4001 none).2.jobs k).jid <
        (add_job (add_job Shell.init 4000 none).2 4001 none).2.next_jid) :=
  reachable_job_ids_unique _
    (Reachable.add _ 4001 none (Reachable.add _ 4000 none Reachable.init))

theorem sigchld_step_frame_witness :
    (jobAt (sigchld_step full_table.jobs 1003 (signaledStatus 9 false)) 3).status = JOB_DONE ∧
    (jobAt (sigchld_step full_table.jobs 1003 (signaledStatus 9 false)) 3).jid = 4 ∧
    jobAt (sigchld_step full_table.jobs 1003 (signaledStatus 9 false)) 5 =
      jobAt full_table.jobs 5 := by
  obtain ⟨_, hfields, hother, _, hfound⟩ :=
    sigchld_step_frame full_table.jobs 1003 (signaledStatus 9 false) (by decide)
  obtain ⟨k, _, hk, _, hdone, _, _⟩ := hfound ⟨3, by decide, by decide⟩
  have hk3 : find_job_by_pid full_table.jobs 1003 = some 3 := by decide
  rw [hk3] at hk
  injection hk with hk
  subst hk
  exact ⟨hdone (Or.inr (by decide)), (hfields 3).2.1.trans (by decide), hother 5 (by decide)⟩

/-- C20 (the code departs from the claim): for the lines `ls |` and `| wc`,
neither skipped nor a builtin, `main` cuts the vector at the pipe token and
`exec_pipe` calls `execvp` on both halves without testing `argv[0]`, so the
child of the empty stage calls `execvp(NULL, ...)`; the single-command child
tests `argv[0] == NULL` first and makes no such call for the line `&`. -/
theorem exec_pipe_execs_null_program :
    line_skipped [['l', 's'], ['|']] = false ∧ is_builtin ['l', 's'] = false ∧
    dispatch_execs os_ok true 100 101 0 [['l', 's'], ['|']] =
      some [{ file := some ['l', 's'], argv := [['l', 's']] }, { file := none, argv := [] }] ∧
    line_skipped [['|'], ['w', 'c']] = false ∧ is_builtin ['|'] = false ∧
    dispatch_execs os_ok true 100 101 0 [['|'], ['w', 'c']] =
      some [{ file := none, argv := [] }, { file := some ['w', 'c'], argv := [['w', 'c']] }] ∧
    dispatch_execs os_ok true 100 101 0 [['&']] = some [] ∧
    dispatch_execs os_ok true 100 101 0 [['l', 's'], ['-', 'l']] =
      some [{ file := some ['l', 's'], argv := [['l', 's'], ['-', 'l']] }] := by
  decide

/-- The single-command child never hands a `NULL` program name to `execvp`. -/
theorem exec_calls_file_some (tr : List Effect) :
    ∀ call ∈ exec_calls tr, call.file ≠ none := by
  induction tr with
  | nil => intro call h; cases h
  | cons e rest ih =>
    intro call h
    cases e with
    | execvp file argv =>
      rcases List.mem_cons.mp h with h | h
      · rw [h]; simp
      · exact ih call h
    | _ => exact ih call h

/-! ### The expander: name references -/

/-- Without `$` from index `i` on, every iteration copies the current
character. -/
theorem expand_loop_no_dollar_from (os : OS) (ls : Int) (outsz : Nat) (s : CStr) :
    ∀ (fuel i : Nat) (sq dq : Bool) (out : List Char),
      (∀ k, i ≤ k → k < s.length → inAt s k ≠ NUL ∧ inAt s k ≠ '$') →
      s.length - i < fuel → i ≤ s.length → out.length + (s.length - i) + 1 ≤ outsz →
      expand_loop os ls fuel outsz s i sq dq out = some (out ++ s.drop i) := by
  intro fuel
  induction fuel with
  | zero => intro i sq dq out _ h; omega
  | succ fuel ih =>
    intro i sq dq out hs hf hi hroom
    rcases Nat.lt_or_ge i s.length with hlt | hge
    · obtain ⟨hc0, hc1⟩ := hs i (Nat.le_refl i) hlt
      have hr : out.length + 1 < outsz := by omega
      have hdrop := drop_eq_inAt_cons s i hlt
      have key : ∀ (sq1 dq1 : Bool),
          expand_loop os ls fuel outsz s (i + 1) sq1 dq1 (out ++ [inAt s i]) =
            some (out ++ s.drop i) := by
        intro sq1 dq1
        rw [ih (i + 1) sq1 dq1 (out ++ [inAt s i]) (fun k hk1 hk2 => hs k (by omega) hk2)
          (by omega) (by omega) (by simp; omega), hdrop]
        simp
      by_cases c1 : inAt s i = SQUOTE ∧ dq = false
      · rw [expand_loop_squote os ls fuel outsz s i sq dq out c1.1 c1.2 hr, ← c1.1]
        exact key _ _
      · by_cases c2 : inAt s i = DQUOTE ∧ sq = false
        · rw [expand_loop_dquote os ls fuel outsz s i sq dq out c2.1 c2.2 hr, ← c2.1]
          exact key _ _
        · rw [expand_loop_plain os ls fuel outsz s i sq dq out hc0 hr c1 c2
            (fun h => hc1 h.1)]
          exact key _ _
    · rw [expand_loop_stop os ls fuel outsz s i sq dq out (Or.inl (inAt_of_le s i hge))]
      simp [List.drop_eq_nil_of_le hge]

theorem name_start_ne (c d : Char) (h : isalpha c = true ∨ c = '_')
    (hd : isalpha d = false) (hd2 : d ≠ '_') : c ≠ d := by
  intro e
  subst e
  rcases h with h | h
  · rw [hd] at h; cases h
  · exact hd2 h

theorem copy_opt_fits (outsz : Nat) (v : Option CStr) (out : List Char)
    (h0 : NUL ∉ v.getD []) (hfit : out.length + (v.getD []).length + 1 ≤ outsz) :
    copy_opt outsz v out = out ++ v.getD [] := by
  cases v with
  | none => simp [copy_opt]
  | some w =>
    simp only [Option.getD_some] at h0 hfit
    simp only [copy_opt, Option.getD_some]
    rw [copy_bounded_eq, cstr_eq_self w h0, List.take_of_length_le (by omega)]

/-- The iteration at a `$` followed by a name and by text that does not go on
the name: the name is the whole run, cut to 255 characters for the lookup. -/
theorem expand_step_dollar_name (os : OS) (ls : Int) (outsz : Nat) (name rest : CStr)
    (dq : Bool) (hhead : isalpha (inAt name 0) = true ∨ inAt name 0 = '_')
    (hname : ∀ c ∈ name, isalnum c = true ∨ c = '_') (hrest : span_name rest = 0)
    (hsz : 1 < outsz) :
    expand_step os ls outsz ('$' :: (name ++ rest)) 0 false dq [] =
      ExpandStep.next (name.length + 1) false dq
        (copy_opt outsz (os.getenv (name.take 255)) []) := by
  have hne : name ≠ [] := by
    intro e
    rw [e] at hhead
    rcases hhead with h | h
    · exact absurd h (by decide)
    · exact absurd h (by decide)
  obtain ⟨c, r, rfl⟩ : ∃ c r, name = c :: r := by
    cases name with
    | nil => exact absurd rfl hne
    | cons c r => exact ⟨c, r, rfl⟩
  have hc : isalpha c = true ∨ c = '_' := hhead
  have f0 : inAt ('$' :: (c :: r ++ rest)) 0 = '$' := rfl
  have f1 : inAt ('$' :: (c :: r ++ rest)) (0 + 1) = c := rfl
  have fd : ('$' :: (c :: r ++ rest)).drop (0 + 1) = c :: r ++ rest := rfl
  have fs : span_name (c :: r ++ rest) = (c :: r).length :=
    span_name_append (c :: r) rest hname hrest
  have c0 : ¬ ('$' = NUL ∨ ¬ (([] : List Char).length + 1 < outsz)) := by
    intro h
    rcases h with h | h
    · exact absurd h (by decide)
    · exact h (by simpa using hsz)
  have c1 : ¬ ('$' = SQUOTE ∧ dq = false) := fun h => absurd h.1 (by decide)
  have c2 : ¬ ('$' = DQUOTE ∧ false = false) := fun h => absurd h.1 (by decide)
  have c3 : ('$' : Char) = '$' ∧ false = false := ⟨rfl, rfl⟩
  have c4 : ¬ c = '$' := name_start_ne c '$' hc (by decide) (by decide)
  have c5 : ¬ c = '?' := name_start_ne c '?' hc (by decide) (by decide)
  have c6 : ¬ c = '{' := name_start_ne c '{' hc (by decide) (by decide)
  unfold expand_step
  dsimp only []
  rw [f0, f1, fd, fs]
  rw [if_neg c0, if_neg c1, if_neg c2, if_pos c3, if_neg c4, if_neg c5,
    if_neg (fun h => c6 h.1), if_neg (fun h => c6 h.1), if_pos hc]
  have g : min (0 + 1 + (c :: r).length - (0 + 1)) 255 = min (c :: r).length 255 := by
    omega
  have g2 : List.take (min (c :: r).length 255) (c :: r ++ rest) = List.take 255 (c :: r) := by
    rw [List.take_append_of_le_length (Nat.min_le_left _ _), List.take_eq_take]
    omega
  rw [g, g2]
  congr 1
  omega

/-- The iteration at `${`, a run of name characters and `}`. -/
theorem expand_step_brace_name (os : OS) (ls : Int) (outsz : Nat) (name rest : CStr)
    (dq : Bool) (hname : ∀ c ∈ name, isalnum c = true ∨ c = '_') (hsz : 1 < outsz) :
    expand_step os ls outsz ('$' :: '{' :: (name ++ '}' :: rest)) 0 false dq [] =
      ExpandStep.next (name.length + 3) false dq
        (copy_opt outsz (os.getenv (name.take 255)) []) := by
  have f0 : inAt ('$' :: '{' :: (name ++ '}' :: rest)) 0 = '$' := rfl
  have f1 : inAt ('$' :: '{' :: (name ++ '}' :: rest)) (0 + 1) = '{' := rfl
  have fd : ('$' :: '{' :: (name ++ '}' :: rest)).drop (0 + 2) = name ++ '}' :: rest := rfl
  have fs : span_name (name ++ '}' :: rest) = name.length :=
    span_name_append name _ hname (by rw [span_name, if_neg]; decide)
  have f4 : inAt ('$' :: '{' :: (name ++ '}' :: rest)) (0 + 2 + name.length) = '}' :=
    inAt_split ('$' :: '{' :: name) rest '}' _ _ (by simp) (by simp; omega)
  have c0 : ¬ ('$' = NUL ∨ ¬ (([] : List Char).length + 1 < outsz)) := by
    intro h
    rcases h with h | h
    · exact absurd h (by decide)
    · exact h (by simpa using hsz)
  have c1 : ¬ ('$' = SQUOTE ∧ dq = false) := fun h => absurd h.1 (by decide)
  have c2 : ¬ ('$' = DQUOTE ∧ false = false) := fun h => absurd h.1 (by decide)
  have c3 : ('$' : Char) = '$' ∧ false = false := ⟨rfl, rfl⟩
  have c4 : ¬ ('{' : Char) = '$' := by decide
  have c5 : ¬ ('{' : Char) = '?' := by decide
  have c6 : ¬ (('{' : Char) = '{' ∧ ('}' : Char) = ':' ∧
      inAt ('$' :: '{' :: (name ++ '}' :: rest)) (0 + 2 + name.length + 1) = '-') :=
    fun h => absurd h.2.1 (by decide)
  have c7 : ('{' : Char) = '{' ∧ ('}' : Char) = '}' := ⟨rfl, rfl⟩
  unfold expand_step
  dsimp only []
  rw [f0, f1, fd, fs, f4]
  rw [if_neg c0, if_neg c1, if_neg c2, if_pos c3, if_neg c4, if_neg c5, if_neg c6, if_pos c7]
  have g : min (0 + 2 + name.length - (0 + 2)) 255 = min name.length 255 := by omega
  have g2 : List.take (min name.length 255) (name ++ '}' :: rest) = List.take 255 name := by
    rw [List.take_append_of_le_length (Nat.min_le_left _ _), List.take_eq_take]
    omega
  rw [g, g2]
  congr 1
  omega

theorem inAt_append_right (a b : List Char) (k : Nat) :
    inAt (a ++ b) (a.length + k) = inAt b k := by
  unfold inAt
  rw [List.getD_append_right a b NUL (a.length + k) (by omega)]
  simp

/-- After a prefix `pre`, text without `$` and NUL is copied to the end. -/
theorem expand_loop_copy_rest (os : OS) (ls : Int) (outsz fuel : Nat) (pre rest : List Char)
    (sq dq : Bool) (out : List Char) (hrn : NUL ∉ rest) (hrd : '$' ∉ rest)
    (hfuel : rest.length < fuel) (hroom : out.length + rest.length + 1 ≤ outsz) :
    expand_loop os ls fuel outsz (pre ++ rest) pre.length sq dq out = some (out ++ rest) := by
  have hlen : (pre ++ rest).length = pre.length + rest.length := List.length_append pre rest
  rw [expand_loop_no_dollar_from os ls outsz (pre ++ rest) fuel pre.length sq dq out ?_
    (by omega) (by omega) (by omega), List.drop_left]
  intro k hk1 hk2
  obtain ⟨d, rfl⟩ : ∃ d, k = pre.length + d := ⟨k - pre.length, by omega⟩
  rw [inAt_append_right]
  have hm : inAt rest d ∈ rest := inAt_mem rest d (by omega)
  exact ⟨fun e => hrn (e ▸ hm), fun e => hrd (e ▸ hm)⟩

/-- The expansion of `$NAME` followed by text that does not go on the name and
has no `$`: the value looked up under the first 255 characters of the name,
then the text. -/
theorem expand_dollar_name_text (os : OS) (ls : Int) (outsz : Nat) (name rest : CStr)
    (hhead : isalpha (inAt name 0) = true ∨ inAt name 0 = '_')
    (hname : ∀ c ∈ name, isalnum c = true ∨ c = '_') (hrest : span_name rest = 0)
    (hrn : NUL ∉ rest) (hrd : '$' ∉ rest)
    (hv : NUL ∉ (os.getenv (name.take 255)).getD [])
    (hfit : ((os.getenv (name.take 255)).getD []).length + rest.length < outsz) :
    expand_variables os ls ('$' :: (name ++ rest)) outsz =
      some ((os.getenv (name.take 255)).getD [] ++ rest) := by
  unfold expand_variables
  by_cases hsz : 1 < outsz
  · have hlen : ('$' :: (name ++ rest)).length + 1 = (name.length + rest.length + 1) + 1 := by
      simp only [List.length_cons, List.length_append]
    rw [hlen, expand_loop_succ, expand_step_dollar_name os ls outsz name rest false hhead hname
      hrest hsz]
    simp only []
    rw [copy_opt_fits outsz _ [] hv (by simp only [List.length_nil]; omega), List.nil_append]
    have hs : '$' :: (name ++ rest) = ('$' :: name) ++ rest := rfl
    have hi : name.length + 1 = ('$' :: name).length := rfl
    rw [hs, hi]
    exact expand_loop_copy_rest os ls outsz _ ('$' :: name) rest false false _ hrn hrd
      (by omega) (by omega)
  · have h1 : (os.getenv (name.take 255)).getD [] = [] :=
      List.eq_nil_of_length_eq_zero (by omega)
    have h2 : rest = [] := List.eq_nil_of_length_eq_zero (by omega)
    rw [h1, h2]
    exact expand_loop_stop os ls _ outsz _ 0 false false []
      (Or.inr (by simp only [List.length_nil]; omega))

/-- The expansion of `${NAME}` followed by text without `$`. -/
theorem expand_brace_name_text (os : OS) (ls : Int) (outsz : Nat) (name rest : CStr)
    (hname : ∀ c ∈ name, isalnum c = true ∨ c = '_')
    (hrn : NUL ∉ rest) (hrd : '$' ∉ rest)
    (hv : NUL ∉ (os.getenv (name.take 255)).getD [])
    (hfit : ((os.getenv (name.take 255)).getD []).length + rest.length < outsz) :
    expand_variables os ls ('$' :: '{' :: (name ++ '}' :: rest)) outsz =
      some ((os.getenv (name.take 255)).getD [] ++ rest) := by
  unfold expand_variables
  by_cases hsz : 1 < outsz
  · have hlen : ('$' :: '{' :: (name ++ '}' :: rest)).length + 1 =
        (name.length + rest.length + 3) + 1 := by
      simp only [List.length_cons, List.length_append]
      omega
    rw [hlen, expand_loop_succ, expand_step_brace_name os ls outsz name rest false hname hsz]
    simp only []
    rw [copy_opt_fits outsz _ [] hv (by simp only [List.length_nil]; omega), List.nil_append]
    have hs : '$' :: '{' :: (name ++ '}' :: rest) = ('$' :: '{' :: (name ++ ['}'])) ++ rest := by
      simp
    have hi : name.length + 3 = ('$' :: '{' :: (name ++ ['}'])).length := by simp
    rw [hs, hi]
    exact expand_loop_copy_rest os ls outsz _ _ rest false false _ hrn hrd
      (by omega) (by omega)
  · have h1 : (os.getenv (name.take 255)).getD [] = [] :=
      List.eq_nil_of_length_eq_zero (by omega)
    have h2 : rest = [] := List.eq_nil_of_length_eq_zero (by omega)
    rw [h1, h2]
    exact expand_loop_stop os ls _ outsz _ 0 false false []
      (Or.inr (by simp only [List.length_nil]; omega))

/-- A name whose first 255 characters are not a variable expands to nothing. -/
theorem expand_name_lookup_cut (os : OS) (ls : Int) (name : CStr)
    (hhead : isalpha (inAt name 0) = true ∨ inAt name 0 = '_')
    (hname : ∀ c ∈ name, isalnum c = true ∨ c = '_')
    (hg : os.getenv (name.take 255) = none) :
    expand_variables os ls ('$' :: name) MAX_LINE = some [] ∧
    expand_variables os ls ('$' :: '{' :: (name ++ ['}'])) MAX_LINE = some [] := by
  have h1 := expand_dollar_name_text os ls MAX_LINE name [] hhead hname rfl (by simp) (by simp)
    (by rw [hg]; simp) (by rw [hg]; decide)
  have h2 := expand_brace_name_text os ls MAX_LINE name [] hname (by simp) (by simp)
    (by rw [hg]; simp) (by rw [hg]; decide)
  rw [hg] at h1 h2
  exact ⟨by simpa using h1, by simpa using h2⟩

set_option maxRecDepth 20000 in
theorem os_long_lookup :
    os_long.getenv (List.replicate 256 'a') = some ['x'] ∧
    os_long.getenv ((List.replicate 256 'a').take 255) = none ∧
    isalpha (inAt (List.replicate 256 'a') 0) = true := by
  decide

/-- C11 (counterexample): with only the 256-character name `aa...a` set (to
`x`), `$aa...a` and `${aa...a}` expand to the empty string: the name is cut to
its first 255 characters before the lookup. -/
theorem expand_long_name_truncated :
    os_long.getenv (List.replicate 256 'a') = some ['x'] ∧
    expand_variables os_long 0 ('$' :: List.replicate 256 'a') MAX_LINE = some [] ∧
    expand_variables os_long 0 ('$' :: '{' :: (List.replicate 256 'a' ++ ['}'])) MAX_LINE =
      some [] := by
  have hname : ∀ c ∈ List.replicate 256 'a', isalnum c = true ∨ c = '_' := by
    intro c hc
    rw [(List.mem_replicate.mp hc).2]
    decide
  exact ⟨os_long_lookup.1,
    expand_name_lookup_cut os_long 0 (List.replicate 256 'a') (Or.inl os_long_lookup.2.2)
      hname os_long_lookup.2.1⟩

/-! ### The expander: termination, bounds and truncation -/

theorem span_name_le (l : List Char) : span_name l ≤ l.length := by
  induction l with
  | nil => exact Nat.le_refl _
  | cons c l ih =>
    rw [span_name]
    split_ifs
    · simp only [List.length_cons]; omega
    · exact Nat.zero_le _

theorem span_to_brace_le (l : List Char) : span_to_brace l ≤ l.length := by
  induction l with
  | nil => exact Nat.le_refl _
  | cons c l ih =>
    rw [span_to_brace]
    split_ifs
    · simp only [List.length_cons]; omega
    · exact Nat.zero_le _

theorem scan_name_le (s : CStr) (k : Nat) (h : k ≤ s.length) :
    k + span_name (s.drop k) ≤ s.length := by
  have := span_name_le (s.drop k)
  simp only [List.length_drop] at this
  omega

theorem scan_brace_le (s : CStr) (k : Nat) (h : k ≤ s.length) :
    k + span_to_brace (s.drop k) ≤ s.length := by
  have := span_to_brace_le (s.drop k)
  simp only [List.length_drop] at this
  omega

theorem lt_of_inAt_eq (s : CStr) (k : Nat) (c : Char) (h : inAt s k = c) (hc : c ≠ NUL) :
    k < s.length := inAt_ne_nul_lt s k (by rw [h]; exact hc)

/-- Every index an iteration reads is at most the index of the terminator. -/
theorem step_max_read_le (outsz : Nat) (s : CStr) (i : Nat) (sq dq : Bool) (out : List Char)
    (hi : i ≤ s.length) : step_max_read outsz s i sq dq out ≤ s.length := by
  unfold step_max_read
  dsimp only []
  by_cases h0 : inAt s i = NUL ∨ ¬ (out.length + 1 < outsz)
  · rw [if_pos h0]; exact hi
  rw [if_neg h0]
  have hlt : i < s.length := inAt_ne_nul_lt s i (fun h => h0 (Or.inl h))
  by_cases h1 : inAt s i = SQUOTE ∧ dq = false
  · rw [if_pos h1]; exact hi
  rw [if_neg h1]
  by_cases h2 : inAt s i = DQUOTE ∧ sq = false
  · rw [if_pos h2]; exact hi
  rw [if_neg h2]
  by_cases h3 : inAt s i = '$' ∧ sq = false
  swap
  · rw [if_neg h3]; exact hi
  rw [if_pos h3]
  by_cases h4 : inAt s (i + 1) = '$'
  · rw [if_pos h4]; omega
  rw [if_neg h4]
  by_cases h5 : inAt s (i + 1) = '?'
  · rw [if_pos h5]; omega
  rw [if_neg h5]
  by_cases h6 : inAt s (i + 1) = '{'
  · rw [if_pos h6]
    have hb : i + 1 < s.length := lt_of_inAt_eq s _ _ h6 (by decide)
    have hj := scan_name_le s (i + 2) (by omega)
    by_cases h7 : inAt s (i + 2 + span_name (s.drop (i + 2))) = ':'
    · rw [if_pos h7]
      have hj1 := lt_of_inAt_eq s _ _ h7 (by decide)
      by_cases h8 : inAt s (i + 2 + span_name (s.drop (i + 2)) + 1) = '-'
      · rw [if_pos h8]
        have hj2 := lt_of_inAt_eq s _ _ h8 (by decide)
        exact scan_brace_le s _ (by omega)
      · rw [if_neg h8]; omega
    · rw [if_neg h7]; exact hj
  rw [if_neg h6]
  by_cases h9 : isalpha (inAt s (i + 1)) = true ∨ inAt s (i + 1) = '_'
  · rw [if_pos h9]
    exact scan_name_le s (i + 1) (by omega)
  · rw [if_neg h9]; omega

/-- The index at which the loop goes on is at most the index of the
terminator. -/
theorem expand_step_index_le (os : OS) (ls : Int) (outsz : Nat) (s : CStr) (i : Nat)
    (sq dq : Bool) (out : List Char) :
    match expand_step os ls outsz s i sq dq out with
    | ExpandStep.done => True
    | ExpandStep.next i1 _ _ _ => i1 ≤ s.length
    | ExpandStep.dflt _ _ i1 => i1 ≤ s.length := by
  unfold expand_step
  dsimp only []
  by_cases h0 : inAt s i = NUL ∨ ¬ (out.length + 1 < outsz)
  · simp only [if_pos h0]
  simp only [if_neg h0]
  have hlt : i < s.length := inAt_ne_nul_lt s i (fun h => h0 (Or.inl h))
  by_cases h1 : inAt s i = SQUOTE ∧ dq = false
  · simp only [if_pos h1]; omega
  simp only [if_neg h1]
  by_cases h2 : inAt s i = DQUOTE ∧ sq = false
  · simp only [if_pos h2]; omega
  simp only [if_neg h2]
  by_cases h3 : inAt s i = '$' ∧ sq = false
  swap
  · simp only [if_neg h3]; omega
  simp only [if_pos h3]
  by_cases h4 : inAt s (i + 1) = '$'
  · simp only [if_pos h4]
    have := lt_of_inAt_eq s _ _ h4 (by decide)
    omega
  simp only [if_neg h4]
  by_cases h5 : inAt s (i + 1) = '?'
  · simp only [if_pos h5]
    have := lt_of_inAt_eq s _ _ h5 (by decide)
    omega
  simp only [if_neg h5]
  by_cases h6 : inAt s (i + 1) = '{' ∧ inAt s (i + 2 + span_name (s.drop (i + 2))) = ':' ∧
      inAt s (i + 2 + span_name (s.drop (i + 2)) + 1) = '-'
  · simp only [if_pos h6]
    have hj := lt_of_inAt_eq s _ _ h6.2.1 (by decide)
    by_cases h7 : inAt s (i + 2 + span_name (s.drop (i + 2)) + 2 +
        span_to_brace (s.drop (i + 2 + span_name (s.drop (i + 2)) + 2))) = '}'
    · rw [if_pos h7]
      have := lt_of_inAt_eq s _ _ h7 (by decide)
      omega
    · rw [if_neg h7]; omega
  simp only [if_neg h6]
  by_cases h7 : inAt s (i + 1) = '{' ∧ inAt s (i + 2 + span_name (s.drop (i + 2))) = '}'
  · simp only [if_pos h7]
    have := lt_of_inAt_eq s _ _ h7.2 (by decide)
    omega
  simp only [if_neg h7]
  by_cases h8 : isalpha (inAt s (i + 1)) = true ∨ inAt s (i + 1) = '_'
  · simp only [if_pos h8]
    exact scan_name_le s (i + 1) (by omega)
  · simp only [if_neg h8]; omega

/-- In every state in which the loop is entered the index is within the
string and the output leaves room for the terminator. -/
theorem loop_reach_bounds (os : OS) (ls : Int) (outsz : Nat) (s : CStr) (hsz : 1 ≤ outsz)
    (i : Nat) (sq dq : Bool) (out : List Char) (h : LoopReach os ls outsz s i sq dq out) :
    i ≤ s.length ∧ out.length + 1 ≤ outsz := by
  induction h with
  | start => exact ⟨Nat.zero_le _, by simpa using hsz⟩
  | next i sq dq out i1 sq1 dq1 out1 _ hstep ih =>
    have h1 := expand_step_index_le os ls outsz s i sq dq out
    have h2 := expand_step_spec os ls outsz s i sq dq out
    rw [hstep] at h1 h2
    obtain ⟨_, _, _, x, hx, _, hxl⟩ := h2
    exact ⟨h1, by rw [hx]; exact hxl⟩
  | dflt i sq dq out defbuf name i1 defexp _ hstep _ ih =>
    have h1 := expand_step_index_le os ls outsz s i sq dq out
    rw [hstep] at h1
    obtain ⟨x, hx, _, hxl⟩ := default_out_spec os outsz name defexp out ih.2
    exact ⟨h1, by rw [hx]; exact hxl⟩

/-- Bounds of the expander when the nested activations fit the call stack,
whose depth this function does not count (see `CallDepth`): for every
input, environment and capacity `outsz >= 1` the result is produced, holds no
NUL and at most `outsz - 1` characters (so the terminator is written inside
the buffer); and in every state in which the loop is entered the index and
every input position the iteration reads are at most the index of the
terminating NUL. -/
theorem expand_variables_safe (os : OS) (last_status : Int) (s : CStr) (outsz : Nat)
    (hsz : 1 ≤ outsz) :
    (∃ r, expand_variables os last_status s outsz = some r ∧ NUL ∉ r ∧
      r.length ≤ outsz - 1) ∧
    ∀ (i : Nat) (sq dq : Bool) (out : List Char),
      LoopReach os last_status outsz s i sq dq out →
      i ≤ s.length ∧ step_max_read outsz s i sq dq out ≤ s.length ∧
        out.length ≤ outsz - 1 := by
  refine ⟨?_, ?_⟩
  · obtain ⟨r, hr⟩ := expand_variables_returns os last_status s outsz
    obtain ⟨x, hx, hxn, hxl⟩ := expand_loop_output os last_status _ _ _ _ _ _ _ _ hr
      (by simpa using hsz)
    exact ⟨r, hr, by simpa [hx] using hxn, by omega⟩
  · intro i sq dq out h
    obtain ⟨h1, h2⟩ := loop_reach_bounds os last_status outsz s hsz i sq dq out h
    exact ⟨h1, step_max_read_le outsz s i sq dq out h1, by omega⟩

theorem expand_variables_safe_witness :
    (∃ r, expand_variables os_ok 0 ['a', '$', '{', 'V', ':', '-', 'x'] 4 = some r ∧ NUL ∉ r ∧
      r.length ≤ 4 - 1) ∧
    ∀ (i : Nat) (sq dq : Bool) (out : List Char),
      LoopReach os_ok 0 4 ['a', '$', '{', 'V', ':', '-', 'x'] i sq dq out →
      i ≤ ['a', '$', '{', 'V', ':', '-', 'x'].length ∧
        step_max_read 4 ['a', '$', '{', 'V', ':', '-', 'x'] i sq dq out ≤
          ['a', '$', '{', 'V', ':', '-', 'x'].length ∧
        out.length ≤ 4 - 1 :=
  expand_variables_safe os_ok 0 ['a', '$', '{', 'V', ':', '-', 'x'] 4 (by decide)

theorem copy_bounded_cut (n N : Nat) (v out : List Char) (hout : out.length ≤ n - 1)
    (hN : n ≤ N) :
    copy_bounded n v out = (copy_bounded N v out).take (n - 1) := by
  rw [copy_bounded_eq, copy_bounded_eq, List.take_append_eq_append_take,
    List.take_of_length_le hout, List.take_take]
  congr 2
  omega

theorem copy_opt_cut (n N : Nat) (v : Option CStr) (out : List Char) (hout : out.length ≤ n - 1)
    (hN : n ≤ N) :
    copy_opt n v out = (copy_opt N v out).take (n - 1) := by
  cases v with
  | none => simp only [copy_opt]; rw [List.take_of_length_le hout]
  | some w => exact copy_bounded_cut n N w out hout hN

theorem default_out_cut (os : OS) (n N : Nat) (name defexp : CStr) (out : List Char)
    (hout : out.length ≤ n - 1) (hN : n ≤ N) :
    default_out os n name defexp out = (default_out os N name defexp out).take (n - 1) := by
  unfold default_out
  split
  · split
    · exact copy_bounded_cut n N _ out hout hN
    · exact copy_bounded_cut n N _ out hout hN
  · exact copy_bounded_cut n N _ out hout hN

theorem push_cut (n : Nat) (c : Char) (out : List Char) (h : out.length + 1 < n) :
    out ++ [c] = (out ++ [c]).take (n - 1) := by
  rw [List.take_of_length_le]
  simp only [List.length_append, List.length_singleton]
  omega

/-- With room left in the smaller buffer, an iteration does the same with both
capacities, up to cutting the output. -/
theorem expand_step_cut (os : OS) (ls : Int) (n N : Nat) (s : CStr) (i : Nat)
    (sq dq : Bool) (out : List Char) (hn : out.length + 1 < n) (hN : n ≤ N) :
    expand_step os ls n s i sq dq out = (expand_step os ls N s i sq dq out).cut n := by
  have hout : out.length ≤ n - 1 := by omega
  unfold expand_step
  dsimp only []
  by_cases hnul : inAt s i = NUL
  · rw [if_pos (Or.inl hnul), if_pos (Or.inl hnul)]
    rfl
  have h0n : ¬ (inAt s i = NUL ∨ ¬ (out.length + 1 < n)) := by
    intro h; rcases h with h | h
    · exact hnul h
    · exact h hn
  have h0N : ¬ (inAt s i = NUL ∨ ¬ (out.length + 1 < N)) := by
    intro h; rcases h with h | h
    · exact hnul h
    · exact h (by omega)
  rw [if_neg h0n, if_neg h0N]
  by_cases h1 : inAt s i = SQUOTE ∧ dq = false
  · simp only [if_pos h1, ExpandStep.cut]
    rw [← push_cut n _ out hn]
  simp only [if_neg h1]
  by_cases h2 : inAt s i = DQUOTE ∧ sq = false
  · simp only [if_pos h2, ExpandStep.cut]
    rw [← push_cut n _ out hn]
  simp only [if_neg h2]
  by_cases h3 : inAt s i = '$' ∧ sq = false
  swap
  · simp only [if_neg h3, ExpandStep.cut]
    rw [← push_cut n _ out hn]
  simp only [if_pos h3]
  by_cases h4 : inAt s (i + 1) = '$'
  · simp only [if_pos h4, ExpandStep.cut]
    rw [← copy_bounded_cut n N _ out hout hN]
  simp only [if_neg h4]
  by_cases h5 : inAt s (i + 1) = '?'
  · simp only [if_pos h5, ExpandStep.cut]
    rw [← copy_bounded_cut n N _ out hout hN]
  simp only [if_neg h5]
  by_cases h6 : inAt s (i + 1) = '{' ∧ inAt s (i + 2 + span_name (s.drop (i + 2))) = ':' ∧
      inAt s (i + 2 + span_name (s.drop (i + 2)) + 1) = '-'
  · simp only [if_pos h6, ExpandStep.cut]
  simp only [if_neg h6]
  by_cases h7 : inAt s (i + 1) = '{' ∧ inAt s (i + 2 + span_name (s.drop (i + 2))) = '}'
  · simp only [if_pos h7, ExpandStep.cut]
    rw [← copy_opt_cut n N _ out hout hN]
  simp only [if_neg h7]
  by_cases h8 : isalpha (inAt s (i + 1)) = true ∨ inAt s (i + 1) = '_'
  · simp only [if_pos h8, ExpandStep.cut]
    rw [← copy_opt_cut n N _ out hout hN]
  · simp only [if_neg h8, ExpandStep.cut]
    rw [← push_cut n _ out hn]

/-- The run with the smaller capacity yields the cut of the run with the
larger one. -/
theorem expand_loop_cut (os : OS) (ls : Int) (n N : Nat) (hn : 1 ≤ n) (hN : n ≤ N) :
    ∀ (fuel : Nat) (s : CStr) (i : Nat) (sq dq : Bool) (outN r : List Char),
      outN.length + 1 ≤ N →
      expand_loop os ls fuel N s i sq dq outN = some r →
      expand_loop os ls fuel n s i sq dq (outN.take (n - 1)) = some (r.take (n - 1)) := by
  intro fuel
  induction fuel with
  | zero => intro s i sq dq outN r _ h; rw [expand_loop] at h; cases h
  | succ fuel ih =>
    intro s i sq dq outN r hroom h
    by_cases hfull : (outN.take (n - 1)).length + 1 < n
    · have hlenN : outN.length < n - 1 := by
        simp only [List.length_take] at hfull
        omega
      have hsame : outN.take (n - 1) = outN := List.take_of_length_le (by omega)
      rw [hsame]
      have hcut := expand_step_cut os ls n N s i sq dq outN (by omega) hN
      have hspec := expand_step_spec os ls N s i sq dq outN
      rw [expand_loop_succ] at h ⊢
      rw [hcut]
      cases hstep : expand_step os ls N s i sq dq outN with
      | done =>
        rw [hstep] at h
        simp only [ExpandStep.cut] at h ⊢
        injection h with h
        rw [← h, hsame]
      | next i1 sq1 dq1 out1 =>
        rw [hstep] at h hspec
        simp only [ExpandStep.cut] at h ⊢
        obtain ⟨_, _, _, x, hx, _, hxl⟩ := hspec
        exact ih s i1 sq1 dq1 out1 r (by rw [hx]; exact hxl) h
      | dflt defbuf name i1 =>
        rw [hstep] at h
        simp only [ExpandStep.cut] at h ⊢
        cases hd : expand_loop os ls fuel MAX_LINE defbuf 0 false false [] with
        | none => rw [hd] at h; cases h
        | some d =>
          rw [hd] at h
          simp only [] at h ⊢
          obtain ⟨x, hx, _, hxl⟩ := default_out_spec os N name d outN hroom
          rw [default_out_cut os n N name d outN (by omega) hN]
          exact ih s i1 sq dq _ r (by rw [hx]; exact hxl) h
    · rw [expand_loop_stop os ls fuel n s i sq dq _ (Or.inr hfull)]
      obtain ⟨x, hx, _, _⟩ := expand_loop_output os ls _ _ _ _ _ _ _ _ h hroom
      have hlen : n - 1 ≤ outN.length := by
        simp only [List.length_take] at hfull
        omega
      rw [hx, List.take_append_of_le_length hlen]

/-- C19: for every input, environment, `last_status` and capacity `n` with
`1 <= n <= MAX_LINE`, the output of `expand_variables` with capacity `n` is the
first `n - 1` characters of its output with capacity `MAX_LINE` (all of it when
it is shorter). -/
theorem expand_variables_truncation (os : OS) (last_status : Int) (s : CStr) (n : Nat)
    (hn : 1 ≤ n) (hN : n ≤ MAX_LINE) :
    ∃ r, expand_variables os last_status s MAX_LINE = some r ∧
      expand_variables os last_status s n = some (r.take (n - 1)) := by
  obtain ⟨r, hr⟩ := expand_variables_returns os last_status s MAX_LINE
  refine ⟨r, hr, ?_⟩
  have := expand_loop_cut os last_status n MAX_LINE hn hN (s.length + 1) s 0 false false [] r
    (by simp [MAX_LINE]) hr
  simpa using this

theorem expand_variables_truncation_witness :
    expand_variables os_ok 0 ['a', '$', 'V', '$', '?'] MAX_LINE =
      some ['a', 'h', 'e', 'l', 'l', 'o', '0'] ∧
    expand_variables os_ok 0 ['a', '$', 'V', '$', '?'] 4 = some ['a', 'h', 'e'] := by
  obtain ⟨r, hr, hcut⟩ :=
    expand_variables_truncation os_ok 0 ['a', '$', 'V', '$', '?'] 4 (by decide) (by decide)
  have e : expand_variables os_ok 0 ['a', '$', 'V', '$', '?'] MAX_LINE =
      some ['a', 'h', 'e', 'l', 'l', 'o', '0'] := by decide
  rw [e] at hr
  injection hr with hr
  subst hr
  exact ⟨e, hcut⟩

/-! ### The expander: references inside a line -/

theorem inAt_of_drop (s t : CStr) (i k : Nat) (c : Char) (ht : s.drop i = t)
    (h : inAt t k = c) : inAt s (i + k) = c := by
  subst ht
  unfold inAt at h ⊢
  rw [List.getD_eq_getElem?_getD] at h ⊢
  rw [List.getElem?_drop] at h
  exact h

theorem drop_of_drop (s t u : CStr) (i k : Nat) (ht : s.drop i = t) (h : t.drop k = u) :
    s.drop (i + k) = u := by
  subst ht
  rw [← h, List.drop_drop, Nat.add_comm]

/-- The iteration at a `${NAME:-D}` form anywhere in the input, outside single
quotes, with room in the output. -/
theorem expand_step_default_at (os : OS) (ls : Int) (outsz : Nat) (s : CStr) (i : Nat)
    (dq : Bool) (out : List Char) (name d rest : CStr)
    (hs : s.drop i = default_form name d ++ rest)
    (hname : ∀ c ∈ name, isalnum c = true ∨ c = '_') (hnlen : name.length ≤ 255)
    (hd0 : NUL ∉ d) (hd1 : '}' ∉ d) (hdlen : d.length ≤ MAX_LINE - 1)
    (hroom : out.length + 1 < outsz) :
    expand_step os ls outsz s i false dq out =
      ExpandStep.dflt d name (i + (name.length + d.length + 5)) := by
  have f0 : inAt s i = '$' := inAt_of_drop s _ i 0 '$' hs rfl
  have f1 : inAt s (i + 1) = '{' := inAt_of_drop s _ i 1 '{' hs rfl
  have f2 : s.drop (i + 2) = name ++ ':' :: '-' :: (d ++ '}' :: rest) :=
    drop_of_drop s _ _ i 2 hs (by simp [default_form])
  have f3 : span_name (name ++ ':' :: '-' :: (d ++ '}' :: rest)) = name.length :=
    span_name_append name _ hname (by rw [span_name, if_neg]; decide)
  have f4 : inAt s (i + 2 + name.length) = ':' := by
    rw [Nat.add_assoc]
    exact inAt_of_drop s _ i _ ':' hs
      (inAt_split ('$' :: '{' :: name) ('-' :: (d ++ '}' :: rest)) ':' _ _
        (by simp [default_form]) (by simp; omega))
  have f5 : inAt s (i + 2 + name.length + 1) = '-' := by
    rw [Nat.add_assoc, Nat.add_assoc]
    exact inAt_of_drop s _ i _ '-' hs
      (inAt_split ('$' :: '{' :: (name ++ [':'])) (d ++ '}' :: rest) '-' _ _
        (by simp [default_form]) (by simp; omega))
  have f6 : s.drop (i + 2 + name.length + 2) = d ++ '}' :: rest := by
    rw [Nat.add_assoc, Nat.add_assoc]
    exact drop_of_drop s _ _ i _ hs
      (drop_split ('$' :: '{' :: (name ++ [':', '-'])) (d ++ '}' :: rest) _ _
        (by simp [default_form]) (by simp; omega))
  have f7 : span_to_brace (d ++ '}' :: rest) = d.length := span_to_brace_append d rest hd0 hd1
  have f8 : inAt s (i + 2 + name.length + 2 + d.length) = '}' := by
    rw [Nat.add_assoc, Nat.add_assoc, Nat.add_assoc]
    exact inAt_of_drop s _ i _ '}' hs
      (inAt_split ('$' :: '{' :: (name ++ ':' :: '-' :: d)) rest '}' _ _
        (by simp [default_form]) (by simp; omega))
  have c0 : ¬ ('$' = NUL ∨ ¬ (out.length + 1 < outsz)) := by
    intro h
    rcases h with h | h
    · exact absurd h (by decide)
    · exact h hroom
  have c1 : ¬ ('$' = SQUOTE ∧ dq = false) := fun h => absurd h.1 (by decide)
  have c2 : ¬ ('$' = DQUOTE ∧ false = false) := fun h => absurd h.1 (by decide)
  have c3 : ('$' : Char) = '$' ∧ false = false := ⟨rfl, rfl⟩
  have c4 : ¬ ('{' : Char) = '$' := by decide
  have c5 : ¬ ('{' : Char) = '?' := by decide
  have c6 : ('{' : Char) = '{' ∧ (':' : Char) = ':' ∧ ('-' : Char) = '-' := ⟨rfl, rfl, rfl⟩
  have c7 : ('}' : Char) = '}' := rfl
  unfold expand_step
  dsimp only []
  rw [f0, f1, f2, f3, f4, f5, f6, f7, f8]
  rw [if_neg c0, if_neg c1, if_neg c2, if_pos c3, if_neg c4, if_neg c5, if_pos c6, if_pos c7]
  have g1 : min (i + 2 + name.length + 2 + d.length - (i + 2 + name.length + 2)) (MAX_LINE - 1)
      = d.length := by omega
  have g2 : min (i + 2 + name.length - (i + 2)) 255 = name.length := by omega
  rw [g1, g2]
  simp only [List.take_left]
  congr 1
  omega

/-- The iteration at `$NAME` anywhere in the input, outside single quotes, with
room in the output, when the text after the name does not go on the name. -/
theorem expand_step_dollar_at (os : OS) (ls : Int) (outsz : Nat) (s : CStr) (i : Nat)
    (dq : Bool) (out : List Char) (name rest : CStr)
    (hs : s.drop i = '$' :: (name ++ rest))
    (hhead : isalpha (inAt name 0) = true ∨ inAt name 0 = '_')
    (hname : ∀ c ∈ name, isalnum c = true ∨ c = '_') (hrest : span_name rest = 0)
    (hroom : out.length + 1 < outsz) :
    expand_step os ls outsz s i false dq out =
      ExpandStep.next (i + (name.length + 1)) false dq
        (copy_opt outsz (os.getenv (name.take 255)) out) := by
  have hne : name ≠ [] := by
    intro e
    rw [e] at hhead
    rcases hhead with h | h
    · exact absurd h (by decide)
    · exact absurd h (by decide)
  obtain ⟨c, r, rfl⟩ : ∃ c r, name = c :: r := by
    cases name with
    | nil => exact absurd rfl hne
    | cons c r => exact ⟨c, r, rfl⟩
  have hc : isalpha c = true ∨ c = '_' := hhead
  have f0 : inAt s i = '$' := inAt_of_drop s _ i 0 '$' hs rfl
  have f1 : inAt s (i + 1) = c := inAt_of_drop s _ i 1 c hs rfl
  have fd : s.drop (i + 1) = c :: r ++ rest := drop_of_drop s _ _ i 1 hs rfl
  have fs : span_name (c :: r ++ rest) = (c :: r).length :=
    span_name_append (c :: r) rest hname hrest
  have c0 : ¬ ('$' = NUL ∨ ¬ (out.length + 1 < outsz)) := by
    intro h
    rcases h with h | h
    · exact absurd h (by decide)
    · exact h hroom
  have c1 : ¬ ('$' = SQUOTE ∧ dq = false) := fun h => absurd h.1 (by decide)
  have c2 : ¬ ('$' = DQUOTE ∧ false = false) := fun h => absurd h.1 (by decide)
  have c3 : ('$' : Char) = '$' ∧ false = false := ⟨rfl, rfl⟩
  have c4 : ¬ c = '$' := name_start_ne c '$' hc (by decide) (by decide)
  have c5 : ¬ c = '?' := name_start_ne c '?' hc (by decide) (by decide)
  have c6 : ¬ c = '{' := name_start_ne c '{' hc (by decide) (by decide)
  unfold expand_step
  dsimp only []
  rw [f0, f1, fd, fs]
  rw [if_neg c0, if_neg c1, if_neg c2, if_pos c3, if_neg c4, if_neg c5,
    if_neg (fun h => c6 h.1), if_neg (fun h => c6 h.1), if_pos hc]
  have g : min (i + 1 + (c :: r).length - (i + 1)) 255 = min (c :: r).length 255 := by
    omega
  have g2 : List.take (min (c :: r).length 255) (c :: r ++ rest) = List.take 255 (c :: r) := by
    rw [List.take_append_of_le_length (Nat.min_le_left _ _), List.take_eq_take]
    omega
  rw [g, g2]
  congr 1
  omega

/-- The iteration at `${NAME}` anywhere in the input, outside single quotes,
with room in the output. -/
theorem expand_step_brace_at (os : OS) (ls : Int) (outsz : Nat) (s : CStr) (i : Nat)
    (dq : Bool) (out : List Char) (name rest : CStr)
    (hs : s.drop i = '$' :: '{' :: (name ++ '}' :: rest))
    (hname : ∀ c ∈ name, isalnum c = true ∨ c = '_') (hroom : out.length + 1 < outsz) :
    expand_step os ls outsz s i false dq out =
      ExpandStep.next (i + (name.length + 3)) false dq
        (copy_opt outsz (os.getenv (name.take 255)) out) := by
  have f0 : inAt s i = '$' := inAt_of_drop s _ i 0 '$' hs rfl
  have f1 : inAt s (i + 1) = '{' := inAt_of_drop s _ i 1 '{' hs rfl
  have fd : s.drop (i + 2) = name ++ '}' :: rest := drop_of_drop s _ _ i 2 hs rfl
  have fs : span_name (name ++ '}' :: rest) = name.length :=
    span_name_append name _ hname (by rw [span_name, if_neg]; decide)
  have f4 : inAt s (i + 2 + name.length) = '}' := by
    rw [Nat.add_assoc]
    exact inAt_of_drop s _ i _ '}' hs
      (inAt_split ('$' :: '{' :: name) rest '}' _ _ (by simp) (by simp; omega))
  have c0 : ¬ ('$' = NUL ∨ ¬ (out.length + 1 < outsz)) := by
    intro h
    rcases h with h | h
    · exact absurd h (by decide)
    · exact h hroom
  have c1 : ¬ ('$' = SQUOTE ∧ dq = false) := fun h => absurd h.1 (by decide)
  have c2 : ¬ ('$' = DQUOTE ∧ false = false) := fun h => absurd h.1 (by decide)
  have c3 : ('$' : Char) = '$' ∧ false = false := ⟨rfl, rfl⟩
  have c4 : ¬ ('{' : Char) = '$' := by decide
  have c5 : ¬ ('{' : Char) = '?' := by decide
  have c6 : ¬ (('{' : Char) = '{' ∧ ('}' : Char) = ':' ∧
      inAt s (i + 2 + name.length + 1) = '-') :=
    fun h => absurd h.2.1 (by decide)
  have c7 : ('{' : Char) = '{' ∧ ('}' : Char) = '}' := ⟨rfl, rfl⟩
  unfold expand_step
  dsimp only []
  rw [f0, f1, fd, fs, f4]
  rw [if_neg c0, if_neg c1, if_neg c2, if_pos c3, if_neg c4, if_neg c5, if_neg c6, if_pos c7]
  have g : min (i + 2 + name.length - (i + 2)) 255 = min name.length 255 := by omega
  have g2 : List.take (min name.length 255) (name ++ '}' :: rest) = List.take 255 name := by
    rw [List.take_append_of_le_length (Nat.min_le_left _ _), List.take_eq_take]
    omega
  rw [g, g2]
  congr 1
  omega

/-- Text without `$`, NUL and single quote is copied with `in_single` staying
off; double quotes in it toggle `in_double`. -/
theorem expand_loop_copy_prefix (os : OS) (ls : Int) (outsz : Nat) :
    ∀ (pre : List Char) (s : CStr) (fuel i : Nat) (dq : Bool) (out tail : List Char),
      s.drop i = pre ++ tail → NUL ∉ pre → '$' ∉ pre → SQUOTE ∉ pre →
      out.length + pre.length + 1 ≤ outsz →
      ∃ dq1, expand_loop os ls (fuel + pre.length) outsz s i false dq out =
        expand_loop os ls fuel outsz s (i + pre.length) false dq1 (out ++ pre) := by
  intro pre
  induction pre with
  | nil =>
    intro s fuel i dq out tail _ _ _ _ _
    exact ⟨dq, by simp⟩
  | cons c p ih =>
    intro s fuel i dq out tail hs h0 h1 h2 hroom
    obtain ⟨_, hc, hnext⟩ := drop_eq_cons_inAt s i c (p ++ tail) (by simpa using hs)
    have hc0 : inAt s i ≠ NUL := by rw [hc]; intro e; exact h0 (by simp [e])
    have hc1 : inAt s i ≠ '$' := by rw [hc]; intro e; exact h1 (by simp [e])
    have hc2 : inAt s i ≠ SQUOTE := by rw [hc]; intro e; exact h2 (by simp [e])
    simp only [List.length_cons] at hroom
    have hr : out.length + 1 < outsz := by omega
    have hfuel : fuel + (c :: p).length = (fuel + p.length) + 1 := by
      simp only [List.length_cons]; omega
    have hidx : i + (c :: p).length = i + 1 + p.length := by
      simp only [List.length_cons]; omega
    have hout : out ++ c :: p = out ++ [c] ++ p := by simp
    rw [hfuel, hidx, hout]
    by_cases hq : inAt s i = DQUOTE
    · obtain ⟨dq1, h⟩ := ih s fuel (i + 1) (!dq) (out ++ [c]) tail hnext
        (fun h => h0 (List.mem_cons_of_mem c h)) (fun h => h1 (List.mem_cons_of_mem c h))
        (fun h => h2 (List.mem_cons_of_mem c h))
        (by simp only [List.length_append, List.length_singleton]; omega)
      refine ⟨dq1, ?_⟩
      rw [expand_loop_dquote os ls _ outsz s i false dq out hq rfl hr, ← hq, hc]
      exact h
    · obtain ⟨dq1, h⟩ := ih s fuel (i + 1) dq (out ++ [c]) tail hnext
        (fun h => h0 (List.mem_cons_of_mem c h)) (fun h => h1 (List.mem_cons_of_mem c h))
        (fun h => h2 (List.mem_cons_of_mem c h))
        (by simp only [List.length_append, List.length_singleton]; omega)
      refine ⟨dq1, ?_⟩
      rw [expand_loop_plain os ls _ outsz s i false dq out hc0 hr (fun h => hc2 h.1)
        (fun h => hq h.1) (fun h => hc1 h.1), hc]
      exact h

/-- A reference `ref` that one iteration replaces by `mid`, placed between text
`pre` (no `$`, no single quote) and text `post` (no `$`): the expansion is
`pre ++ mid ++ post` when that fits. -/
theorem expand_in_context (os : OS) (ls : Int) (outsz : Nat) (pre ref post mid : List Char)
    (hp0 : NUL ∉ pre) (hp1 : '$' ∉ pre) (hp2 : SQUOTE ∉ pre)
    (hq0 : NUL ∉ post) (hq1 : '$' ∉ post)
    (hfit : pre.length + mid.length + post.length < outsz) (href : 0 < ref.length)
    (hstep : ∀ dq : Bool, pre.length + 1 < outsz →
      expand_loop os ls (ref.length + post.length + 1) outsz (pre ++ ref ++ post) pre.length
          false dq pre =
        expand_loop os ls (ref.length + post.length) outsz (pre ++ ref ++ post)
          (pre.length + ref.length) false dq (pre ++ mid)) :
    expand_variables os ls (pre ++ ref ++ post) outsz = some (pre ++ mid ++ post) := by
  unfold expand_variables
  have hlen : (pre ++ ref ++ post).length + 1 = (ref.length + post.length + 1) + pre.length := by
    simp only [List.length_append]; omega
  obtain ⟨dq1, hpre⟩ := expand_loop_copy_prefix os ls outsz pre (pre ++ ref ++ post)
    (ref.length + post.length + 1) 0 false [] (ref ++ post) (by simp) hp0 hp1 hp2
    (by simp only [List.length_nil]; omega)
  rw [hlen, hpre]
  simp only [Nat.zero_add, List.nil_append]
  by_cases hroom : pre.length + 1 < outsz
  · rw [hstep dq1 hroom]
    have hs : pre ++ ref ++ post = (pre ++ ref) ++ post := rfl
    have hi : pre.length + ref.length = (pre ++ ref).length := by simp
    rw [hs, hi]
    have hfuel : post.length < ref.length + post.length := by omega
    have hout : (pre ++ mid).length + post.length + 1 ≤ outsz := by
      simp only [List.length_append]; omega
    exact expand_loop_copy_rest os ls outsz (ref.length + post.length) (pre ++ ref) post false
      dq1 (pre ++ mid) hq0 hq1 hfuel hout
  · have h1 : mid = [] := List.eq_nil_of_length_eq_zero (by omega)
    have h2 : post = [] := List.eq_nil_of_length_eq_zero (by omega)
    rw [h1, h2]
    simp only [List.append_nil]
    exact expand_loop_stop os ls _ outsz _ _ false dq1 pre (Or.inr hroom)

/-- The iteration of the loop at `$NAME`, in any state outside single quotes. -/
theorem expand_loop_dollar_at (os : OS) (ls : Int) (outsz fuel : Nat) (s : CStr) (i : Nat)
    (dq : Bool) (out : List Char) (name rest : CStr)
    (hs : s.drop i = '$' :: (name ++ rest))
    (hhead : isalpha (inAt name 0) = true ∨ inAt name 0 = '_')
    (hname : ∀ c ∈ name, isalnum c = true ∨ c = '_') (hlen : name.length ≤ 255)
    (hrest : span_name rest = 0) (hroom : out.length + 1 < outsz)
    (hv : NUL ∉ (os.getenv name).getD [])
    (hfit : out.length + ((os.getenv name).getD []).length + 1 ≤ outsz) :
    expand_loop os ls (fuel + 1) outsz s i false dq out =
      expand_loop os ls fuel outsz s (i + (name.length + 1)) false dq
        (out ++ (os.getenv name).getD []) := by
  rw [expand_loop_succ, expand_step_dollar_at os ls outsz s i dq out name rest hs hhead hname
    hrest hroom]
  simp only []
  rw [List.take_of_length_le hlen, copy_opt_fits outsz _ out hv hfit]

/-- The iteration of the loop at `${NAME}`, in any state outside single
quotes. -/
theorem expand_loop_brace_at (os : OS) (ls : Int) (outsz fuel : Nat) (s : CStr) (i : Nat)
    (dq : Bool) (out : List Char) (name rest : CStr)
    (hs : s.drop i = '$' :: '{' :: (name ++ '}' :: rest))
    (hname : ∀ c ∈ name, isalnum c = true ∨ c = '_') (hlen : name.length ≤ 255)
    (hroom : out.length + 1 < outsz)
    (hv : NUL ∉ (os.getenv name).getD [])
    (hfit : out.length + ((os.getenv name).getD []).length + 1 ≤ outsz) :
    expand_loop os ls (fuel + 1) outsz s i false dq out =
      expand_loop os ls fuel outsz s (i + (name.length + 3)) false dq
        (out ++ (os.getenv name).getD []) := by
  rw [expand_loop_succ, expand_step_brace_at os ls outsz s i dq out name rest hs hname hroom]
  simp only []
  rw [List.take_of_length_le hlen, copy_opt_fits outsz _ out hv hfit]

/-- The iteration of the loop at `${NAME:-D}`, in any state outside single
quotes: the default text is expanded first, then the value or the expanded
default is copied. -/
theorem expand_loop_default_at (os : OS) (ls : Int) (outsz fuel : Nat) (s : CStr) (i : Nat)
    (dq : Bool) (out : List Char) (name d rest defexp : CStr)
    (hs : s.drop i = default_form name d ++ rest)
    (hname : ∀ c ∈ name, isalnum c = true ∨ c = '_') (hnlen : name.length ≤ 255)
    (hd0 : NUL ∉ d) (hd1 : '}' ∉ d) (hdlen : d.length ≤ MAX_LINE - 1)
    (hdef : expand_variables os ls d MAX_LINE = some defexp)
    (hfuel : d.length < fuel) (hroom : out.length + 1 < outsz) :
    expand_loop os ls (fuel + 1) outsz s i false dq out =
      expand_loop os ls fuel outsz s (i + (default_form name d).length) false dq
        (default_out os outsz name defexp out) := by
  have hmono := expand_loop_fuel_mono os ls (d.length + 1) (fuel - (d.length + 1)) MAX_LINE d 0
    false false [] defexp hdef
  have e1 : d.length + 1 + (fuel - (d.length + 1)) = fuel := by omega
  rw [e1] at hmono
  rw [expand_loop_succ, expand_step_default_at os ls outsz s i dq out name d rest hs hname hnlen
    hd0 hd1 hdlen hroom]
  simp only []
  rw [hmono, default_form_length]

theorem default_out_set (os : OS) (outsz : Nat) (name defexp val : CStr) (out : List Char)
    (hval : os.getenv name = some val) (hne : val ≠ []) (hvn : NUL ∉ val)
    (hfit : out.length + val.length + 1 ≤ outsz) :
    default_out os outsz name defexp out = out ++ val := by
  have h0 : inAt val 0 ≠ NUL := by
    cases val with
    | nil => exact absurd rfl hne
    | cons c v => intro e; exact hvn (by rw [← e]; simp [inAt])
  simp only [default_out, hval, if_pos h0]
  rw [copy_bounded_eq, cstr_eq_self val hvn, List.take_of_length_le (by omega)]

theorem default_out_unset (os : OS) (outsz : Nat) (name defexp : CStr) (out : List Char)
    (hunset : os.getenv name = none ∨ os.getenv name = some []) (hdn : NUL ∉ defexp)
    (hfit : out.length + defexp.length + 1 ≤ outsz) :
    default_out os outsz name defexp out = out ++ defexp := by
  have hcopy : copy_bounded outsz defexp out = out ++ defexp := by
    rw [copy_bounded_eq, cstr_eq_self defexp hdn, List.take_of_length_le (by omega)]
  rcases hunset with h | h
  · simp only [default_out, h, hcopy]
  · have h0 : ¬ inAt ([] : CStr) 0 ≠ NUL := by simp [inAt]
    simp only [default_out, h, if_neg h0, hcopy]

/-- C11 (amended): for a name of at most 255 characters (a letter or
underscore followed by letters, digits or underscores), a reference `$NAME` or
`${NAME}` outside single quotes (after any text `pre` without `$` and single
quote, which may open a double quote, and before any text `post` without `$`)
is replaced by the value of `NAME` when it is set and by the empty string when
it is unset, whenever the result fits in the buffer; for `$NAME` the text that
follows must not go on the name, the name consumed being the whole run. The
last two parts say the same of one iteration of the loop entered in any state
with `in_single` off, whatever `in_double`, the index and the output so far. -/
theorem expand_name_reference (os : OS) (last_status : Int) (outsz : Nat)
    (name pre post : CStr)
    (hhead : isalpha (inAt name 0) = true ∨ inAt name 0 = '_')
    (hname : ∀ c ∈ name, isalnum c = true ∨ c = '_') (hlen : name.length ≤ 255)
    (hp0 : NUL ∉ pre) (hp1 : '$' ∉ pre) (hp2 : SQUOTE ∉ pre)
    (hq0 : NUL ∉ post) (hq1 : '$' ∉ post)
    (hv : NUL ∉ (os.getenv name).getD [])
    (hfit : pre.length + ((os.getenv name).getD []).length + post.length < outsz) :
    (span_name post = 0 →
      expand_variables os last_status (pre ++ '$' :: name ++ post) outsz =
        some (pre ++ (os.getenv name).getD [] ++ post)) ∧
    expand_variables os last_status (pre ++ '$' :: '{' :: (name ++ ['}']) ++ post) outsz =
      some (pre ++ (os.getenv name).getD [] ++ post) ∧
    (∀ (s : CStr) (i fuel : Nat) (dq : Bool) (out rest : List Char),
      s.drop i = '$' :: (name ++ rest) → span_name rest = 0 → out.length + 1 < outsz →
      out.length + ((os.getenv name).getD []).length + 1 ≤ outsz →
      expand_loop os last_status (fuel + 1) outsz s i false dq out =
        expand_loop os last_status fuel outsz s (i + (name.length + 1)) false dq
          (out ++ (os.getenv name).getD [])) ∧
    (∀ (s : CStr) (i fuel : Nat) (dq : Bool) (out rest : List Char),
      s.drop i = '$' :: '{' :: (name ++ '}' :: rest) → out.length + 1 < outsz →
      out.length + ((os.getenv name).getD []).length + 1 ≤ outsz →
      expand_loop os last_status (fuel + 1) outsz s i false dq out =
        expand_loop os last_status fuel outsz s (i + (name.length + 3)) false dq
          (out ++ (os.getenv name).getD [])) := by
  refine ⟨?_, ?_, ?_, ?_⟩
  · intro hrest
    refine expand_in_context os last_status outsz pre ('$' :: name) post _ hp0 hp1 hp2 hq0 hq1
      hfit (by simp) ?_
    intro dq hroom
    have hs : (pre ++ '$' :: name ++ post).drop pre.length = '$' :: (name ++ post) := by
      rw [List.append_assoc, List.drop_left]; rfl
    have := expand_loop_dollar_at os last_status outsz (name.length + post.length + 1)
      (pre ++ '$' :: name ++ post) pre.length dq pre name post hs hhead hname hlen hrest hroom
      hv (by omega)
    simp only [List.length_cons] at this ⊢
    rw [show name.length + 1 + post.length + 1 = name.length + post.length + 1 + 1 by omega,
      show name.length + 1 + post.length = name.length + post.length + 1 by omega]
    exact this
  · refine expand_in_context os last_status outsz pre ('$' :: '{' :: (name ++ ['}'])) post _
      hp0 hp1 hp2 hq0 hq1 hfit (by simp) ?_
    intro dq hroom
    have hs : (pre ++ '$' :: '{' :: (name ++ ['}']) ++ post).drop pre.length =
        '$' :: '{' :: (name ++ '}' :: post) := by
      rw [List.append_assoc, List.drop_left]; simp
    have := expand_loop_brace_at os last_status outsz (name.length + post.length + 3)
      (pre ++ '$' :: '{' :: (name ++ ['}']) ++ post) pre.length dq pre name post hs hname hlen
      hroom hv (by omega)
    simp only [List.length_cons, List.length_append, List.length_nil] at this ⊢
    rw [show name.length + (0 + 1) + 1 + 1 + post.length + 1 =
        name.length + post.length + 3 + 1 by omega,
      show name.length + (0 + 1) + 1 + 1 + post.length = name.length + post.length + 3 by omega,
      show pre.length + (name.length + (0 + 1) + 1 + 1) = pre.length + (name.length + 3) by
        omega]
    exact this
  · intro s i fuel dq out rest hs hrest hroom hfit1
    exact expand_loop_dollar_at os last_status outsz fuel s i dq out name rest hs hhead hname
      hlen hrest hroom hv hfit1
  · intro s i fuel dq out rest hs hroom hfit1
    exact expand_loop_brace_at os last_status outsz fuel s i dq out name rest hs hname hlen
      hroom hv hfit1

theorem expand_name_reference_witness :
    expand_variables os_ok 0
        (['e', 'c', 'h', 'o', ' ', DQUOTE] ++ '$' :: ['V'] ++ [DQUOTE, ' ', 'x']) MAX_LINE =
      some (['e', 'c', 'h', 'o', ' ', DQUOTE] ++ ['h', 'e', 'l', 'l', 'o'] ++
        [DQUOTE, ' ', 'x']) ∧
    expand_variables os_ok 0
        (['e', 'c', 'h', 'o', ' ', DQUOTE] ++ '$' :: '{' :: (['V'] ++ ['}']) ++
          [DQUOTE, ' ', 'x']) MAX_LINE =
      some (['e', 'c', 'h', 'o', ' ', DQUOTE] ++ ['h', 'e', 'l', 'l', 'o'] ++
        [DQUOTE, ' ', 'x']) := by
  obtain ⟨h1, h2, _, _⟩ := expand_name_reference os_ok 0 MAX_LINE ['V']
    ['e', 'c', 'h', 'o', ' ', DQUOTE] [DQUOTE, ' ', 'x'] (by decide) (by decide) (by decide)
    (by decide) (by decide) (by decide) (by decide) (by decide) (by decide) (by decide)
  exact ⟨h1 (by decide), h2⟩

/-- C2 (amended): for a name of at most 255 name characters and a default text
`D` of at most `MAX_LINE - 1` characters without `}`, whose expansion with
capacity `MAX_LINE` is `defexp`, a form `${NAME:-D}` outside single quotes
(after any text `pre` without `$` and single quote, which may open a double
quote, and before any text `post` without `$`) is replaced by the value of
`NAME` when it is set and non-empty and otherwise by `defexp`, whenever the
result fits in the buffer. The last part says the same of one iteration of the
loop entered in any state with `in_single` off, whatever `in_double`, the
index and the output so far. -/
theorem expand_default_no_brace (os : OS) (last_status : Int) (outsz : Nat)
    (name d defexp pre post : CStr)
    (hname : ∀ c ∈ name, isalnum c = true ∨ c = '_') (hnlen : name.length ≤ 255)
    (hd0 : NUL ∉ d) (hd1 : '}' ∉ d) (hdlen : d.length ≤ MAX_LINE - 1)
    (hdef : expand_variables os last_status d MAX_LINE = some defexp)
    (hp0 : NUL ∉ pre) (hp1 : '$' ∉ pre) (hp2 : SQUOTE ∉ pre)
    (hq0 : NUL ∉ post) (hq1 : '$' ∉ post) :
    (∀ val, os.getenv name = some val → val ≠ [] → NUL ∉ val →
      pre.length + val.length + post.length < outsz →
      expand_variables os last_status (pre ++ default_form name d ++ post) outsz =
        some (pre ++ val ++ post)) ∧
    ((os.getenv name = none ∨ os.getenv name = some []) →
      pre.length + defexp.length + post.length < outsz →
      expand_variables os last_status (pre ++ default_form name d ++ post) outsz =
        some (pre ++ defexp ++ post)) ∧
    (∀ (s : CStr) (i fuel : Nat) (dq : Bool) (out rest : List Char),
      s.drop i = default_form name d ++ rest → d.length < fuel → out.length + 1 < outsz →
      expand_loop os last_status (fuel + 1) outsz s i false dq out =
        expand_loop os last_status fuel outsz s (i + (default_form name d).length) false dq
          (default_out os outsz name defexp out)) := by
  obtain ⟨x, hx, hxn, _⟩ := expand_loop_output os last_status _ _ _ _ _ _ _ _ hdef
    (by simp [MAX_LINE])
  have hdn : NUL ∉ defexp := by simpa [hx] using hxn
  have hloop : ∀ (s : CStr) (i fuel : Nat) (dq : Bool) (out rest : List Char),
      s.drop i = default_form name d ++ rest → d.length < fuel → out.length + 1 < outsz →
      expand_loop os last_status (fuel + 1) outsz s i false dq out =
        expand_loop os last_status fuel outsz s (i + (default_form name d).length) false dq
          (default_out os outsz name defexp out) :=
    fun s i fuel dq out rest hs hfuel hroom =>
      expand_loop_default_at os last_status outsz fuel s i dq out name d rest defexp hs hname
        hnlen hd0 hd1 hdlen hdef hfuel hroom
  have hctx : ∀ mid : List Char, pre.length + mid.length + post.length < outsz →
      default_out os outsz name defexp pre = pre ++ mid →
      expand_variables os last_status (pre ++ default_form name d ++ post) outsz =
        some (pre ++ mid ++ post) := by
    intro mid hfit hout
    refine expand_in_context os last_status outsz pre (default_form name d) post mid hp0 hp1
      hp2 hq0 hq1 hfit (by rw [default_form_length]; omega) ?_
    intro dq hroom
    have hs : (pre ++ default_form name d ++ post).drop pre.length =
        default_form name d ++ post := by
      rw [List.append_assoc, List.drop_left]
    rw [hloop _ pre.length _ dq pre post hs (by rw [default_form_length]; omega) hroom, hout]
  refine ⟨?_, ?_, hloop⟩
  · intro val hval hne hvn hfit
    exact hctx val hfit (default_out_set os outsz name defexp val pre hval hne hvn (by omega))
  · intro hunset hfit
    exact hctx defexp hfit (default_out_unset os outsz name defexp pre hunset hdn (by omega))

theorem expand_default_no_brace_witness :
    expand_variables os_ok 0
        ([DQUOTE] ++ default_form ['X'] ['$', 'V', '-', '$', '?'] ++ [DQUOTE]) MAX_LINE =
      some ([DQUOTE] ++ ['a'] ++ [DQUOTE]) ∧
    expand_variables os_ok 0
        ([DQUOTE] ++ default_form ['Y'] ['$', 'V', '-', '$', '?'] ++ [DQUOTE]) MAX_LINE =
      some ([DQUOTE] ++ ['h', 'e', 'l', 'l', 'o', '-', '0'] ++ [DQUOTE]) :=
  ⟨(expand_default_no_brace os_ok 0 MAX_LINE ['X'] ['$', 'V', '-', '$', '?']
      ['h', 'e', 'l', 'l', 'o', '-', '0'] [DQUOTE] [DQUOTE]
      (by decide) (by decide) (by decide) (by decide) (by decide) (by decide)
      (by decide) (by decide) (by decide) (by decide) (by decide)).1
      ['a'] (by decide) (by decide) (by decide) (by decide),
   (expand_default_no_brace os_ok 0 MAX_LINE ['Y'] ['$', 'V', '-', '$', '?']
      ['h', 'e', 'l', 'l', 'o', '-', '0'] [DQUOTE] [DQUOTE]
      (by decide) (by decide) (by decide) (by decide) (by decide) (by decide)
      (by decide) (by decide) (by decide) (by decide) (by decide)).2.1
      (Or.inl (by decide)) (by decide)⟩

/-! ### The expander: depth of the recursion -/

theorem span_to_brace_full (d : List Char) (h0 : NUL ∉ d) (h1 : '}' ∉ d) :
    span_to_brace d = d.length := by
  have := span_to_brace_append d [] h0 h1
  induction d with
  | nil => rfl
  | cons c d ih =>
    have hc0 : c ≠ NUL := fun e => h0 (by simp [e])
    have hc1 : c ≠ '}' := fun e => h1 (by simp [e])
    rw [span_to_brace, if_pos ⟨hc0, hc1⟩,
      ih (fun h => h0 (List.mem_cons_of_mem c h)) (fun h => h1 (List.mem_cons_of_mem c h))
        (span_to_brace_append d [] (fun h => h0 (List.mem_cons_of_mem c h))
          (fun h => h1 (List.mem_cons_of_mem c h)))]
    rfl

theorem nested_default_length (k : Nat) : (nested_default k).length = 4 * k := by
  induction k with
  | zero => rfl
  | succ k ih => simp only [nested_default, List.length_cons, ih]; omega

theorem nested_default_chars (k : Nat) :
    ∀ c ∈ nested_default k, c = '$' ∨ c = '{' ∨ c = ':' ∨ c = '-' := by
  induction k with
  | zero => intro c h; cases h
  | succ k ih =>
    intro c h
    simp only [nested_default, List.mem_cons] at h
    rcases h with h | h | h | h | h
    · exact Or.inl h
    · exact Or.inr (Or.inl h)
    · exact Or.inr (Or.inr (Or.inl h))
    · exact Or.inr (Or.inr (Or.inr h))
    · exact ih c h

theorem nested_default_no_nul (k : Nat) : NUL ∉ nested_default k := by
  intro h
  rcases nested_default_chars k NUL h with e | e | e | e <;> exact absurd e (by decide)

theorem nested_default_no_brace (k : Nat) : '}' ∉ nested_default k := by
  intro h
  rcases nested_default_chars k '}' h with e | e | e | e <;> exact absurd e (by decide)

/-- The iteration at an unterminated `${:-` that begins the input: the whole
rest of the input is the default text handed to the recursive call. -/
theorem expand_step_unterminated (os : OS) (ls : Int) (outsz : Nat) (d : CStr)
    (hd0 : NUL ∉ d) (hd1 : '}' ∉ d) (hdlen : d.length ≤ MAX_LINE - 1) (hsz : 1 < outsz) :
    expand_step os ls outsz ('$' :: '{' :: ':' :: '-' :: d) 0 false false [] =
      ExpandStep.dflt d [] 3 := by
  have f0 : inAt ('$' :: '{' :: ':' :: '-' :: d) 0 = '$' := rfl
  have f1 : inAt ('$' :: '{' :: ':' :: '-' :: d) (0 + 1) = '{' := rfl
  have f2 : ('$' :: '{' :: ':' :: '-' :: d).drop (0 + 2) = ':' :: '-' :: d := rfl
  have f3 : span_name (':' :: '-' :: d) = 0 := by rw [span_name, if_neg]; decide
  have f4 : inAt ('$' :: '{' :: ':' :: '-' :: d) (0 + 2 + 0) = ':' := rfl
  have f5 : inAt ('$' :: '{' :: ':' :: '-' :: d) (0 + 2 + 0 + 1) = '-' := rfl
  have f6 : ('$' :: '{' :: ':' :: '-' :: d).drop (0 + 2 + 0 + 2) = d := rfl
  have f7 : span_to_brace d = d.length := span_to_brace_full d hd0 hd1
  have f8 : inAt ('$' :: '{' :: ':' :: '-' :: d) (0 + 2 + 0 + 2 + d.length) = NUL :=
    inAt_of_le _ _ (by simp only [List.length_cons]; omega)
  have c0 : ¬ ('$' = NUL ∨ ¬ (([] : List Char).length + 1 < outsz)) := by
    intro h
    rcases h with h | h
    · exact absurd h (by decide)
    · exact h (by simpa using hsz)
  have c1 : ¬ ('$' = SQUOTE ∧ false = false) := fun h => absurd h.1 (by decide)
  have c2 : ¬ ('$' = DQUOTE ∧ false = false) := fun h => absurd h.1 (by decide)
  have c3 : ('$' : Char) = '$' ∧ false = false := ⟨rfl, rfl⟩
  have c4 : ¬ ('{' : Char) = '$' := by decide
  have c5 : ¬ ('{' : Char) = '?' := by decide
  have c6 : ('{' : Char) = '{' ∧ (':' : Char) = ':' ∧ ('-' : Char) = '-' := ⟨rfl, rfl, rfl⟩
  have c7 : ¬ NUL = '}' := by decide
  unfold expand_step
  dsimp only []
  rw [f0, f1, f2, f3, f4, f5, f6, f7, f8]
  rw [if_neg c0, if_neg c1, if_neg c2, if_pos c3, if_neg c4, if_neg c5, if_pos c6, if_neg c7]
  have g1 : min (0 + 2 + 0 + 2 + d.length - (0 + 2 + 0 + 2)) (MAX_LINE - 1) = d.length := by
    omega
  rw [g1, List.take_length]
  rfl

/-- A line of `k` unterminated `${:-` forms nests `k` activations. -/
theorem nested_default_depth (os : OS) (ls : Int) :
    ∀ (k outsz : Nat), 4 * k ≤ MAX_LINE + 3 → 1 < outsz →
      CallDepth os ls outsz (nested_default k) k := by
  intro k
  induction k with
  | zero => intro outsz _ _; exact CallDepth.here outsz _
  | succ k ih =>
    intro outsz hk hsz
    have hlen := nested_default_length k
    have hstep := expand_step_unterminated os ls outsz (nested_default k)
      (nested_default_no_nul k) (nested_default_no_brace k) (by omega) hsz
    exact CallDepth.nest outsz _ 0 false false [] (nested_default k) [] 3 k
      LoopReach.start hstep (ih MAX_LINE (by omega) (by decide))

/-- C17 (the code departs from the claim): the line of 1023 copies of the
unterminated form `${:-` has 4092 characters, which `main` can read, and
`expand_variables` nests 1023 activations on it, one inside the other; each
keeps `frame_bytes` (8448 bytes) of arrays live across its recursive call, which
together exceed the default stack of 8 MiB (8388608 bytes). -/
theorem expand_nested_default_exceeds_stack :
    (nested_default 1023).length = 4092 ∧ (nested_default 1023).length < MAX_LINE ∧
    NUL ∉ nested_default 1023 ∧
    CallDepth os_ok 0 MAX_LINE (nested_default 1023) 1023 ∧
    frame_bytes = 8448 ∧ default_stack_bytes = 8388608 ∧
    default_stack_bytes < 1023 * frame_bytes := by
  refine ⟨nested_default_length 1023, ?_, nested_default_no_nul 1023,
    nested_default_depth os_ok 0 1023 MAX_LINE (by decide) (by decide), by decide, by decide,
    by decide⟩
  rw [nested_default_length]
  decide

end MyShell
